import Mathlib

/-!
# Heap: a first-fit allocator over one static region

A shallow embedding of `source/heap/Heap.c` and the properties of its
specification.

## Memory model

* Addresses, sizes and pointers are natural numbers; every C operation on
  `size_t` or `uintptr_t` is reduced modulo `2 ^ w`, where `w` is the width of
  these types on the port.  The null pointer is address `0`.
* `Heap.blocks a` is the `struct Block` header stored at address `a`
  (`HeapInstance.head` lives at address `Heap.head`), `Heap.bytes a` is the
  byte stored at address `a`.  Header words and bytes are two stores: the code
  reads a byte only where it checks a watermark and a header only where a
  block starts.  In C they are one memory, so the model follows the code as
  long as no watermark is stamped over a header.  Under the invariant `Inv`
  every block is at least `GetTotalSize(0)` long, so its guards lie behind its
  header and before the next block; the theorems about what a call writes are
  stated for states that satisfy `Inv`, and `Run.inv` proves `Inv` along the
  runs whose requests do not wrap.  After a request whose
  `GetTotalSize` wraps the granted block can be shorter than that; the
  evaluation of such a request among the statements at concrete inputs stops at
  the point where a guard lies on a header.
* The hooks of `struct HeapConfig` are user code; a call of a hook is recorded
  in `Heap.calls`, in call order.
* The two list walks take a fuel argument: `Outcome.outOfFuel` stands for a
  walk that was cut off, `Outcome.assertFailed` for a fired `ASSERT`.

The constants the port fixes (`HEAP_ALIGNMENT`, `HEAP_WATERMARK_SIZE`,
`sizeof(struct Block)` and the word width) are the fields of `Platform`;
`x86_64` is the usual 64-bit instance.

## Contents

* the functions of `Heap.c`, under their names;
* `Run`: the runs whose requests do not wrap, with the outstanding and the leaked pointers;
* `Layout`, `Inv`: the invariant of the allocator over a list of blocks that
  tile the region (`Tile`, `Tiled`, `freeBlocks`, `NoAdjacentFree`), with
  `Inv.init`, `Inv.alloc_step`, `Inv.free_step` and `Run.inv`;
* the hook calls of one operation, the insertion point of `Heap_Free`, the blocks along a run
  (disjointness, size conservation, order of the free list, alignment of the sizes), the release
  that undoes an allocation, the merge on both sides and the split policy;
* the properties of the specification, each at a concrete input as well.
-/

namespace HeapSpec

/-- The constants fixed by the port and the compiler. -/
structure Platform where
  /-- Width in bits of `size_t` and `uintptr_t`. -/
  w : Nat
  /-- `HEAP_ALIGNMENT`, by default `_Alignof(max_align_t)`. -/
  HEAP_ALIGNMENT : Nat
  /-- `HEAP_WATERMARK_SIZE`, by default `4U`. -/
  HEAP_WATERMARK_SIZE : Nat
  /-- `sizeof(struct Block)`. -/
  sizeof_Block : Nat

/-- Number of values of `size_t`: `SIZE_MAX + 1`. -/
def Platform.range (P : Platform) : Nat := 2 ^ P.w

/-- Addition of `size_t` / `uintptr_t` values. -/
def Platform.add (P : Platform) (a b : Nat) : Nat := (a + b) % P.range

/-- Subtraction of `size_t` / `uintptr_t` values. -/
def Platform.sub (P : Platform) (a b : Nat) : Nat := (a + (P.range - b % P.range)) % P.range

/-- The usual 64-bit port: 16-byte `max_align_t`, two-word block header. -/
def x86_64 : Platform := ⟨64, 16, 4, 16⟩

/-- The header `struct Block`. -/
structure Block where
  /-- Next memory block; `0` (NULL) if it is the last free block. -/
  p_next : Nat
  /-- Size of the memory (including this structure). -/
  total_size : Nat
deriving DecidableEq

/-- The five callbacks of `struct HeapConfig`, as events. -/
inductive Hook where
  | corrupted_data_hook
  | alloc_failed_hook
  | invalid_pointer_hook
  | enter_critical_section
  | exit_critical_section
deriving DecidableEq

/-- The record `struct HeapConfig`: each field tells whether the function pointer is non-NULL. -/
structure HeapConfig where
  corrupted_data_hook : Bool
  alloc_failed_hook : Bool
  invalid_pointer_hook : Bool
  enter_critical_section : Bool
  exit_critical_section : Bool
deriving DecidableEq

/-- The memory the module works on, `HeapInstance` included, and the hook calls made so far. -/
structure Heap where
  /-- `HeapInstance.config`. -/
  config : HeapConfig
  /-- Address of `HeapInstance.head`. -/
  head : Nat
  /-- Header stored at each address. -/
  blocks : Nat → Block
  /-- Byte stored at each address. -/
  bytes : Nat → Nat
  /-- Hook calls, oldest first. -/
  calls : List Hook

/-- How a call of the module ends. -/
inductive Outcome (α : Type) where
  /-- The call returned. -/
  | done (a : α)
  /-- An `ASSERT` fired. -/
  | assertFailed
  /-- The list walk did not end within the fuel. -/
  | outOfFuel

/-- The store `p->p_next = v`. -/
def Heap.setNext (h : Heap) (p v : Nat) : Heap :=
  { h with blocks := fun a => if a = p then { h.blocks a with p_next := v } else h.blocks a }

/-- The store `p->total_size = v`. -/
def Heap.setSize (h : Heap) (p v : Nat) : Heap :=
  { h with blocks := fun a => if a = p then { h.blocks a with total_size := v } else h.blocks a }

/-- The store `*p = v` of one byte. -/
def Heap.setByte (h : Heap) (p v : Nat) : Heap :=
  { h with bytes := fun a => if a = p then v else h.bytes a }

/-- A call of one hook of `HeapInstance.config`. -/
def Heap.call (h : Heap) (k : Hook) : Heap :=
  { h with calls := h.calls ++ [k] }

/-- Magic value used to mark boundaries of allocated block. -/
def WATERMARK : Nat := 0xAA

/-- Returns the offset enlarged to the nearest multiple of `HEAP_ALIGNMENT`. -/
def AddPadding (P : Platform) (offset : Nat) : Nat :=
  let remainder := offset % P.HEAP_ALIGNMENT
  let padding := if remainder ≠ 0 then P.HEAP_ALIGNMENT - remainder else 0
  P.add offset padding

/-- Get padding size required to align the passed pointer. -/
def GetPaddingSizeFromPointer (P : Platform) (p_data : Nat) : Nat :=
  let remainder := p_data % P.HEAP_ALIGNMENT
  if remainder ≠ 0 then P.HEAP_ALIGNMENT - remainder else 0

/-- Get offset of data from the beginning of block. -/
def GetOffsetOfData (P : Platform) : Nat :=
  let fields_size := P.add P.sizeof_Block P.HEAP_WATERMARK_SIZE
  AddPadding P fields_size

/-- Get minimal total block size required to hold data of the given size. -/
def GetTotalSize (P : Platform) (data_size : Nat) : Nat :=
  P.add (P.add (GetOffsetOfData P) data_size) P.HEAP_WATERMARK_SIZE

/-- Get offset of head guard from the beginning of block. -/
def GetOffsetOfHeadGuard (P : Platform) : Nat := P.sizeof_Block

/-- Get offset of tail guard from the beginning of block. -/
def GetOffsetOfTailGuard (P : Platform) (block_size : Nat) : Nat :=
  P.sub block_size P.HEAP_WATERMARK_SIZE

/-- The loop `for (i = 0; i < n; i++) p[i] = WATERMARK;`. -/
def stampGuard (P : Platform) (h : Heap) (p : Nat) : Nat → Heap
  | 0 => h
  | n + 1 => (stampGuard P h p n).setByte (P.add p n) WATERMARK

/-- The loop `for (i = 0; i < n; i++) if (p[i] != WATERMARK) return false;`:
true when the loop runs to its end. -/
def guardIntact (P : Platform) (h : Heap) (p : Nat) : Nat → Bool
  | 0 => true
  | n + 1 => guardIntact P h p n && decide (h.bytes (P.add p n) = WATERMARK)

/-- Apply watermarks to the block.  The guards are stamped into the byte store and the header
store is left as it is: this is what the code does to memory when both guards lie behind the
header of the block and before its end, that is when `total_size` is at least
`sizeof(struct Block) + 2 * HEAP_WATERMARK_SIZE`. -/
def ApplyWatermarks (P : Platform) (h : Heap) (p_block : Nat) : Heap :=
  let p_head := P.add p_block (GetOffsetOfHeadGuard P)
  let h := stampGuard P h p_head P.HEAP_WATERMARK_SIZE
  let p_tail := P.add p_block (GetOffsetOfTailGuard P (h.blocks p_block).total_size)
  stampGuard P h p_tail P.HEAP_WATERMARK_SIZE

/-- Checks watermarks of the block. -/
def CheckWatermarks (P : Platform) (h : Heap) (p_block : Nat) : Bool :=
  let p_head := P.add p_block (GetOffsetOfHeadGuard P)
  if !guardIntact P h p_head P.HEAP_WATERMARK_SIZE then false
  else
    let p_tail := P.add p_block (GetOffsetOfTailGuard P (h.blocks p_block).total_size)
    if !guardIntact P h p_tail P.HEAP_WATERMARK_SIZE then false
    else true

/-- The loop of `FindBlockThatPrecedesFreeOne`, entered with the iterator at `p_it`. -/
def FindBlockThatPrecedesFreeOne_loop (h : Heap) (total_size : Nat) : Nat → Nat → Outcome Nat
  | 0, _ => .outOfFuel
  | fuel + 1, p_it =>
    let p_next := (h.blocks p_it).p_next
    if p_next = 0 then .done 0
    else if (h.blocks p_next).total_size ≥ total_size then .done p_it
    else FindBlockThatPrecedesFreeOne_loop h total_size fuel p_next

/-- Find the first free block of size equal or greater than given total_size and return the
previous one. NULL in case of failure. -/
def FindBlockThatPrecedesFreeOne (h : Heap) (fuel total_size : Nat) : Outcome Nat :=
  FindBlockThatPrecedesFreeOne_loop h total_size fuel h.head

/-- The loop of `FindPrecendingBlock`, entered with the iterator at `p_it`. -/
def FindPrecendingBlock_loop (h : Heap) (p_block : Nat) : Nat → Nat → Outcome Nat
  | 0, _ => .outOfFuel
  | fuel + 1, p_it =>
    if (h.blocks p_it).p_next = 0 then .done p_it
    else if (h.blocks p_it).p_next ≥ p_block then .done p_it
    else FindPrecendingBlock_loop h p_block fuel (h.blocks p_it).p_next

/-- Find the previous block to the given in the free block list. -/
def FindPrecendingBlock (h : Heap) (fuel p_block : Nat) : Outcome Nat :=
  FindPrecendingBlock_loop h p_block fuel h.head

/-- Try to split the given block. It makes sure that the given block will have at least
`total_size`. -/
def TryToSplitBlock (P : Platform) (h : Heap) (p_block total_size : Nat) : Heap :=
  let aligned_size := AddPadding P total_size
  let min_size := GetTotalSize P 0
  if (h.blocks p_block).total_size > P.add aligned_size min_size then
    let new_block_size := P.sub (h.blocks p_block).total_size aligned_size
    let h := h.setSize p_block aligned_size
    let p_new := P.add p_block (h.blocks p_block).total_size
    let h := h.setSize p_new new_block_size
    let h := h.setNext p_new (h.blocks p_block).p_next
    h.setNext p_block p_new
  else h

/-- Try to merge the given block with the next one (only when they are adjacent). -/
def TryToMergeWithNextBlock (P : Platform) (h : Heap) (p_block : Nat) : Outcome Heap :=
  let p_next := (h.blocks p_block).p_next
  if P.add p_block (h.blocks p_block).total_size = p_next then
    if p_next = 0 then .assertFailed
    else
      let h := h.setNext p_block (h.blocks p_next).p_next
      .done (h.setSize p_block (P.add (h.blocks p_block).total_size (h.blocks p_next).total_size))
  else .done h

/-- Initialize heap module.  `p_config = none` is a NULL configuration pointer. -/
def Heap_Init (P : Platform) (h : Heap) (p_config : Option HeapConfig) (p_data size : Nat) :
    Outcome Heap :=
  if p_data = 0 then .assertFailed
  else match p_config with
  | none => .assertFailed
  | some c =>
    if !c.invalid_pointer_hook then .assertFailed
    else if !c.alloc_failed_hook then .assertFailed
    else if !c.corrupted_data_hook then .assertFailed
    else if !c.enter_critical_section then .assertFailed
    else if !c.exit_critical_section then .assertFailed
    else
      let h := { h with config := c }
      let padding := GetPaddingSizeFromPointer P p_data
      if ¬ padding ≤ size then .assertFailed
      else
        let aligned_size := size - padding
        let min_size := GetTotalSize P 0
        if ¬ min_size ≤ aligned_size then .assertFailed
        else
          let p_first := P.add p_data padding
          let h := h.setNext p_first 0
          let h := h.setSize p_first aligned_size
          let h := h.setSize h.head 0
          .done (h.setNext h.head p_first)

/-- Allocates a block of memory: the new state and the returned pointer (`0` is NULL). -/
def Heap_Alloc (P : Platform) (fuel : Nat) (h : Heap) (size : Nat) : Outcome (Heap × Nat) :=
  let total_size := GetTotalSize P size
  let h := h.call .enter_critical_section
  match FindBlockThatPrecedesFreeOne h fuel total_size with
  | .outOfFuel => .outOfFuel
  | .assertFailed => .assertFailed
  | .done p_prev =>
    if p_prev ≠ 0 then
      let p_free := (h.blocks p_prev).p_next
      if p_free = 0 then .assertFailed
      else
        let h := TryToSplitBlock P h p_free total_size
        let h := h.setNext p_prev (h.blocks p_free).p_next
        let h := h.call .exit_critical_section
        let h := h.setNext p_free 0
        let h := ApplyWatermarks P h p_free
        .done (h, P.add p_free (GetOffsetOfData P))
    else
      let h := h.call .exit_critical_section
      let h := h.call .alloc_failed_hook
      .done (h, 0)

/-- Deallocate previously allocated memory. -/
def Heap_Free (P : Platform) (fuel : Nat) (h : Heap) (p_data : Nat) : Outcome Heap :=
  if p_data = 0 then .done h
  else
    let p_block := P.sub p_data (GetOffsetOfData P)
    if GetPaddingSizeFromPointer P p_block ≠ 0 then .done (h.call .invalid_pointer_hook)
    else if (h.blocks p_block).p_next ≠ 0 then .done (h.call .invalid_pointer_hook)
    else if !CheckWatermarks P h p_block then .done (h.call .corrupted_data_hook)
    else
      let h := h.call .enter_critical_section
      match FindPrecendingBlock h fuel p_block with
      | .outOfFuel => .outOfFuel
      | .assertFailed => .assertFailed
      | .done p_prev =>
        if p_prev ≠ 0 then
          let h := h.setNext p_block (h.blocks p_prev).p_next
          let h := h.setNext p_prev p_block
          match TryToMergeWithNextBlock P h p_block with
          | .outOfFuel => .outOfFuel
          | .assertFailed => .assertFailed
          | .done h =>
            match TryToMergeWithNextBlock P h p_prev with
            | .outOfFuel => .outOfFuel
            | .assertFailed => .assertFailed
            | .done h => .done (h.call .exit_critical_section)
        else
          let h := h.call .exit_critical_section
          .done (h.call .invalid_pointer_hook)

/-- A configuration with all five hooks present. -/
def allHooks : HeapConfig := ⟨true, true, true, true, true⟩

/-- Memory before `Heap_Init`: zeroed, with `HeapInstance.head` at address `0x100`. -/
def blank : Heap := ⟨⟨false, false, false, false, false⟩, 0x100, fun _ => ⟨0, 0⟩, fun _ => 0, []⟩

/-- `Path h p l q`: starting at the node `p`, the `p_next` links visit the blocks of `l`, none of
them NULL, in this order and then hold `q`. -/
def Path (h : Heap) : Nat → List Nat → Nat → Prop
  | p, [], q => (h.blocks p).p_next = q
  | p, b :: l, q => (h.blocks p).p_next = b ∧ b ≠ 0 ∧ Path h b l q

/-- Whether `Path h p l q` holds can be computed. -/
instance Path.decide (h : Heap) : ∀ p l q, Decidable (Path h p l q)
  | p, [], q => inferInstanceAs (Decidable ((h.blocks p).p_next = q))
  | _, b :: l, q =>
    @instDecidableAnd _ _ _ (@instDecidableAnd _ _ _ (Path.decide h b l q))

/-- `FreeList h l`: the free list, from the first block after `HeapInstance.head` to the block
whose `p_next` is NULL, is `l`. -/
def FreeList (h : Heap) (l : List Nat) : Prop := Path h h.head l 0

/-- Whether `FreeList h l` holds can be computed. -/
instance FreeList.decide (h : Heap) (l : List Nat) : Decidable (FreeList h l) :=
  Path.decide h h.head l 0

/-- The state `Heap_Alloc` leaves when its search returned `p_prev`, not NULL: the block after
`p_prev` is split if it can be, unlinked, marked as used and stamped. -/
def granted (P : Platform) (h : Heap) (p_prev total_size : Nat) : Heap :=
  let h := h.call .enter_critical_section
  let p_free := (h.blocks p_prev).p_next
  let h := TryToSplitBlock P h p_free total_size
  let h := h.setNext p_prev (h.blocks p_free).p_next
  let h := h.call .exit_critical_section
  let h := h.setNext p_free 0
  ApplyWatermarks P h p_free

/-- The state `Heap_Alloc` leaves when its search returned NULL. -/
def refused (h : Heap) : Heap :=
  ((h.call .enter_critical_section).call .exit_critical_section).call .alloc_failed_hook

/-- The state right after `Heap_Init` on a 256-byte region at the aligned address `0x1000`. -/
def fresh256 : Heap :=
  match Heap_Init x86_64 blank (some allHooks) 0x1000 256 with
  | .done h => h
  | _ => blank

/-- The state right after `Heap_Init` on a 255-byte region that starts one byte past the aligned
address `0x1000`. -/
def freshUnaligned : Heap :=
  match Heap_Init x86_64 blank (some allHooks) 0x1001 255 with
  | .done h => h
  | _ => blank

/-- The state after the first `Heap_Alloc(10)` on `fresh256`: the block at `0x1000` is in use. -/
def used256 : Heap := granted x86_64 fresh256 fresh256.head (GetTotalSize x86_64 10)

/-- One block of the region: where it starts, its `total_size`, and whether it is free. -/
structure Tile where
  addr : Nat
  size : Nat
  free : Bool
deriving DecidableEq

/-- `Tiled a ts e`: the blocks `ts` lie back to back, the first at address `a`, the last ending at
address `e`; the `total_size` of each is the distance to the next one. -/
def Tiled : Nat → List Tile → Nat → Prop
  | a, [], e => a = e
  | a, t :: ts, e => t.addr = a ∧ Tiled (a + t.size) ts e

/-- The addresses of the free blocks, in address order. -/
def freeBlocks (ts : List Tile) : List Nat :=
  (ts.filter (fun t => t.free)).map (fun t => t.addr)

/-- No free block is followed immediately by a free block. -/
def NoAdjacentFree (ts : List Tile) : Prop :=
  ts.Chain' (fun s t => ¬ (s.free = true ∧ t.free = true))

/-- The layout invariant of the allocator over the aligned region `[lo, hi)`: the blocks `ts` tile
the region, every block is aligned, at least `GetTotalSize(0)` long and has its length in its
header, the free list is the list of the free blocks in address order, and a block in use has a
NULL `p_next`.  `HeapInstance.head` lies outside the region and has `total_size` 0. -/
structure Layout (P : Platform) (h : Heap) (lo hi : Nat) (ts : List Tile) : Prop where
  head_ne : h.head ≠ 0
  head_lt : h.head < P.range
  head_out : h.head < lo ∨ hi ≤ h.head
  head_size : (h.blocks h.head).total_size = 0
  lo_pos : 0 < lo
  hi_lt : hi < P.range
  span : 2 * (hi - lo) ≤ P.range
  tiled : Tiled lo ts hi
  tile_ok : ∀ t ∈ ts, P.HEAP_ALIGNMENT ∣ t.addr ∧ GetTotalSize P 0 ≤ t.size ∧
    (h.blocks t.addr).total_size = t.size
  free_list : FreeList h (freeBlocks ts)
  used_next : ∀ t ∈ ts, t.free = false → (h.blocks t.addr).p_next = 0

/-- The invariant of the allocator: the layout invariant, and no two free blocks are adjacent. -/
structure Inv (P : Platform) (h : Heap) (lo hi : Nat) (ts : List Tile) : Prop where
  layout : Layout P h lo hi ts
  no_adj : NoAdjacentFree ts

/-- The bounds the layout invariant gives for the blocks around the block `tb`. -/
structure Around (P : Platform) (h : Heap) (lo hi : Nat) (T1 : List Tile) (tb : Tile)
    (T2 : List Tile) : Prop where
  min_pos : 0 < GetTotalSize P 0
  lo_le : lo ≤ tb.addr
  le_hi : tb.addr + tb.size ≤ hi
  before : ∀ s ∈ T1, lo ≤ s.addr ∧ s.addr + s.size ≤ tb.addr ∧ 0 < s.size
  after : ∀ s ∈ T2, tb.addr + tb.size ≤ s.addr ∧ s.addr + s.size ≤ hi ∧ 0 < s.size
  head_lo : h.head < lo ∨ hi ≤ h.head
  before_tiled : Tiled lo T1 tb.addr
  after_tiled : Tiled (tb.addr + tb.size) T2 hi

/-- The tiling after `Heap_Alloc` took the free block `tb`, found between `T1` and `T2`, for a
required size `t`: the block is cut when what is left over exceeds `GetTotalSize(0)`. -/
def carved (P : Platform) (T1 : List Tile) (tb : Tile) (T2 : List Tile) (t : Nat) : List Tile :=
  if tb.size > AddPadding P t + GetTotalSize P 0 then
    T1 ++ ⟨tb.addr, AddPadding P t, false⟩ ::
      ⟨tb.addr + AddPadding P t, tb.size - AddPadding P t, true⟩ :: T2
  else T1 ++ ⟨tb.addr, tb.size, false⟩ :: T2

/-- The freed block `t` merged with the block that follows it, when that one is free. -/
def mergeRight (t : Tile) : List Tile → List Tile
  | [] => [⟨t.addr, t.size, true⟩]
  | n :: T2 => if n.free then ⟨t.addr, t.size + n.size, true⟩ :: T2
    else ⟨t.addr, t.size, true⟩ :: n :: T2

/-- The blocks `T1` followed by the blocks `T`, the last block of `T1` merged with the first of
`T` when it is free. -/
def mergeLeft : List Tile → List Tile → List Tile
  | [], T => T
  | [q], t :: T => if q.free then ⟨q.addr, q.size + t.size, true⟩ :: T else q :: t :: T
  | [q], [] => [q]
  | q :: q' :: T1, T => q :: mergeLeft (q' :: T1) T

/-- The tiling after `Heap_Free` released the block `tb`, found between `T1` and `T2`. -/
def released (T1 : List Tile) (tb : Tile) (T2 : List Tile) : List Tile :=
  mergeLeft T1 (mergeRight tb T2)

/-- A region `(p_data, size)` is a memory object of the program, and `HeapInstance` is another
one: the region does not start at NULL, ends inside the address space, is no longer than half of
it (`PTRDIFF_MAX`), and does not hold the address `head` of `HeapInstance.head`. -/
def Region (P : Platform) (head p_data size : Nat) : Prop :=
  p_data ≠ 0 ∧ p_data + size < P.range ∧ 2 * size ≤ P.range ∧
  head ≠ 0 ∧ head < P.range ∧ (head < p_data ∨ p_data + size ≤ head)

/-- The runs of a program that uses the module as it is meant to be used, on the region
`(p_data, size)`: `Heap_Init` once, then calls of `Heap_Alloc` with sizes whose `GetTotalSize`
does not wrap, calls of `Heap_Free` on outstanding pointers, and stores of bytes into outstanding
blocks, behind their headers.  A run ends in a state, with the list of the outstanding pointers
and the list of the pointers whose block `Heap_Free` found with a damaged guard. -/
inductive Run (P : Platform) (p_data size : Nat) : Heap → List Nat → List Nat → Prop
  | init (h0 h : Heap) (c : HeapConfig) :
      Region P h0.head p_data size → Heap_Init P h0 (some c) p_data size = .done h →
      Run P p_data size h [] []
  | alloc (h h' : Heap) (out leaked : List Nat) (fuel n p : Nat) :
      Run P p_data size h out leaked →
      GetOffsetOfData P + n + P.HEAP_WATERMARK_SIZE < P.range →
      Heap_Alloc P fuel h n = .done (h', p) →
      Run P p_data size h' (if p = 0 then out else p :: out) leaked
  | free (h h' : Heap) (out leaked : List Nat) (fuel p : Nat) :
      Run P p_data size h out leaked → p ∈ out → Heap_Free P fuel h p = .done h' →
      Run P p_data size h' (out.erase p)
        (if CheckWatermarks P h (P.sub p (GetOffsetOfData P)) then leaked else p :: leaked)
  | store (h : Heap) (out leaked : List Nat) (p a v : Nat) :
      Run P p_data size h out leaked → p ∈ out →
      P.sub p (GetOffsetOfData P) + P.sizeof_Block ≤ a →
      a < P.sub p (GetOffsetOfData P) + (h.blocks (P.sub p (GetOffsetOfData P))).total_size →
      Run P p_data size (h.setByte a v) out leaked

/-- The pointers handed out are the data pointers of the blocks in use, each once: `out` lists the
outstanding ones, `leaked` those of blocks left in use after a damaged guard. -/
def Outstanding (P : Platform) (ts : List Tile) (out leaked : List Nat) : Prop :=
  (out ++ leaked).Nodup ∧
  ∀ p, p ∈ out ++ leaked ↔ ∃ t ∈ ts, t.free = false ∧ p = t.addr + GetOffsetOfData P

/-- The branch `if (p_prev != NULL)` of `Heap_Free` and the call of `exit_critical_section` that
follows it: the block is linked behind `p_prev`, then merged with its successor and `p_prev` with
it, where they are adjacent. -/
def spliced (P : Platform) (h : Heap) (p_prev p_block : Nat) : Outcome Heap :=
  let h := h.setNext p_block (h.blocks p_prev).p_next
  let h := h.setNext p_prev p_block
  match TryToMergeWithNextBlock P h p_block with
  | .outOfFuel => .outOfFuel
  | .assertFailed => .assertFailed
  | .done h =>
    match TryToMergeWithNextBlock P h p_prev with
    | .outOfFuel => .outOfFuel
    | .assertFailed => .assertFailed
    | .done h => .done (h.call .exit_critical_section)

/-- The state right after `Heap_Init` on a 250-byte region at the aligned address `0x1000`. -/
def fresh250 : Heap :=
  match Heap_Init x86_64 blank (some allHooks) 0x1000 250 with
  | .done h => h
  | _ => blank

/-- The state right after `Heap_Init` on an 84-byte region at the aligned address `0x1000`. -/
def fresh84 : Heap :=
  match Heap_Init x86_64 blank (some allHooks) 0x1000 84 with
  | .done h => h
  | _ => blank

/-- The state after two calls `Heap_Alloc(10)` on `fresh256`: the blocks at `0x1000` and `0x1030` are in use. -/
def twoUsed256 : Heap := granted x86_64 used256 used256.head (GetTotalSize x86_64 10)

/-- The state after `Heap_Alloc(10)` on `fresh250`. -/
def used250 : Heap := granted x86_64 fresh250 fresh250.head (GetTotalSize x86_64 10)

/-- The state a returning `Heap_Alloc(size)` leaves on the 64-bit port. -/
def afterAlloc (h : Heap) (size : Nat) : Heap :=
  match Heap_Alloc x86_64 4 h size with
  | .done (h', _) => h'
  | _ => h

/-- The state a returning `Heap_Free(p_data)` leaves on the 64-bit port. -/
def afterFree (h : Heap) (p_data : Nat) : Heap :=
  match Heap_Free x86_64 4 h p_data with
  | .done h' => h'
  | _ => h

/-- The state after three calls `Heap_Alloc(10)` on `fresh256` and the release of the first and
the third block: the block at `0x1030` is in use between two free blocks. -/
def sandwich256 : Heap :=
  afterFree (afterFree (afterAlloc (afterAlloc (afterAlloc fresh256 10) 10) 10) 0x1020) 0x1080

/-- Sanity of the port constants: the header is not empty, the alignment is positive and divides `SIZE_MAX + 1` (it is a
power of two), and a header, two guards and two alignment units are small against the range of
`size_t`. -/
structure Platform.Sane (P : Platform) : Prop where
  block_pos : 0 < P.sizeof_Block
  align_pos : 0 < P.HEAP_ALIGNMENT
  align_dvd : P.HEAP_ALIGNMENT ∣ P.range
  small : 2 * (P.sizeof_Block + 2 * P.HEAP_WATERMARK_SIZE + 2 * P.HEAP_ALIGNMENT) ≤ P.range

/-! ## Arithmetic of the layout calculator -/

theorem x86_64_sane : x86_64.Sane :=
  ⟨by decide, by decide, ⟨2 ^ 60, by norm_num [x86_64, Platform.range]⟩,
    by norm_num [x86_64, Platform.range]⟩

theorem Platform.range_pos (P : Platform) : 0 < P.range := by
  unfold Platform.range; positivity

theorem Platform.add_eq (P : Platform) {a b : Nat} (h : a + b < P.range) : P.add a b = a + b :=
  Nat.mod_eq_of_lt h

theorem Platform.add_lt (P : Platform) (a b : Nat) : P.add a b < P.range :=
  Nat.mod_lt _ P.range_pos

theorem Platform.sub_lt (P : Platform) (a b : Nat) : P.sub a b < P.range :=
  Nat.mod_lt _ P.range_pos

theorem Platform.sub_eq (P : Platform) {a b : Nat} (hb : b ≤ a) (ha : a < P.range) :
    P.sub a b = a - b := by
  unfold Platform.sub
  have hb' : b % P.range = b := Nat.mod_eq_of_lt (by omega)
  rw [hb']
  have : a + (P.range - b) = (a - b) + P.range := by omega
  rw [this, Nat.add_mod_right]
  exact Nat.mod_eq_of_lt (by omega)

theorem Platform.sub_add_cancel (P : Platform) {a : Nat} (b : Nat) (ha : a < P.range) :
    P.sub (P.add a b) b = a := by
  unfold Platform.sub Platform.add
  have hr := P.range_pos
  have h1 : b % P.range < P.range := Nat.mod_lt b hr
  have h2 := Nat.div_add_mod b P.range
  rw [Nat.mod_add_mod]
  have : a + b + (P.range - b % P.range) = a + P.range * (b / P.range + 1) := by
    rw [Nat.mul_add]; omega
  rw [this, Nat.add_mul_mod_self_left]
  exact Nat.mod_eq_of_lt ha

theorem dvd_add_of_range (P : Platform) {d a b : Nat} (hd : d ∣ P.range) (ha : d ∣ a)
    (hb : d ∣ b) : d ∣ P.add a b := by
  unfold Platform.add
  exact (Nat.dvd_mod_iff hd).2 (Nat.dvd_add ha hb)

theorem padding_zero_iff (P : Platform) (p : Nat) (hA : 0 < P.HEAP_ALIGNMENT) :
    GetPaddingSizeFromPointer P p = 0 ↔ P.HEAP_ALIGNMENT ∣ p := by
  unfold GetPaddingSizeFromPointer
  have := Nat.mod_lt p hA
  constructor
  · intro h
    by_cases h0 : p % P.HEAP_ALIGNMENT = 0
    · exact Nat.dvd_of_mod_eq_zero h0
    · simp [h0] at h; omega
  · intro h
    simp [Nat.mod_eq_zero_of_dvd h]

theorem dvd_add_padding (P : Platform) (p : Nat) (hA : 0 < P.HEAP_ALIGNMENT) :
    P.HEAP_ALIGNMENT ∣ p + GetPaddingSizeFromPointer P p := by
  unfold GetPaddingSizeFromPointer
  have hlt := Nat.mod_lt p hA
  have h2 := Nat.div_add_mod p P.HEAP_ALIGNMENT
  by_cases h0 : p % P.HEAP_ALIGNMENT = 0
  · simp [h0]; exact Nat.dvd_of_mod_eq_zero h0
  · simp only [ne_eq, h0, not_false_eq_true, if_true]
    refine ⟨p / P.HEAP_ALIGNMENT + 1, ?_⟩
    rw [Nat.mul_add]; omega

theorem padding_lt (P : Platform) (p : Nat) (hA : 0 < P.HEAP_ALIGNMENT) :
    GetPaddingSizeFromPointer P p < P.HEAP_ALIGNMENT := by
  unfold GetPaddingSizeFromPointer
  have hlt := Nat.mod_lt p hA
  simp only
  split <;> omega

theorem padding_least (P : Platform) (p k : Nat) (hA : 0 < P.HEAP_ALIGNMENT)
    (hk : P.HEAP_ALIGNMENT ∣ p + k) : GetPaddingSizeFromPointer P p ≤ k := by
  have h1 := dvd_add_padding P p hA
  have h2 := padding_lt P p hA
  by_contra hlt
  have hlt : k < GetPaddingSizeFromPointer P p := by omega
  have : P.HEAP_ALIGNMENT ∣ (p + GetPaddingSizeFromPointer P p) - (p + k) := Nat.dvd_sub' h1 hk
  have h3 : (p + GetPaddingSizeFromPointer P p) - (p + k) = GetPaddingSizeFromPointer P p - k := by
    omega
  rw [h3] at this
  have := Nat.le_of_dvd (by omega) this
  omega

theorem AddPadding_eq (P : Platform) (x : Nat) :
    AddPadding P x = P.add x (GetPaddingSizeFromPointer P x) := rfl

theorem AddPadding_dvd (P : Platform) (hP : P.Sane) (x : Nat) :
    P.HEAP_ALIGNMENT ∣ AddPadding P x := by
  rw [AddPadding_eq]
  unfold Platform.add
  exact (Nat.dvd_mod_iff hP.align_dvd).2 (dvd_add_padding P x hP.align_pos)

theorem AddPadding_bounds (P : Platform) (hP : P.Sane) (x : Nat)
    (hx : x + P.HEAP_ALIGNMENT ≤ P.range) :
    x ≤ AddPadding P x ∧ AddPadding P x < x + P.HEAP_ALIGNMENT := by
  rw [AddPadding_eq]
  have := padding_lt P x hP.align_pos
  rw [P.add_eq (by omega)]
  omega

theorem AddPadding_of_dvd (P : Platform) (hP : P.Sane) (x : Nat) (hx : x < P.range)
    (hd : P.HEAP_ALIGNMENT ∣ x) : AddPadding P x = x := by
  rw [AddPadding_eq, (padding_zero_iff P x hP.align_pos).2 hd]
  exact P.add_eq (by omega)

theorem GetOffsetOfData_bounds (P : Platform) (hP : P.Sane) :
    P.sizeof_Block + P.HEAP_WATERMARK_SIZE ≤ GetOffsetOfData P ∧
    GetOffsetOfData P < P.sizeof_Block + P.HEAP_WATERMARK_SIZE + P.HEAP_ALIGNMENT := by
  unfold GetOffsetOfData
  have h := hP.small
  have hA := hP.align_pos
  simp only
  rw [P.add_eq (by omega)]
  exact AddPadding_bounds P hP _ (by omega)

theorem GetOffsetOfData_dvd (P : Platform) (hP : P.Sane) :
    P.HEAP_ALIGNMENT ∣ GetOffsetOfData P := AddPadding_dvd P hP _

theorem GetTotalSize_eq (P : Platform) (n : Nat)
    (h : GetOffsetOfData P + n + P.HEAP_WATERMARK_SIZE < P.range) :
    GetTotalSize P n = GetOffsetOfData P + n + P.HEAP_WATERMARK_SIZE := by
  unfold GetTotalSize
  rw [P.add_eq (a := GetOffsetOfData P) (by omega), P.add_eq h]

theorem GetTotalSize_zero (P : Platform) (hP : P.Sane) :
    GetTotalSize P 0 = GetOffsetOfData P + P.HEAP_WATERMARK_SIZE := by
  have := GetOffsetOfData_bounds P hP
  have := hP.small
  have hA := hP.align_pos
  rw [GetTotalSize_eq P 0 (by omega)]; rfl

/-! ## The stores -/

@[simp] theorem setNext_head (h : Heap) (p v : Nat) : (h.setNext p v).head = h.head := rfl
@[simp] theorem setNext_bytes (h : Heap) (p v : Nat) : (h.setNext p v).bytes = h.bytes := rfl
@[simp] theorem setNext_calls (h : Heap) (p v : Nat) : (h.setNext p v).calls = h.calls := rfl
@[simp] theorem setNext_config (h : Heap) (p v : Nat) : (h.setNext p v).config = h.config := rfl
@[simp] theorem setSize_head (h : Heap) (p v : Nat) : (h.setSize p v).head = h.head := rfl
@[simp] theorem setSize_bytes (h : Heap) (p v : Nat) : (h.setSize p v).bytes = h.bytes := rfl
@[simp] theorem setSize_calls (h : Heap) (p v : Nat) : (h.setSize p v).calls = h.calls := rfl
@[simp] theorem setSize_config (h : Heap) (p v : Nat) : (h.setSize p v).config = h.config := rfl
@[simp] theorem setByte_head (h : Heap) (p v : Nat) : (h.setByte p v).head = h.head := rfl
@[simp] theorem setByte_blocks (h : Heap) (p v : Nat) : (h.setByte p v).blocks = h.blocks := rfl
@[simp] theorem setByte_calls (h : Heap) (p v : Nat) : (h.setByte p v).calls = h.calls := rfl
@[simp] theorem setByte_config (h : Heap) (p v : Nat) : (h.setByte p v).config = h.config := rfl
@[simp] theorem call_head (h : Heap) (k : Hook) : (h.call k).head = h.head := rfl
@[simp] theorem call_blocks (h : Heap) (k : Hook) : (h.call k).blocks = h.blocks := rfl
@[simp] theorem call_bytes (h : Heap) (k : Hook) : (h.call k).bytes = h.bytes := rfl
@[simp] theorem call_calls (h : Heap) (k : Hook) : (h.call k).calls = h.calls ++ [k] := rfl
@[simp] theorem call_config (h : Heap) (k : Hook) : (h.call k).config = h.config := rfl

@[simp] theorem setNext_next (h : Heap) (p v a : Nat) :
    ((h.setNext p v).blocks a).p_next = if a = p then v else (h.blocks a).p_next := by
  unfold Heap.setNext; by_cases e : a = p <;> simp [e]

@[simp] theorem setNext_size (h : Heap) (p v a : Nat) :
    ((h.setNext p v).blocks a).total_size = (h.blocks a).total_size := by
  unfold Heap.setNext; by_cases e : a = p <;> simp [e]

@[simp] theorem setSize_next (h : Heap) (p v a : Nat) :
    ((h.setSize p v).blocks a).p_next = (h.blocks a).p_next := by
  unfold Heap.setSize; by_cases e : a = p <;> simp [e]

@[simp] theorem setSize_size (h : Heap) (p v a : Nat) :
    ((h.setSize p v).blocks a).total_size = if a = p then v else (h.blocks a).total_size := by
  unfold Heap.setSize; by_cases e : a = p <;> simp [e]

@[simp] theorem setByte_bytes (h : Heap) (p v a : Nat) :
    (h.setByte p v).bytes a = if a = p then v else h.bytes a := rfl

theorem Block.ext_iff' (b : Block) (n s : Nat) : b = ⟨n, s⟩ ↔ b.p_next = n ∧ b.total_size = s := by
  cases b; simp

theorem GetTotalSize_zero_pos (P : Platform) (hP : P.Sane) : 0 < GetTotalSize P 0 := by
  have := GetTotalSize_zero P hP
  have := GetOffsetOfData_bounds P hP
  have := hP.block_pos
  omega

/-- C9: `Heap_Init` with all five hooks present on a region `(p_data, size)`, where `padding` is
the least number making `p_data + padding` a multiple of `HEAP_ALIGNMENT`: the call hits a fatal
assertion if and only if `padding > size` or `size - padding < GetTotalSize(0)`; otherwise it
returns, the sentinel head has `total_size = 0` and points to the block at `p_data + padding`,
that block has `total_size = size - padding` and no successor, and the free list is this block
alone.  A region is a memory object:
its address is not NULL, it ends inside the address space, and `HeapInstance` lies outside it. -/
theorem Heap_Init_spec (P : Platform) (hP : P.Sane) (h : Heap) (p_data size : Nat)
    (padding : Nat) (hpad : P.HEAP_ALIGNMENT ∣ p_data + padding)
    (hleast : ∀ k, P.HEAP_ALIGNMENT ∣ p_data + k → padding ≤ k)
    (hp : p_data ≠ 0) (hfit : p_data + size < P.range)
    (hhead : h.head < p_data ∨ p_data + size ≤ h.head) :
    (Heap_Init P h (some allHooks) p_data size = .assertFailed ↔
      (padding > size ∨ size - padding < GetTotalSize P 0)) ∧
    (¬ (padding > size ∨ size - padding < GetTotalSize P 0) →
      ∃ h', Heap_Init P h (some allHooks) p_data size = .done h' ∧
        h'.head = h.head ∧
        h'.blocks h'.head = ⟨p_data + padding, 0⟩ ∧
        h'.blocks (p_data + padding) = ⟨0, size - padding⟩ ∧
        FreeList h' [p_data + padding]) := by
  have hA := hP.align_pos
  have hpe : GetPaddingSizeFromPointer P p_data = padding :=
    Nat.le_antisymm (padding_least P p_data padding hA hpad)
      (hleast _ (dvd_add_padding P p_data hA))
  constructor
  · simp only [Heap_Init, hp, allHooks, hpe]
    by_cases h1 : padding ≤ size
    · by_cases h2 : GetTotalSize P 0 ≤ size - padding
      · simp [h1, h2]
      · simp [h1, h2]; omega
    · simp [h1]; omega
  · intro hn
    have h1 : padding ≤ size := by omega
    have h2 : GetTotalSize P 0 ≤ size - padding := by omega
    have hadd : P.add p_data padding = p_data + padding := P.add_eq (by omega)
    have hpos := GetTotalSize_zero_pos P hP
    have hne : h.head ≠ p_data + padding := by omega
    have hrun : Heap_Init P h (some allHooks) p_data size = .done
        (((({ h with config := allHooks }.setNext (p_data + padding) 0).setSize
          (p_data + padding) (size - padding)).setSize h.head 0).setNext h.head
            (p_data + padding)) := by
      simp only [Heap_Init, hp, allHooks, hpe]; simp [h1, h2, hadd]
    refine ⟨_, hrun, rfl, ?_, ?_, ?_⟩
    · rw [Block.ext_iff']; simp
    · rw [Block.ext_iff']; simp [Ne.symm hne]
    · simp only [FreeList, Path, setNext_next, setSize_next, setNext_head, setSize_head]
      simp [Ne.symm hne]
      omega

/-- C9 at a region that starts one byte past an aligned address. -/
theorem Heap_Init_spec_witness :
    (Heap_Init x86_64 blank (some allHooks) 0x1001 255 = .assertFailed ↔
      (15 > 255 ∨ 255 - 15 < GetTotalSize x86_64 0)) ∧
    (¬ (15 > 255 ∨ 255 - 15 < GetTotalSize x86_64 0) →
      ∃ h', Heap_Init x86_64 blank (some allHooks) 0x1001 255 = .done h' ∧
        h'.head = blank.head ∧
        h'.blocks h'.head = ⟨0x1001 + 15, 0⟩ ∧
        h'.blocks (0x1001 + 15) = ⟨0, 255 - 15⟩ ∧
        FreeList h' [0x1001 + 15]) :=
  Heap_Init_spec x86_64 x86_64_sane blank 0x1001 255 15 (by decide)
    (by intro k hk; simp only [x86_64] at hk; omega) (by decide)
    (by norm_num [x86_64, Platform.range]) (Or.inl (by decide))

/-! ## Paths through the free list -/

theorem Path.frame {h h' : Heap} : ∀ {p : Nat} {l : List Nat} {q : Nat},
    (∀ x ∈ p :: l, (h'.blocks x).p_next = (h.blocks x).p_next) → Path h p l q → Path h' p l q
  | p, [], q, hx, hp => by
    simp only [Path] at hp ⊢
    rw [hx p (by simp)]; exact hp
  | p, b :: l, q, hx, hp => by
    simp only [Path] at hp ⊢
    refine ⟨by rw [hx p (by simp)]; exact hp.1, hp.2.1, ?_⟩
    exact Path.frame (fun x hxm => hx x (List.mem_cons_of_mem _ hxm)) hp.2.2

theorem Path.append_cons_iff {h : Heap} : ∀ {p : Nat} {l1 : List Nat} {b : Nat} {l2 : List Nat} {q : Nat},
    Path h p (l1 ++ b :: l2) q ↔ Path h p l1 b ∧ b ≠ 0 ∧ Path h b l2 q
  | p, [], b, l2, q => by simp [Path]
  | p, a :: l1, b, l2, q => by
    have ih := @Path.append_cons_iff h a l1 b l2 q
    simp only [List.cons_append, Path]
    tauto

theorem Path.nonzero {h : Heap} : ∀ {p : Nat} {l : List Nat} {q : Nat},
    Path h p l q → ∀ x ∈ l, x ≠ 0
  | _, [], _, _, x, hx => by simp at hx
  | _, b :: l, _, hp, x, hx => by
    simp only [Path] at hp
    rcases List.mem_cons.1 hx with rfl | hx
    · exact hp.2.1
    · exact Path.nonzero hp.2.2 x hx

/-- The last node of the walk `p :: l`. -/
theorem Path.next_getLast {h : Heap} : ∀ {p : Nat} {l : List Nat} {q : Nat},
    Path h p l q → (h.blocks ((p :: l).getLast (List.cons_ne_nil p l))).p_next = q
  | p, [], q, hp => by simpa [Path] using hp
  | p, b :: l, q, hp => by
    simp only [Path] at hp
    rw [List.getLast_cons (List.cons_ne_nil b l)]
    exact Path.next_getLast hp.2.2

/-! ## The first-fit search -/

theorem find_loop_done {h : Heap} {t : Nat} : ∀ {l : List Nat} {p fuel r : Nat},
    Path h p l 0 → FindBlockThatPrecedesFreeOne_loop h t fuel p = .done r →
    (r = 0 ∧ ∀ b ∈ l, (h.blocks b).total_size < t) ∨
    (∃ l1 b l2, l = l1 ++ b :: l2 ∧ (∀ x ∈ l1, (h.blocks x).total_size < t) ∧
      t ≤ (h.blocks b).total_size ∧ r = (p :: l1).getLast (List.cons_ne_nil p l1) ∧
      (h.blocks r).p_next = b)
  | [], p, 0, r, _, hr => by simp [FindBlockThatPrecedesFreeOne_loop] at hr
  | [], p, fuel + 1, r, hp, hr => by
    simp only [Path] at hp
    simp [FindBlockThatPrecedesFreeOne_loop, hp] at hr
    exact Or.inl ⟨hr.symm, by simp⟩
  | b :: l, p, 0, r, _, hr => by simp [FindBlockThatPrecedesFreeOne_loop] at hr
  | b :: l, p, fuel + 1, r, hp, hr => by
    simp only [Path] at hp
    obtain ⟨hpn, hb0, hrest⟩ := hp
    simp only [FindBlockThatPrecedesFreeOne_loop, hpn, hb0, if_false] at hr
    by_cases hsz : t ≤ (h.blocks b).total_size
    · simp only [ge_iff_le, hsz, if_true, Outcome.done.injEq] at hr
      exact Or.inr ⟨[], b, l, rfl, by simp, hsz, by simp [hr], by rw [← hr]; exact hpn⟩
    · simp only [ge_iff_le, hsz, if_false] at hr
      rcases find_loop_done hrest hr with ⟨h0, hall⟩ | ⟨l1, c, l2, hl, hall, hc, hrl, hn⟩
      · refine Or.inl ⟨h0, ?_⟩
        intro x hx
        rcases List.mem_cons.1 hx with rfl | hx
        · omega
        · exact hall x hx
      · refine Or.inr ⟨b :: l1, c, l2, by simp [hl], ?_, hc, ?_, hn⟩
        · intro x hx
          rcases List.mem_cons.1 hx with rfl | hx
          · omega
          · exact hall x hx
        · rw [List.getLast_cons (List.cons_ne_nil b l1)]; exact hrl

theorem find_loop_fuel {h : Heap} {t : Nat} : ∀ {l : List Nat} {p fuel : Nat},
    Path h p l 0 → l.length < fuel → ∃ r, FindBlockThatPrecedesFreeOne_loop h t fuel p = .done r
  | [], p, 0, _, hf => by simp at hf
  | [], p, fuel + 1, hp, _ => by
    simp only [Path] at hp
    exact ⟨0, by simp [FindBlockThatPrecedesFreeOne_loop, hp]⟩
  | b :: l, p, 0, _, hf => by simp at hf
  | b :: l, p, fuel + 1, hp, hf => by
    simp only [Path] at hp
    obtain ⟨hpn, hb0, hrest⟩ := hp
    simp only [FindBlockThatPrecedesFreeOne_loop, hpn, hb0, if_false]
    by_cases hsz : t ≤ (h.blocks b).total_size
    · exact ⟨p, by simp [hsz]⟩
    · simp only [ge_iff_le, hsz, if_false]
      exact find_loop_fuel hrest (by simpa using hf)

@[simp] theorem find_loop_call (h : Heap) (k : Hook) (t : Nat) : ∀ fuel p,
    FindBlockThatPrecedesFreeOne_loop (h.call k) t fuel p =
      FindBlockThatPrecedesFreeOne_loop h t fuel p
  | 0, _ => rfl
  | fuel + 1, p => by
    simp only [FindBlockThatPrecedesFreeOne_loop, call_blocks]
    rw [find_loop_call h k t fuel]

theorem getLast_ne_zero {p : Nat} {l : List Nat} (hp : p ≠ 0) (hl : ∀ x ∈ l, x ≠ 0) :
    (p :: l).getLast (List.cons_ne_nil p l) ≠ 0 := by
  have hm := List.getLast_mem (List.cons_ne_nil p l)
  rcases List.mem_cons.1 hm with e | e
  · rw [e]; exact hp
  · exact hl _ e

/-- C3: on a state whose free list is `l` (the walk reaches NULL within the fuel, every free
block leaves room for the data offset below the top of the address space), `Heap_Alloc(size)`
returns, and it returns NULL if and only if no block of the free list has
`total_size >= GetTotalSize(size)`; when it returns NULL the hook calls it made are
`enter_critical_section`, `exit_critical_section`, `alloc_failed_hook`, in this order, and all
headers and bytes, hence the free list, are unchanged. -/
theorem Heap_Alloc_null_iff (P : Platform) (h : Heap) (l : List Nat) (fuel size : Nat)
    (hl : FreeList h l) (hfuel : l.length < fuel) (hhead : h.head ≠ 0)
    (hroom : ∀ b ∈ l, b + GetOffsetOfData P < P.range) :
    ∃ h' p, Heap_Alloc P fuel h size = .done (h', p) ∧
      (p = 0 ↔ ∀ b ∈ l, (h.blocks b).total_size < GetTotalSize P size) ∧
      (p = 0 → h'.calls = h.calls ++ [Hook.enter_critical_section, Hook.exit_critical_section,
          Hook.alloc_failed_hook] ∧
        h'.blocks = h.blocks ∧ h'.bytes = h.bytes ∧ h'.head = h.head ∧ FreeList h' l) := by
  obtain ⟨r, hr⟩ := find_loop_fuel (t := GetTotalSize P size) hl hfuel
  rcases find_loop_done hl hr with ⟨h0, hall⟩ | ⟨l1, b, l2, hsplit, hall, hb, hrl, hn⟩
  · subst h0
    refine ⟨((h.call .enter_critical_section).call .exit_critical_section).call
      .alloc_failed_hook, 0, ?_, ?_, ?_⟩
    · simp [Heap_Alloc, FindBlockThatPrecedesFreeOne, hr]
    · simp only [true_iff]; exact hall
    · intro _
      refine ⟨by simp, rfl, rfl, rfl, ?_⟩
      exact Path.frame (h := h) (fun _ _ => rfl) hl
  · have hnz := Path.nonzero hl
    have hb0 : b ≠ 0 := hnz b (by simp [hsplit])
    have hr0 : r ≠ 0 := by
      rw [hrl]
      exact getLast_ne_zero hhead (fun x hx => hnz x (by simp [hsplit, hx]))
    have hbr := hroom b (by simp [hsplit])
    have hpe : P.add b (GetOffsetOfData P) = b + GetOffsetOfData P := P.add_eq hbr
    have hres : ∃ h', Heap_Alloc P fuel h size = .done (h', b + GetOffsetOfData P) := by
      simp only [Heap_Alloc, FindBlockThatPrecedesFreeOne, call_head, find_loop_call, hr]
      simp [hr0, hn, hb0, hpe]
    obtain ⟨h', hh'⟩ := hres
    refine ⟨h', _, hh', ?_, ?_⟩
    · constructor
      · intro e; omega
      · intro hall'
        have := hall' b (by simp [hsplit])
        omega
    · intro e; omega

/-- What a returning `Heap_Alloc` did, on a state with free list `l`. -/
theorem Heap_Alloc_cases {P : Platform} {h : Heap} {l : List Nat} {fuel size : Nat} {h' : Heap}
    {p : Nat} (hl : FreeList h l) (hhead : h.head ≠ 0)
    (hres : Heap_Alloc P fuel h size = .done (h', p)) :
    ((∀ b ∈ l, (h.blocks b).total_size < GetTotalSize P size) ∧ p = 0 ∧ h' = refused h) ∨
    (∃ l1 b l2, l = l1 ++ b :: l2 ∧
      (∀ x ∈ l1, (h.blocks x).total_size < GetTotalSize P size) ∧
      GetTotalSize P size ≤ (h.blocks b).total_size ∧
      (h.blocks ((h.head :: l1).getLast (List.cons_ne_nil _ l1))).p_next = b ∧
      p = P.add b (GetOffsetOfData P) ∧
      h' = granted P h ((h.head :: l1).getLast (List.cons_ne_nil _ l1)) (GetTotalSize P size)) := by
  simp only [Heap_Alloc, FindBlockThatPrecedesFreeOne, call_head, find_loop_call] at hres
  cases hr : FindBlockThatPrecedesFreeOne_loop h (GetTotalSize P size) fuel h.head with
  | outOfFuel => simp [hr] at hres
  | assertFailed => simp [hr] at hres
  | done r =>
    rcases find_loop_done hl hr with ⟨h0, hall⟩ | ⟨l1, b, l2, hsplit, hall, hb, hrl, hn⟩
    · subst h0
      simp [hr] at hres
      exact Or.inl ⟨hall, hres.2.symm, by rw [← hres.1]; rfl⟩
    · have hnz := Path.nonzero hl
      have hb0 : b ≠ 0 := hnz b (by simp [hsplit])
      have hr0 : r ≠ 0 := by
        rw [hrl]
        exact getLast_ne_zero hhead (fun x hx => hnz x (by simp [hsplit, hx]))
      simp [hr, hr0, hn, hb0] at hres
      refine Or.inr ⟨l1, b, l2, hsplit, hall, hb, by rw [← hrl]; exact hn, hres.2.symm, ?_⟩
      rw [← hres.1, ← hrl]
      simp [granted, hn]

/-- Enough fuel makes `Heap_Alloc` return, on a state with free list `l`. -/
theorem Heap_Alloc_returns {P : Platform} {h : Heap} {l : List Nat} {fuel : Nat} (size : Nat)
    (hl : FreeList h l) (hhead : h.head ≠ 0) (hfuel : l.length < fuel) :
    ∃ h' p, Heap_Alloc P fuel h size = .done (h', p) := by
  obtain ⟨r, hr⟩ := find_loop_fuel (t := GetTotalSize P size) hl hfuel
  simp only [Heap_Alloc, FindBlockThatPrecedesFreeOne, call_head, find_loop_call, hr]
  rcases find_loop_done hl hr with ⟨h0, _⟩ | ⟨l1, b, l2, hsplit, _, _, hrl, hn⟩
  · subst h0; simp
  · have hnz := Path.nonzero hl
    have hb0 : b ≠ 0 := hnz b (by simp [hsplit])
    have hr0 : r ≠ 0 := by
      rw [hrl]
      exact getLast_ne_zero hhead (fun x hx => hnz x (by simp [hsplit, hx]))
    simp [hr0, hn, hb0]

/-- C4, first fit: when `Heap_Alloc(size)` returns a pointer other than NULL on a state whose free
list `l` is sorted by ascending address, the pointer is the data pointer of a block `b` of the
free list with `total_size >= GetTotalSize(size)`, and every free block at a lower address than
`b` has a `total_size` below `GetTotalSize(size)`. -/
theorem Heap_Alloc_first_fit (P : Platform) (h : Heap) (l : List Nat) (fuel size : Nat)
    (h' : Heap) (p : Nat) (hl : FreeList h l) (hsorted : l.Sorted (· < ·)) (hhead : h.head ≠ 0)
    (hres : Heap_Alloc P fuel h size = .done (h', p)) (hp : p ≠ 0) :
    ∃ b ∈ l, p = P.add b (GetOffsetOfData P) ∧
      GetTotalSize P size ≤ (h.blocks b).total_size ∧
      ∀ b' ∈ l, b' < b → (h.blocks b').total_size < GetTotalSize P size := by
  rcases Heap_Alloc_cases hl hhead hres with ⟨_, h0, _⟩ | ⟨l1, b, l2, hsplit, hall, hb, _, hpe, _⟩
  · exact absurd h0 hp
  · refine ⟨b, by simp [hsplit], hpe, hb, ?_⟩
    intro b' hb' hlt
    rw [hsplit] at hb' hsorted
    have hs := List.pairwise_append.1 hsorted
    rcases List.mem_append.1 hb' with h1 | h2
    · exact hall b' h1
    · rcases List.mem_cons.1 h2 with e | e
      · omega
      · have := (List.pairwise_cons.1 hs.2.1).1 b' e
        omega

/-! ## What the guard stamps and the split leave as it is -/

@[simp] theorem stampGuard_blocks (P : Platform) (h : Heap) (p : Nat) :
    ∀ n, (stampGuard P h p n).blocks = h.blocks
  | 0 => rfl
  | n + 1 => by simp [stampGuard, stampGuard_blocks P h p n]

@[simp] theorem stampGuard_head (P : Platform) (h : Heap) (p : Nat) :
    ∀ n, (stampGuard P h p n).head = h.head
  | 0 => rfl
  | n + 1 => by simp [stampGuard, stampGuard_head P h p n]

@[simp] theorem stampGuard_calls (P : Platform) (h : Heap) (p : Nat) :
    ∀ n, (stampGuard P h p n).calls = h.calls
  | 0 => rfl
  | n + 1 => by simp [stampGuard, stampGuard_calls P h p n]

@[simp] theorem ApplyWatermarks_blocks (P : Platform) (h : Heap) (b : Nat) :
    (ApplyWatermarks P h b).blocks = h.blocks := by
  simp [ApplyWatermarks]

@[simp] theorem ApplyWatermarks_head (P : Platform) (h : Heap) (b : Nat) :
    (ApplyWatermarks P h b).head = h.head := by
  simp [ApplyWatermarks]

@[simp] theorem ApplyWatermarks_calls (P : Platform) (h : Heap) (b : Nat) :
    (ApplyWatermarks P h b).calls = h.calls := by
  simp [ApplyWatermarks]

@[simp] theorem preceding_loop_call (h : Heap) (k : Hook) (b : Nat) : ∀ fuel p,
    FindPrecendingBlock_loop (h.call k) b fuel p = FindPrecendingBlock_loop h b fuel p
  | 0, _ => rfl
  | fuel + 1, p => by
    simp only [FindPrecendingBlock_loop, call_blocks]
    rw [preceding_loop_call h k b fuel]

@[simp] theorem TryToSplitBlock_head (P : Platform) (h : Heap) (b t : Nat) :
    (TryToSplitBlock P h b t).head = h.head := by
  unfold TryToSplitBlock; simp only; split <;> simp

@[simp] theorem TryToSplitBlock_bytes (P : Platform) (h : Heap) (b t : Nat) :
    (TryToSplitBlock P h b t).bytes = h.bytes := by
  unfold TryToSplitBlock; simp only; split <;> simp

@[simp] theorem TryToSplitBlock_calls (P : Platform) (h : Heap) (b t : Nat) :
    (TryToSplitBlock P h b t).calls = h.calls := by
  unfold TryToSplitBlock; simp only; split <;> simp

theorem TryToMergeWithNextBlock_head {P : Platform} {h h' : Heap} {x : Nat}
    (hm : TryToMergeWithNextBlock P h x = .done h') : h'.head = h.head := by
  unfold TryToMergeWithNextBlock at hm
  simp only at hm
  split at hm
  · split at hm
    · cases hm
    · cases hm; simp
  · cases hm; rfl

/-- C4 for a request of 100 bytes on a 256-byte region whose free list holds the block at
`0x1000` (48 bytes) and the block at `0x1060` (160 bytes): the request needs 136 bytes, the
lower block is too small, the block at `0x1060` is granted. -/
theorem Heap_Alloc_first_fit_witness :
    FreeList sandwich256 [0x1000, 0x1060] ∧
    (sandwich256.blocks 0x1000).total_size = 48 ∧ (sandwich256.blocks 0x1060).total_size = 160 ∧
    GetTotalSize x86_64 100 = 136 ∧
    Heap_Alloc x86_64 3 sandwich256 100 =
      .done (granted x86_64 sandwich256 0x1000 (GetTotalSize x86_64 100), 0x1080) ∧
    ∃ b ∈ [0x1000, 0x1060], 0x1080 = x86_64.add b (GetOffsetOfData x86_64) ∧
      GetTotalSize x86_64 100 ≤ (sandwich256.blocks b).total_size ∧
      ∀ b' ∈ [0x1000, 0x1060], b' < b →
        (sandwich256.blocks b').total_size < GetTotalSize x86_64 100 :=
  ⟨by decide, by decide, by decide, by decide, rfl,
    Heap_Alloc_first_fit x86_64 sandwich256 [0x1000, 0x1060] 3 100
      (granted x86_64 sandwich256 0x1000 (GetTotalSize x86_64 100)) 0x1080
      (by decide) (by simp) (by decide) rfl (by decide)⟩

/-- C3 on the state right after `Heap_Init` of a 256-byte region, for a request of 512 bytes. -/
theorem Heap_Alloc_null_iff_witness :
    ∃ h' p, Heap_Alloc x86_64 2 fresh256 512 = .done (h', p) ∧
      (p = 0 ↔ ∀ b ∈ [0x1000], (fresh256.blocks b).total_size < GetTotalSize x86_64 512) ∧
      (p = 0 → h'.calls = fresh256.calls ++ [Hook.enter_critical_section,
          Hook.exit_critical_section, Hook.alloc_failed_hook] ∧
        h'.blocks = fresh256.blocks ∧ h'.bytes = fresh256.bytes ∧ h'.head = fresh256.head ∧
        FreeList h' [0x1000]) :=
  Heap_Alloc_null_iff x86_64 fresh256 [0x1000] 2 512 (by decide) (by decide) (by decide)
    (by intro b hb; simp only [List.mem_singleton] at hb; subst hb; decide)

theorem guardIntact_iff (P : Platform) (h : Heap) (p : Nat) : ∀ n,
    guardIntact P h p n = true ↔ ∀ i < n, h.bytes (P.add p i) = WATERMARK
  | 0 => by simp [guardIntact]
  | n + 1 => by
    simp only [guardIntact, Bool.and_eq_true, decide_eq_true_eq, guardIntact_iff P h p n]
    constructor
    · rintro ⟨h1, h2⟩ i hi
      rcases Nat.lt_succ_iff_lt_or_eq.1 hi with h3 | h3
      · exact h1 i h3
      · rw [h3]; exact h2
    · intro hall
      exact ⟨fun i hi => hall i (by omega), hall n (by omega)⟩

theorem CheckWatermarks_iff (P : Platform) (h : Heap) (b : Nat) :
    CheckWatermarks P h b = true ↔
      ∀ i < P.HEAP_WATERMARK_SIZE,
        h.bytes (P.add (P.add b (GetOffsetOfHeadGuard P)) i) = WATERMARK ∧
        h.bytes (P.add (P.add b (GetOffsetOfTailGuard P (h.blocks b).total_size)) i) =
          WATERMARK := by
  unfold CheckWatermarks
  simp only
  by_cases h1 : guardIntact P h (P.add b (GetOffsetOfHeadGuard P)) P.HEAP_WATERMARK_SIZE = true
  · by_cases h2 : guardIntact P h (P.add b (GetOffsetOfTailGuard P (h.blocks b).total_size))
        P.HEAP_WATERMARK_SIZE = true
    · simp only [h1, h2, Bool.not_true, Bool.false_eq_true, if_false, true_iff]
      rw [guardIntact_iff] at h1 h2
      exact fun i hi => ⟨h1 i hi, h2 i hi⟩
    · simp only [h1, h2, Bool.not_true, Bool.false_eq_true, if_false, Bool.not_false, if_true,
        false_iff]
      rw [guardIntact_iff] at h2
      exact fun hall => h2 (fun i hi => (hall i hi).2)
  · simp only [h1, Bool.not_false, if_true, Bool.false_eq_true, false_iff]
    rw [guardIntact_iff] at h1
    exact fun hall => h1 (fun i hi => (hall i hi).1)

/-- C6: let `b` be an aligned block that is marked as used (`p_next` is NULL) and whose data
pointer is not NULL.  If one of the `HEAP_WATERMARK_SIZE` bytes of the head guard, at
`b + sizeof(struct Block)`, or of the tail guard, at `b + total_size - HEAP_WATERMARK_SIZE`,
differs from `0xAA`, then `Heap_Free` of the data pointer returns, for any fuel, having called
`corrupted_data_hook` once and no other hook (so it never entered the critical section), and it
leaves every header and byte, hence the free list, as it was. -/
theorem Heap_Free_corrupted (P : Platform) (hP : P.Sane) (h : Heap) (fuel b i : Nat)
    (hb : b < P.range) (hba : P.HEAP_ALIGNMENT ∣ b)
    (hp : P.add b (GetOffsetOfData P) ≠ 0) (hnext : (h.blocks b).p_next = 0)
    (hi : i < P.HEAP_WATERMARK_SIZE)
    (hbad : h.bytes (P.add (P.add b P.sizeof_Block) i) ≠ 0xAA ∨
      h.bytes (P.add (P.add b (P.sub (h.blocks b).total_size P.HEAP_WATERMARK_SIZE)) i) ≠ 0xAA) :
    ∃ h', Heap_Free P fuel h (P.add b (GetOffsetOfData P)) = .done h' ∧
      h'.calls = h.calls ++ [Hook.corrupted_data_hook] ∧
      h'.blocks = h.blocks ∧ h'.bytes = h.bytes ∧ h'.head = h.head ∧
      ∀ l, FreeList h l → FreeList h' l := by
  have hsub : P.sub (P.add b (GetOffsetOfData P)) (GetOffsetOfData P) = b :=
    P.sub_add_cancel _ hb
  have hpad : GetPaddingSizeFromPointer P b = 0 := (padding_zero_iff P b hP.align_pos).2 hba
  have hchk : CheckWatermarks P h b = false := by
    rw [← Bool.not_eq_true, CheckWatermarks_iff]
    intro hall
    have := hall i hi
    rcases hbad with hb1 | hb1
    · exact hb1 this.1
    · exact hb1 this.2
  refine ⟨h.call .corrupted_data_hook, ?_, rfl, rfl, rfl, rfl, fun l hl => ?_⟩
  · unfold Heap_Free
    simp [hp, hsub, hpad, hnext, hchk]
  · exact Path.frame (h := h) (fun _ _ => rfl) hl

/-! ## Blocks that tile the region -/

theorem Tiled.append_iff : ∀ {a : Nat} {T1 T2 : List Tile} {e : Nat},
    Tiled a (T1 ++ T2) e ↔ ∃ m, Tiled a T1 m ∧ Tiled m T2 e
  | a, [], T2, e => by simp [Tiled]
  | a, t :: T1, T2, e => by
    have ih := @Tiled.append_iff (a + t.size) T1 T2 e
    show (t.addr = a ∧ Tiled (a + t.size) (T1 ++ T2) e) ↔
      ∃ m, (t.addr = a ∧ Tiled (a + t.size) T1 m) ∧ Tiled m T2 e
    rw [ih]
    constructor
    · rintro ⟨h1, m, h2, h3⟩; exact ⟨m, ⟨h1, h2⟩, h3⟩
    · rintro ⟨m, ⟨h1, h2⟩, h3⟩; exact ⟨h1, m, h2, h3⟩

theorem Tiled.le : ∀ {a : Nat} {ts : List Tile} {e : Nat}, Tiled a ts e → a ≤ e
  | a, [], e, h => by simp [Tiled] at h; omega
  | a, t :: ts, e, h => by
    simp only [Tiled] at h
    have := Tiled.le h.2
    omega

theorem Tiled.mem_bounds : ∀ {a : Nat} {ts : List Tile} {e : Nat}, Tiled a ts e →
    ∀ t ∈ ts, a ≤ t.addr ∧ t.addr + t.size ≤ e
  | a, [], e, _, t, ht => by simp at ht
  | a, s :: ts, e, h, t, ht => by
    simp only [Tiled] at h
    rcases List.mem_cons.1 ht with rfl | ht
    · have := Tiled.le h.2
      omega
    · have := Tiled.mem_bounds h.2 t ht
      omega

theorem Tiled.unique_end : ∀ {a : Nat} {ts : List Tile} {e e' : Nat},
    Tiled a ts e → Tiled a ts e' → e = e'
  | a, [], e, e', h, h' => by simp [Tiled] at h h'; omega
  | a, t :: ts, e, e', h, h' => by
    simp only [Tiled] at h h'
    exact Tiled.unique_end h.2 h'.2

/-- Around a block of the tiling: what comes before ends at its address, what comes after
starts at its end. -/
theorem Tiled.split {a : Nat} {T1 : List Tile} {t : Tile} {T2 : List Tile} {e : Nat}
    (h : Tiled a (T1 ++ t :: T2) e) :
    Tiled a T1 t.addr ∧ Tiled (t.addr + t.size) T2 e := by
  obtain ⟨m, h1, h2⟩ := Tiled.append_iff.1 h
  simp only [Tiled] at h2
  obtain ⟨h3, h4⟩ := h2
  subst h3
  exact ⟨h1, h4⟩

theorem Tiled.join {a : Nat} {T1 : List Tile} {t : Tile} {T2 : List Tile} {e : Nat}
    (h1 : Tiled a T1 t.addr) (h2 : Tiled (t.addr + t.size) T2 e) :
    Tiled a (T1 ++ t :: T2) e :=
  Tiled.append_iff.2 ⟨t.addr, h1, by simp only [Tiled]; exact ⟨trivial, h2⟩⟩

theorem freeBlocks_append (T1 T2 : List Tile) :
    freeBlocks (T1 ++ T2) = freeBlocks T1 ++ freeBlocks T2 := by
  simp [freeBlocks]

theorem freeBlocks_cons_free {t : Tile} (ht : t.free = true) (T : List Tile) :
    freeBlocks (t :: T) = t.addr :: freeBlocks T := by
  simp [freeBlocks, ht]

theorem freeBlocks_cons_used {t : Tile} (ht : t.free = false) (T : List Tile) :
    freeBlocks (t :: T) = freeBlocks T := by
  simp [freeBlocks, ht]

theorem mem_freeBlocks {ts : List Tile} {x : Nat} :
    x ∈ freeBlocks ts ↔ ∃ t ∈ ts, t.free = true ∧ t.addr = x := by
  simp [freeBlocks, and_assoc]

/-- A cut of the free list is a cut of the tiling at a free block. -/
theorem freeBlocks_eq_append : ∀ {ts : List Tile} {l1 : List Nat} {b : Nat} {l2 : List Nat},
    freeBlocks ts = l1 ++ b :: l2 →
    ∃ T1 t T2, ts = T1 ++ t :: T2 ∧ t.free = true ∧ t.addr = b ∧
      freeBlocks T1 = l1 ∧ freeBlocks T2 = l2
  | [], l1, b, l2, h => by simp [freeBlocks] at h
  | s :: ts, l1, b, l2, h => by
    by_cases hs : s.free = true
    · rw [freeBlocks_cons_free hs] at h
      cases l1 with
      | nil =>
        simp only [List.nil_append, List.cons.injEq] at h
        exact ⟨[], s, ts, rfl, hs, h.1, rfl, h.2⟩
      | cons c l1 =>
        simp only [List.cons_append, List.cons.injEq] at h
        obtain ⟨T1, t, T2, h1, h2, h3, h4, h5⟩ := freeBlocks_eq_append h.2
        refine ⟨s :: T1, t, T2, by simp [h1], h2, h3, ?_, h5⟩
        rw [freeBlocks_cons_free hs, h4, h.1]
    · have hs' : s.free = false := by simpa using hs
      rw [freeBlocks_cons_used hs'] at h
      obtain ⟨T1, t, T2, h1, h2, h3, h4, h5⟩ := freeBlocks_eq_append h
      refine ⟨s :: T1, t, T2, by simp [h1], h2, h3, ?_, h5⟩
      rw [freeBlocks_cons_used hs', h4]

/-! ## The state after a grant -/

theorem granted_head (P : Platform) (h : Heap) (r t : Nat) : (granted P h r t).head = h.head := by
  simp [granted]

theorem granted_calls (P : Platform) (h : Heap) (r t : Nat) :
    (granted P h r t).calls =
      h.calls ++ [Hook.enter_critical_section, Hook.exit_critical_section] := by
  simp [granted]

/-- Headers after a grant that splits the block `b` found after `r`. -/
theorem granted_split {P : Platform} {h : Heap} {r b t : Nat} (hrb : (h.blocks r).p_next = b)
    (hne : r ≠ b)
    (hc : (h.blocks b).total_size > P.add (AddPadding P t) (GetTotalSize P 0)) (x : Nat) :
    ((granted P h r t).blocks x).p_next =
      (if x = b then 0 else if x = r then P.add b (AddPadding P t)
        else if x = P.add b (AddPadding P t) then (h.blocks b).p_next
        else (h.blocks x).p_next) ∧
    ((granted P h r t).blocks x).total_size =
      (if x = P.add b (AddPadding P t) then P.sub (h.blocks b).total_size (AddPadding P t)
        else if x = b then AddPadding P t else (h.blocks x).total_size) := by
  simp only [granted, ApplyWatermarks_blocks, call_blocks, hrb, TryToSplitBlock, hc, if_true,
    setNext_next, setNext_size, setSize_next, setSize_size]
  constructor
  · by_cases h1 : x = b
    · simp [h1]
    · by_cases h2 : x = r
      · simp [h1, h2, hne]
      · simp [h1, h2]
  · by_cases h1 : x = P.add b (AddPadding P t)
    · simp [h1]
    · simp [h1]

/-- Headers after a grant that hands out the whole block `b` found after `r`. -/
theorem granted_whole {P : Platform} {h : Heap} {r b t : Nat} (hrb : (h.blocks r).p_next = b)
    (hc : ¬ (h.blocks b).total_size > P.add (AddPadding P t) (GetTotalSize P 0)) (x : Nat) :
    ((granted P h r t).blocks x).p_next =
      (if x = b then 0 else if x = r then (h.blocks b).p_next else (h.blocks x).p_next) ∧
    ((granted P h r t).blocks x).total_size = (h.blocks x).total_size := by
  simp only [granted, ApplyWatermarks_blocks, call_blocks, hrb, TryToSplitBlock, hc, if_false,
    setNext_next, setNext_size]
  exact ⟨trivial, trivial⟩

/-! ## Facts of the layout invariant -/

theorem Tiled.addr_inj : ∀ {a : Nat} {ts : List Tile} {e : Nat}, (∀ t ∈ ts, 0 < t.size) →
    Tiled a ts e → ∀ s ∈ ts, ∀ t ∈ ts, s.addr = t.addr → s = t
  | a, [], e, _, _, s, hs, _, _, _ => by simp at hs
  | a, u :: ts, e, hpos, h, s, hs, t, ht, hst => by
    simp only [Tiled] at h
    have hu := hpos u (by simp)
    have hb := Tiled.mem_bounds h.2
    rcases List.mem_cons.1 hs with hs | hs
    · rcases List.mem_cons.1 ht with ht | ht
      · rw [hs, ht]
      · have := hb t ht; subst hs; omega
    · rcases List.mem_cons.1 ht with ht | ht
      · have := hb s hs; subst ht; omega
      · exact Tiled.addr_inj (fun t ht => hpos t (List.mem_cons_of_mem _ ht)) h.2 s hs t ht hst

theorem Tiled.sorted : ∀ {a : Nat} {ts : List Tile} {e : Nat}, (∀ t ∈ ts, 0 < t.size) →
    Tiled a ts e → (freeBlocks ts).Sorted (· < ·)
  | a, [], e, _, _ => by simp [freeBlocks]
  | a, u :: ts, e, hpos, h => by
    simp only [Tiled] at h
    have hu := hpos u (by simp)
    have hb := Tiled.mem_bounds h.2
    have ih := Tiled.sorted (fun t ht => hpos t (List.mem_cons_of_mem _ ht)) h.2
    by_cases hf : u.free = true
    · rw [freeBlocks_cons_free hf]
      refine List.sorted_cons.2 ⟨?_, ih⟩
      intro x hx
      obtain ⟨t, ht, _, rfl⟩ := mem_freeBlocks.1 hx
      have := hb t ht
      omega
    · rw [freeBlocks_cons_used (by simpa using hf)]; exact ih

theorem Layout.around {P : Platform} (hP : P.Sane) {h : Heap} {lo hi : Nat} {T1 : List Tile}
    {tb : Tile} {T2 : List Tile} (hL : Layout P h lo hi (T1 ++ tb :: T2)) :
    Around P h lo hi T1 tb T2 := by
  have hmin := GetTotalSize_zero_pos P hP
  obtain ⟨h1, h2⟩ := Tiled.split hL.tiled
  have hb := Tiled.mem_bounds hL.tiled tb (by simp)
  refine ⟨hmin, hb.1, hb.2, ?_, ?_, hL.head_out, h1, h2⟩
  · intro s hs
    have := Tiled.mem_bounds h1 s hs
    have := (hL.tile_ok s (by simp [hs])).2.1
    omega
  · intro s hs
    have := Tiled.mem_bounds h2 s hs
    have := (hL.tile_ok s (by simp [hs])).2.1
    omega

theorem getLast_cons_mem {p : Nat} {l : List Nat} :
    (p :: l).getLast (List.cons_ne_nil p l) = p ∨ (p :: l).getLast (List.cons_ne_nil p l) ∈ l := by
  have hm := List.getLast_mem (List.cons_ne_nil p l)
  rcases List.mem_cons.1 hm with e | e
  · exact Or.inl e
  · exact Or.inr e

/-- Relinking the last node of a walk. -/
theorem Path.relast {h h' : Heap} : ∀ {p : Nat} {l : List Nat} {q q' : Nat},
    Path h p l q → (p :: l).Nodup →
    (∀ x ∈ p :: l, x ≠ (p :: l).getLast (List.cons_ne_nil p l) →
      (h'.blocks x).p_next = (h.blocks x).p_next) →
    (h'.blocks ((p :: l).getLast (List.cons_ne_nil p l))).p_next = q' → Path h' p l q'
  | p, [], q, q', _, _, _, hlast => by simpa [Path] using hlast
  | p, b :: l, q, q', hp, hnd, hfr, hlast => by
    simp only [Path] at hp ⊢
    have hlb : (p :: b :: l).getLast (List.cons_ne_nil p (b :: l)) =
        (b :: l).getLast (List.cons_ne_nil b l) := List.getLast_cons (List.cons_ne_nil b l)
    rw [hlb] at hfr hlast
    have hnd' := List.nodup_cons.1 hnd
    have hpl : p ≠ (b :: l).getLast (List.cons_ne_nil b l) := by
      intro e
      exact hnd'.1 (e ▸ List.getLast_mem (List.cons_ne_nil b l))
    refine ⟨by rw [hfr p (by simp) hpl]; exact hp.1, hp.2.1, ?_⟩
    exact Path.relast hp.2.2 hnd'.2 (fun x hx hne => hfr x (List.mem_cons_of_mem _ hx) hne) hlast

/-- The walk from another start node with the same link. -/
theorem Path.rehead {h h' : Heap} {p p' : Nat} {l : List Nat} {q : Nat} (hp : Path h p l q)
    (hstart : (h'.blocks p').p_next = (h.blocks p).p_next)
    (hfr : ∀ x ∈ l, (h'.blocks x).p_next = (h.blocks x).p_next) : Path h' p' l q := by
  cases l with
  | nil => simp only [Path] at hp ⊢; rw [hstart]; exact hp
  | cons b l =>
    simp only [Path] at hp ⊢
    refine ⟨by rw [hstart]; exact hp.1, hp.2.1, ?_⟩
    exact Path.frame (h := h) hfr hp.2.2

theorem Layout.pos {P : Platform} (hP : P.Sane) {h : Heap} {lo hi : Nat} {ts : List Tile}
    (hL : Layout P h lo hi ts) : ∀ t ∈ ts, 0 < t.size := by
  intro t ht
  have := (hL.tile_ok t ht).2.1
  have := GetTotalSize_zero_pos P hP
  omega

theorem Layout.nodup {P : Platform} (hP : P.Sane) {h : Heap} {lo hi : Nat} {ts : List Tile}
    (hL : Layout P h lo hi ts) : (h.head :: freeBlocks ts).Nodup := by
  refine List.nodup_cons.2 ⟨?_, (Tiled.sorted (hL.pos hP) hL.tiled).nodup⟩
  intro hm
  obtain ⟨t, ht, _, hta⟩ := mem_freeBlocks.1 hm
  have := Tiled.mem_bounds hL.tiled t ht
  have := hL.pos hP t ht
  have := hL.head_out
  omega

/-- The node before the first free block after `T1` is the head or a free block of `T1`. -/
theorem last_free_cases {head : Nat} {T1 : List Tile} {r : Nat}
    (hr : r = (head :: freeBlocks T1).getLast (List.cons_ne_nil _ _)) :
    r = head ∨ ∃ s ∈ T1, s.free = true ∧ s.addr = r := by
  rcases getLast_cons_mem (p := head) (l := freeBlocks T1) with e | e
  · exact Or.inl (hr.trans e)
  · rw [← hr] at e
    exact Or.inr (mem_freeBlocks.1 e)

theorem Layout.grant_whole {P : Platform} (hP : P.Sane) {h : Heap} {lo hi : Nat}
    {T1 : List Tile} {tb : Tile} {T2 : List Tile} (hL : Layout P h lo hi (T1 ++ tb :: T2))
    (hfree : tb.free = true) {r t : Nat}
    (hr : r = (h.head :: freeBlocks T1).getLast (List.cons_ne_nil _ _))
    (hc : ¬ (h.blocks tb.addr).total_size > P.add (AddPadding P t) (GetTotalSize P 0)) :
    Layout P (granted P h r t) lo hi (T1 ++ ⟨tb.addr, tb.size, false⟩ :: T2) := by
  have hA := hL.around hP
  have hnd := hL.nodup hP
  have hfl := hL.free_list
  rw [FreeList, freeBlocks_append, freeBlocks_cons_free hfree, Path.append_cons_iff] at hfl
  obtain ⟨hp1, hb0, hp2⟩ := hfl
  rw [freeBlocks_append, freeBlocks_cons_free hfree] at hnd
  have hrb : (h.blocks r).p_next = tb.addr := by rw [hr]; exact Path.next_getLast hp1
  have hg := granted_whole (P := P) (t := t) hrb hc
  have hrne : r ≠ tb.addr := by
    rcases last_free_cases hr with e | ⟨s, hs, _, e⟩
    · have := hA.head_lo; have := hA.lo_le; have := hA.le_hi
      have := (hL.tile_ok tb (by simp)).2.1; have := hA.min_pos
      omega
    · have := hA.before s hs; omega
  refine ⟨by rw [granted_head]; exact hL.head_ne, by rw [granted_head]; exact hL.head_lt,
    by rw [granted_head]; exact hL.head_out,
    by rw [granted_head, (hg _).2]; exact hL.head_size, hL.lo_pos, hL.hi_lt, hL.span, ?_, ?_, ?_,
    ?_⟩
  · exact Tiled.join (t := ⟨tb.addr, tb.size, false⟩) hA.before_tiled hA.after_tiled
  · intro s hs
    rw [(hg _).2]
    rcases List.mem_append.1 hs with hs | hs
    · exact hL.tile_ok s (by simp [hs])
    · rcases List.mem_cons.1 hs with hs | hs
      · subst hs; exact hL.tile_ok tb (by simp)
      · exact hL.tile_ok s (by simp [hs])
  · rw [FreeList, granted_head, freeBlocks_append, freeBlocks_cons_used rfl]
    have hnd1 : (h.head :: freeBlocks T1).Nodup := by
      have := List.nodup_cons.1 hnd
      refine List.nodup_cons.2 ⟨fun hm => this.1 (by simp [hm]), ?_⟩
      exact (List.nodup_append.1 this.2).1
    have hbF1 : tb.addr ∉ h.head :: freeBlocks T1 := by
      intro hm
      rcases List.mem_cons.1 hm with e | e
      · have := hA.head_lo; have := hA.lo_le; have := hA.le_hi
        have := (hL.tile_ok tb (by simp)).2.1; have := hA.min_pos
        omega
      · obtain ⟨s, hs, _, hsa⟩ := mem_freeBlocks.1 e
        have := hA.before s hs; omega
    cases hF2 : freeBlocks T2 with
    | nil =>
      rw [hF2] at hp2
      simp only [Path] at hp2
      rw [List.append_nil]
      refine Path.relast hp1 hnd1 ?_ ?_
      · intro x hx hxr
        rw [(hg x).1]
        have hxb : x ≠ tb.addr := fun e => hbF1 (e ▸ hx)
        have hxr' : x ≠ r := by rw [hr]; exact hxr
        simp [hxb, hxr']
      · rw [← hr, (hg r).1]; simp [hrne, hp2]
    | cons c F2 =>
      rw [hF2] at hp2
      simp only [Path] at hp2
      rw [Path.append_cons_iff]
      refine ⟨Path.relast hp1 hnd1 ?_ ?_, hp2.2.1, ?_⟩
      · intro x hx hxr
        rw [(hg x).1]
        have hxb : x ≠ tb.addr := fun e => hbF1 (e ▸ hx)
        have hxr' : x ≠ r := by rw [hr]; exact hxr
        simp [hxb, hxr']
      · rw [← hr, (hg r).1]; simp [hrne, hp2.1]
      · refine Path.frame (h := h) ?_ hp2.2.2
        intro x hx
        rw [(hg x).1]
        have hxF2 : x ∈ freeBlocks T2 := by rw [hF2]; exact hx
        obtain ⟨s, hs, _, hsa⟩ := mem_freeBlocks.1 hxF2
        have := hA.after s hs
        have hxb : x ≠ tb.addr := by
          have := (hL.tile_ok tb (by simp)).2.1; have := hA.min_pos; omega
        have hxr : x ≠ r := by
          rcases last_free_cases hr with e | ⟨s', hs', _, e⟩
          · have := hA.head_lo; have := hA.lo_le; have := hA.le_hi; omega
          · have := hA.before s' hs'; omega
        simp [hxb, hxr]
  · intro s hs hsf
    rw [(hg _).1]
    rcases List.mem_append.1 hs with hs | hs
    · have hsr : s.addr ≠ r := by
        rcases last_free_cases hr with e | ⟨s', hs', hf', e⟩
        · have := hA.head_lo; have := hA.before s hs; have := hA.lo_le; have := hA.le_hi; omega
        · intro e'
          have := Tiled.addr_inj (hL.pos hP) hL.tiled s (by simp [hs]) s' (by simp [hs'])
            (e'.trans e.symm)
          rw [this, hf'] at hsf; cases hsf
      have hsb : s.addr ≠ tb.addr := by have := hA.before s hs; omega
      simp only [hsb, hsr, if_false]
      exact hL.used_next s (by simp [hs]) hsf
    · rcases List.mem_cons.1 hs with hs | hs
      · subst hs; simp
      · have hsr : s.addr ≠ r := by
          rcases last_free_cases hr with e | ⟨s', hs', _, e⟩
          · have := hA.head_lo; have := hA.after s hs; have := hA.lo_le; have := hA.le_hi; omega
          · have := hA.before s' hs'; have := hA.after s hs; omega
        have hsb : s.addr ≠ tb.addr := by
          have := hA.after s hs; have := (hL.tile_ok tb (by simp)).2.1; have := hA.min_pos; omega
        simp only [hsb, hsr, if_false]
        exact hL.used_next s (by simp [hs]) hsf

/-- No wrap in the size computations of a split, for a request that fits a block. -/
theorem Layout.split_arith {P : Platform} (hP : P.Sane) {h : Heap} {lo hi : Nat}
    {ts : List Tile} (hL : Layout P h lo hi ts) {tb : Tile} (htb : tb ∈ ts) {t : Nat}
    (ht : t ≤ tb.size) :
    t ≤ AddPadding P t ∧ AddPadding P t < t + P.HEAP_ALIGNMENT ∧
    P.HEAP_ALIGNMENT ∣ AddPadding P t ∧
    P.add (AddPadding P t) (GetTotalSize P 0) = AddPadding P t + GetTotalSize P 0 := by
  have hb := Tiled.mem_bounds hL.tiled tb htb
  have hs := hL.span
  have hsm := hP.small
  have hA := hP.align_pos
  have hm := GetTotalSize_zero P hP
  have ho := GetOffsetOfData_bounds P hP
  have hbd := AddPadding_bounds P hP t (by omega)
  refine ⟨hbd.1, hbd.2, AddPadding_dvd P hP t, P.add_eq (by omega)⟩

theorem Layout.grant_split {P : Platform} (hP : P.Sane) {h : Heap} {lo hi : Nat}
    {T1 : List Tile} {tb : Tile} {T2 : List Tile} (hL : Layout P h lo hi (T1 ++ tb :: T2))
    (hfree : tb.free = true) {r t : Nat}
    (hr : r = (h.head :: freeBlocks T1).getLast (List.cons_ne_nil _ _))
    (ht0 : GetTotalSize P 0 ≤ t) (ht : t ≤ tb.size)
    (hc : (h.blocks tb.addr).total_size > P.add (AddPadding P t) (GetTotalSize P 0)) :
    Layout P (granted P h r t) lo hi
      (T1 ++ ⟨tb.addr, AddPadding P t, false⟩ ::
        ⟨tb.addr + AddPadding P t, tb.size - AddPadding P t, true⟩ :: T2) := by
  have hA := hL.around hP
  have hnd := hL.nodup hP
  have hfl := hL.free_list
  have htb := hL.tile_ok tb (by simp)
  obtain ⟨ha1, ha2, ha3, ha4⟩ := hL.split_arith hP (show tb ∈ _ by simp) ht
  rw [htb.2.2, ha4] at hc
  have hhi := hL.hi_lt
  have hmp := hA.min_pos
  have hle := hA.le_hi
  have hlo := hA.lo_le
  have hN : P.add tb.addr (AddPadding P t) = tb.addr + AddPadding P t := P.add_eq (by omega)
  have hS : P.sub tb.size (AddPadding P t) = tb.size - AddPadding P t :=
    P.sub_eq (by omega) (by omega)
  rw [FreeList, freeBlocks_append, freeBlocks_cons_free hfree, Path.append_cons_iff] at hfl
  obtain ⟨hp1, hb0, hp2⟩ := hfl
  rw [freeBlocks_append, freeBlocks_cons_free hfree] at hnd
  have hrb : (h.blocks r).p_next = tb.addr := by rw [hr]; exact Path.next_getLast hp1
  have hrne : r ≠ tb.addr := by
    rcases last_free_cases hr with e | ⟨s, hs, _, e⟩
    · have := hA.head_lo; omega
    · have := hA.before s hs; omega
  have hrN : r ≠ tb.addr + AddPadding P t := by
    rcases last_free_cases hr with e | ⟨s, hs, _, e⟩
    · have := hA.head_lo; omega
    · have := hA.before s hs; omega
  have hg := granted_split (P := P) (t := t) hrb hrne (by rw [htb.2.2, ha4]; exact hc)
  rw [hN, htb.2.2, hS] at hg
  refine ⟨by rw [granted_head]; exact hL.head_ne, by rw [granted_head]; exact hL.head_lt,
    by rw [granted_head]; exact hL.head_out,
    ?_, hL.lo_pos, hL.hi_lt, hL.span, ?_, ?_, ?_, ?_⟩
  · rw [granted_head, (hg _).2]
    have := hA.head_lo
    have h1 : h.head ≠ tb.addr + AddPadding P t := by omega
    have h2 : h.head ≠ tb.addr := by omega
    simp only [h1, h2, if_false]; exact hL.head_size
  · refine Tiled.join (t := ⟨tb.addr, AddPadding P t, false⟩) hA.before_tiled ?_
    simp only [Tiled]
    refine ⟨trivial, ?_⟩
    have e : tb.addr + AddPadding P t + (tb.size - AddPadding P t) = tb.addr + tb.size := by omega
    rw [e]; exact hA.after_tiled
  · intro s hs
    rw [(hg _).2]
    rcases List.mem_append.1 hs with hs | hs
    · have := hA.before s hs
      have h1 : s.addr ≠ tb.addr + AddPadding P t := by omega
      have h2 : s.addr ≠ tb.addr := by omega
      simp only [h1, h2, if_false]
      exact hL.tile_ok s (by simp [hs])
    · rcases List.mem_cons.1 hs with hs | hs
      · subst hs
        have h1 : tb.addr ≠ tb.addr + AddPadding P t := by omega
        simp only [h1, if_false, if_true]
        exact ⟨htb.1, by omega, trivial⟩
      · rcases List.mem_cons.1 hs with hs | hs
        · subst hs
          simp only [if_true]
          exact ⟨Nat.dvd_add htb.1 ha3, by omega, trivial⟩
        · have := hA.after s hs
          have h1 : s.addr ≠ tb.addr + AddPadding P t := by omega
          have h2 : s.addr ≠ tb.addr := by omega
          simp only [h1, h2, if_false]
          exact hL.tile_ok s (by simp [hs])
  · rw [FreeList, granted_head, freeBlocks_append, freeBlocks_cons_used rfl,
      freeBlocks_cons_free rfl, Path.append_cons_iff]
    have hnd1 : (h.head :: freeBlocks T1).Nodup := by
      have := List.nodup_cons.1 hnd
      refine List.nodup_cons.2 ⟨fun hm => this.1 (by simp [hm]), ?_⟩
      exact (List.nodup_append.1 this.2).1
    have hF1 : ∀ x ∈ h.head :: freeBlocks T1,
        x ≠ tb.addr ∧ x ≠ tb.addr + AddPadding P t := by
      intro x hm
      rcases List.mem_cons.1 hm with e | e
      · have := hA.head_lo; omega
      · obtain ⟨s, hs, _, hsa⟩ := mem_freeBlocks.1 e
        have := hA.before s hs; omega
    refine ⟨Path.relast hp1 hnd1 ?_ ?_, by
      show tb.addr + AddPadding P t ≠ 0
      have := hL.lo_pos
      omega, ?_⟩
    · intro x hx hxr
      rw [(hg x).1]
      have := hF1 x hx
      have hxr' : x ≠ r := by rw [hr]; exact hxr
      simp [this.1, this.2, hxr']
    · rw [← hr, (hg r).1]; simp [hrne]
    · refine Path.rehead hp2 ?_ ?_
      · rw [(hg _).1]
        have h1 : tb.addr + AddPadding P t ≠ tb.addr := by omega
        simp [h1, Ne.symm hrN]
      · intro x hx
        rw [(hg x).1]
        obtain ⟨s, hs, _, hsa⟩ := mem_freeBlocks.1 hx
        have := hA.after s hs
        have hxb : x ≠ tb.addr := by omega
        have hxN : x ≠ tb.addr + AddPadding P t := by omega
        have hxr : x ≠ r := by
          rcases last_free_cases hr with e | ⟨s', hs', _, e⟩
          · have := hA.head_lo; omega
          · have := hA.before s' hs'; omega
        simp [hxb, hxr, hxN]
  · intro s hs hsf
    rw [(hg _).1]
    rcases List.mem_append.1 hs with hs | hs
    · have hsr : s.addr ≠ r := by
        rcases last_free_cases hr with e | ⟨s', hs', hf', e⟩
        · have := hA.head_lo; have := hA.before s hs; omega
        · intro e'
          have := Tiled.addr_inj (hL.pos hP) hL.tiled s (by simp [hs]) s' (by simp [hs'])
            (e'.trans e.symm)
          rw [this, hf'] at hsf; cases hsf
      have := hA.before s hs
      have hsb : s.addr ≠ tb.addr := by omega
      have hsN : s.addr ≠ tb.addr + AddPadding P t := by omega
      simp only [hsb, hsr, hsN, if_false]
      exact hL.used_next s (by simp [hs]) hsf
    · rcases List.mem_cons.1 hs with hs | hs
      · subst hs; simp
      · rcases List.mem_cons.1 hs with hs | hs
        · subst hs; cases hsf
        · have hsr : s.addr ≠ r := by
            rcases last_free_cases hr with e | ⟨s', hs', _, e⟩
            · have := hA.head_lo; have := hA.after s hs; omega
            · have := hA.before s' hs'; have := hA.after s hs; omega
          have := hA.after s hs
          have hsb : s.addr ≠ tb.addr := by omega
          have hsN : s.addr ≠ tb.addr + AddPadding P t := by omega
          simp only [hsb, hsr, hsN, if_false]
          exact hL.used_next s (by simp [hs]) hsf

/-- The layout invariant looks only at the head address and the headers. -/
theorem Layout.congr {P : Platform} {h h' : Heap} {lo hi : Nat} {ts : List Tile}
    (hL : Layout P h lo hi ts) (hh : h'.head = h.head) (hb : h'.blocks = h.blocks) :
    Layout P h' lo hi ts := by
  refine ⟨by rw [hh]; exact hL.head_ne, by rw [hh]; exact hL.head_lt,
    by rw [hh]; exact hL.head_out,
    by rw [hh, hb]; exact hL.head_size, hL.lo_pos, hL.hi_lt, hL.span, hL.tiled,
    by rw [hb]; exact hL.tile_ok, ?_, by rw [hb]; exact hL.used_next⟩
  rw [FreeList, hh]
  exact Path.frame (h := h) (fun x _ => by rw [hb]) hL.free_list

/-! ## The search for the insertion point -/

theorem preceding_loop_spec {h : Heap} {b : Nat} : ∀ {F1 : List Nat} {p : Nat} {F2 : List Nat},
    Path h p (F1 ++ F2) 0 → (∀ x ∈ F1, x < b) → (∀ x ∈ F2, b ≤ x) →
    (∀ fuel, F1.length < fuel → FindPrecendingBlock_loop h b fuel p =
      .done ((p :: F1).getLast (List.cons_ne_nil _ _))) ∧
    (∀ fuel r, FindPrecendingBlock_loop h b fuel p = .done r →
      r = (p :: F1).getLast (List.cons_ne_nil _ _))
  | [], p, F2, hp, _, h2 => by
    have hstep : ∀ fuel, FindPrecendingBlock_loop h b (fuel + 1) p = .done p := by
      intro fuel
      cases F2 with
      | nil =>
        simp only [List.append_nil, Path] at hp
        simp [FindPrecendingBlock_loop, hp]
      | cons c F2 =>
        simp only [List.nil_append, Path] at hp
        have := h2 c (by simp)
        simp [FindPrecendingBlock_loop, hp.1, hp.2.1, this]
    constructor
    · intro fuel hf
      cases fuel with
      | zero => simp at hf
      | succ fuel => simpa using hstep fuel
    · intro fuel r hr
      cases fuel with
      | zero => simp [FindPrecendingBlock_loop] at hr
      | succ fuel => rw [hstep fuel] at hr; simpa using hr.symm
  | c :: F1, p, F2, hp, h1, h2 => by
    simp only [List.cons_append, Path] at hp
    have hc := h1 c (by simp)
    have ih := preceding_loop_spec (b := b) hp.2.2 (fun x hx => h1 x (by simp [hx])) h2
    have hstep : ∀ fuel, FindPrecendingBlock_loop h b (fuel + 1) p =
        FindPrecendingBlock_loop h b fuel c := by
      intro fuel
      have : ¬ b ≤ c := by omega
      simp [FindPrecendingBlock_loop, hp.1, hp.2.1, this]
    have hl : (p :: c :: F1).getLast (List.cons_ne_nil _ _) =
        (c :: F1).getLast (List.cons_ne_nil _ _) := List.getLast_cons (List.cons_ne_nil c F1)
    constructor
    · intro fuel hf
      cases fuel with
      | zero => simp at hf
      | succ fuel =>
        rw [hstep, hl]
        exact ih.1 fuel (by simpa using hf)
    · intro fuel r hr
      cases fuel with
      | zero => simp [FindPrecendingBlock_loop] at hr
      | succ fuel =>
        rw [hstep] at hr
        rw [hl]
        exact ih.2 fuel r hr

/-! ## Putting a block back -/

theorem Path.take {h : Heap} : ∀ {p : Nat} {l1 l2 : List Nat} {q : Nat},
    Path h p (l1 ++ l2) q → Path h p l1 (l2.headD q)
  | p, [], [], q, hp => by simpa [Path] using hp
  | p, [], c :: l2, q, hp => by
    simp only [List.nil_append, Path] at hp
    simpa [Path] using hp.1
  | p, a :: l1, l2, q, hp => by
    simp only [List.cons_append, Path] at hp ⊢
    exact ⟨hp.1, hp.2.1, Path.take hp.2.2⟩

theorem Path.drop {h : Heap} : ∀ {p : Nat} {l1 l2 : List Nat} {q : Nat},
    Path h p (l1 ++ l2) q → Path h ((p :: l1).getLast (List.cons_ne_nil _ _)) l2 q
  | p, [], l2, q, hp => by simpa using hp
  | p, a :: l1, l2, q, hp => by
    simp only [List.cons_append, Path] at hp
    rw [List.getLast_cons (List.cons_ne_nil a l1)]
    exact Path.drop hp.2.2

theorem Layout.insert {P : Platform} (hP : P.Sane) {h : Heap} {lo hi : Nat}
    {T1 : List Tile} {tb : Tile} {T2 : List Tile} (hL : Layout P h lo hi (T1 ++ tb :: T2))
    (hused : tb.free = false) {r : Nat}
    (hr : r = (h.head :: freeBlocks T1).getLast (List.cons_ne_nil _ _)) :
    Layout P ((h.setNext tb.addr (h.blocks r).p_next).setNext r tb.addr) lo hi
      (T1 ++ ⟨tb.addr, tb.size, true⟩ :: T2) := by
  have hA := hL.around hP
  have hnd := hL.nodup hP
  have hfl := hL.free_list
  have htb := hL.tile_ok tb (by simp)
  have hmp := hA.min_pos
  have hle := hA.le_hi
  have hlo := hA.lo_le
  have hlp := hL.lo_pos
  rw [FreeList, freeBlocks_append, freeBlocks_cons_used hused] at hfl
  rw [freeBlocks_append, freeBlocks_cons_used hused] at hnd
  have hrne : r ≠ tb.addr := by
    rcases last_free_cases hr with e | ⟨s, hs, _, e⟩
    · have := hA.head_lo; omega
    · have := hA.before s hs; omega
  refine ⟨hL.head_ne, hL.head_lt, hL.head_out, by simpa using hL.head_size, hL.lo_pos, hL.hi_lt, hL.span,
    ?_, ?_, ?_, ?_⟩
  · exact Tiled.join (t := ⟨tb.addr, tb.size, true⟩) hA.before_tiled hA.after_tiled
  · intro s hs
    simp only [setNext_size]
    rcases List.mem_append.1 hs with hs | hs
    · exact hL.tile_ok s (by simp [hs])
    · rcases List.mem_cons.1 hs with hs | hs
      · subst hs; exact htb
      · exact hL.tile_ok s (by simp [hs])
  · rw [FreeList, freeBlocks_append, freeBlocks_cons_free rfl, Path.append_cons_iff]
    have hnd1 : (h.head :: freeBlocks T1).Nodup := by
      have := List.nodup_cons.1 hnd
      refine List.nodup_cons.2 ⟨fun hm => this.1 (by simp [hm]), ?_⟩
      exact (List.nodup_append.1 this.2).1
    have hF1 : ∀ x ∈ h.head :: freeBlocks T1, x ≠ tb.addr := by
      intro x hm
      rcases List.mem_cons.1 hm with e | e
      · have := hA.head_lo; omega
      · obtain ⟨s, hs, _, hsa⟩ := mem_freeBlocks.1 e
        have := hA.before s hs; omega
    refine ⟨Path.relast (Path.take hfl) hnd1 ?_ ?_, by show tb.addr ≠ 0; omega, ?_⟩
    · intro x hx hxr
      have hxr' : x ≠ r := by rw [hr]; exact hxr
      simp [hxr', hF1 x hx]
    · simp only [setNext_head]; rw [← hr]; simp
    · have hd := Path.drop hfl
      rw [← hr] at hd
      refine Path.rehead hd ?_ ?_
      · simp [Ne.symm hrne]
      · intro x hx
        obtain ⟨s, hs, _, hsa⟩ := mem_freeBlocks.1 hx
        have := hA.after s hs
        have hxb : x ≠ tb.addr := by omega
        have hxr : x ≠ r := by
          rcases last_free_cases hr with e | ⟨s', hs', _, e⟩
          · have := hA.head_lo; omega
          · have := hA.before s' hs'; omega
        simp [hxb, hxr]
  · intro s hs hsf
    rcases List.mem_append.1 hs with hs | hs
    · have hsr : s.addr ≠ r := by
        rcases last_free_cases hr with e | ⟨s', hs', hf', e⟩
        · have := hA.head_lo; have := hA.before s hs; omega
        · intro e'
          have := Tiled.addr_inj (hL.pos hP) hL.tiled s (by simp [hs]) s' (by simp [hs'])
            (e'.trans e.symm)
          rw [this, hf'] at hsf; cases hsf
      have := hA.before s hs
      have hsb : s.addr ≠ tb.addr := by omega
      simp only [setNext_next, hsb, hsr, if_false]
      exact hL.used_next s (by simp [hs]) hsf
    · rcases List.mem_cons.1 hs with hs | hs
      · subst hs; cases hsf
      · have hsr : s.addr ≠ r := by
          rcases last_free_cases hr with e | ⟨s', hs', _, e⟩
          · have := hA.head_lo; have := hA.after s hs; omega
          · have := hA.before s' hs'; have := hA.after s hs; omega
        have := hA.after s hs
        have hsb : s.addr ≠ tb.addr := by omega
        simp only [setNext_next, hsb, hsr, if_false]
        exact hL.used_next s (by simp [hs]) hsf

/-! ## Merging with the next block -/

theorem Layout.merge_next {P : Platform} (hP : P.Sane) {h : Heap} {lo hi : Nat}
    {U1 : List Tile} {x n : Tile} {U2 : List Tile} (hL : Layout P h lo hi (U1 ++ x :: n :: U2))
    (hx : x.free = true) (hn : n.free = true) :
    ∃ h', TryToMergeWithNextBlock P h x.addr = .done h' ∧ h'.head = h.head ∧
      h'.bytes = h.bytes ∧ h'.calls = h.calls ∧
      Layout P h' lo hi (U1 ++ ⟨x.addr, x.size + n.size, true⟩ :: U2) := by
  have hA := hL.around hP
  have hnd := hL.nodup hP
  have hfl := hL.free_list
  have htx := hL.tile_ok x (by simp)
  have htn := hL.tile_ok n (by simp)
  have hmp := hA.min_pos
  have hle := hA.le_hi
  have hlo := hA.lo_le
  have hlp := hL.lo_pos
  have hhi := hL.hi_lt
  have hat := hA.after_tiled
  simp only [Tiled] at hat
  obtain ⟨hna, hat⟩ := hat
  have hnb := hA.after n (by simp)
  rw [FreeList, freeBlocks_append, freeBlocks_cons_free hx, freeBlocks_cons_free hn,
    Path.append_cons_iff] at hfl
  obtain ⟨hp1, hx0, hp2⟩ := hfl
  simp only [Path] at hp2
  obtain ⟨hxn, hn0, hp3⟩ := hp2
  have hadd : P.add x.addr x.size = n.addr := by rw [P.add_eq (by omega)]; omega
  have hsz : P.add x.size n.size = x.size + n.size := P.add_eq (by omega)
  refine ⟨(h.setNext x.addr (h.blocks n.addr).p_next).setSize x.addr (x.size + n.size), ?_, rfl,
    rfl, rfl, ?_⟩
  · simp [TryToMergeWithNextBlock, htx.2.2, htn.2.2, hadd, hxn, hn0, hsz]
  · have hF1 : ∀ y ∈ h.head :: freeBlocks U1, y ≠ x.addr := by
      intro y hm
      rcases List.mem_cons.1 hm with e | e
      · have := hA.head_lo; omega
      · obtain ⟨s, hs, _, hsa⟩ := mem_freeBlocks.1 e
        have := hA.before s hs; omega
    refine ⟨hL.head_ne, hL.head_lt, hL.head_out, ?_, hL.lo_pos, hL.hi_lt, hL.span, ?_, ?_, ?_, ?_⟩
    · have := hF1 h.head (by simp)
      simp [this]; exact hL.head_size
    · refine Tiled.join (t := ⟨x.addr, x.size + n.size, true⟩) hA.before_tiled ?_
      have e : x.addr + (x.size + n.size) = x.addr + x.size + n.size := by omega
      show Tiled (x.addr + (x.size + n.size)) U2 hi
      rw [e]; exact hat
    · intro s hs
      rcases List.mem_append.1 hs with hs | hs
      · have := hA.before s hs
        have h1 : s.addr ≠ x.addr := by omega
        simp only [setSize_size, setNext_size, h1, if_false]
        exact hL.tile_ok s (by simp [hs])
      · rcases List.mem_cons.1 hs with hs | hs
        · subst hs
          simp only [setSize_size, if_true]
          exact ⟨htx.1, by omega, trivial⟩
        · have := hA.after s (by simp [hs])
          have h1 : s.addr ≠ x.addr := by omega
          simp only [setSize_size, setNext_size, h1, if_false]
          exact hL.tile_ok s (by simp [hs])
    · rw [FreeList, freeBlocks_append, freeBlocks_cons_free rfl, Path.append_cons_iff]
      refine ⟨Path.frame (h := h) ?_ hp1, hx0, Path.rehead hp3 ?_ ?_⟩
      · intro y hy
        simp [hF1 y hy]
      · simp
      · intro y hy
        obtain ⟨s, hs, _, hsa⟩ := mem_freeBlocks.1 hy
        have := hA.after s (by simp [hs])
        have hxb : y ≠ x.addr := by omega
        simp [hxb]
    · intro s hs hsf
      rcases List.mem_append.1 hs with hs | hs
      · have := hA.before s hs
        have h1 : s.addr ≠ x.addr := by omega
        simp only [setSize_next, setNext_next, h1, if_false]
        exact hL.used_next s (by simp [hs]) hsf
      · rcases List.mem_cons.1 hs with hs | hs
        · subst hs; cases hsf
        · have := hA.after s (by simp [hs])
          have h1 : s.addr ≠ x.addr := by omega
          simp only [setSize_next, setNext_next, h1, if_false]
          exact hL.used_next s (by simp [hs]) hsf

theorem Layout.merge_none {P : Platform} (hP : P.Sane) {h : Heap} {lo hi : Nat}
    {U1 : List Tile} {x : Tile} {U2 : List Tile} (hL : Layout P h lo hi (U1 ++ x :: U2))
    (hx : x.free = true) (hU2 : ∀ y ∈ U2.head?, y.free = false) :
    TryToMergeWithNextBlock P h x.addr = .done h := by
  have hA := hL.around hP
  have hfl := hL.free_list
  have htx := hL.tile_ok x (by simp)
  have hmp := hA.min_pos
  have hle := hA.le_hi
  have hlo := hA.lo_le
  have hlp := hL.lo_pos
  have hhi := hL.hi_lt
  rw [FreeList, freeBlocks_append, freeBlocks_cons_free hx, Path.append_cons_iff] at hfl
  obtain ⟨_, _, hp2⟩ := hfl
  have hadd : P.add x.addr x.size = x.addr + x.size := P.add_eq (by omega)
  have hne : x.addr + x.size ≠ (h.blocks x.addr).p_next := by
    cases hF : freeBlocks U2 with
    | nil =>
      rw [hF] at hp2
      simp only [Path] at hp2
      omega
    | cons c F =>
      rw [hF] at hp2
      simp only [Path] at hp2
      rw [hp2.1]
      cases U2 with
      | nil => simp [freeBlocks] at hF
      | cons u U2 =>
        have hu := hU2 u (by simp)
        rw [freeBlocks_cons_used hu] at hF
        have hc : c ∈ freeBlocks U2 := by rw [hF]; simp
        obtain ⟨s, hs, _, hsa⟩ := mem_freeBlocks.1 hc
        have hat := hA.after_tiled
        simp only [Tiled] at hat
        have h1 := Tiled.mem_bounds hat.2 s hs
        have h2 := hA.after u (by simp)
        omega
  simp [TryToMergeWithNextBlock, htx.2.2, hadd, hne]

theorem Layout.merge_head {P : Platform} (hP : P.Sane) {h : Heap} {lo hi : Nat}
    {ts : List Tile} (hL : Layout P h lo hi ts) :
    TryToMergeWithNextBlock P h h.head = .done h := by
  have hfl := hL.free_list
  have hadd : P.add h.head 0 = h.head := P.add_eq (by have := hL.head_lt; omega)
  have hne : h.head ≠ (h.blocks h.head).p_next := by
    cases hF : freeBlocks ts with
    | nil =>
      rw [FreeList, hF] at hfl
      simp only [Path] at hfl
      rw [hfl]; exact hL.head_ne
    | cons c F =>
      rw [FreeList, hF] at hfl
      simp only [Path] at hfl
      rw [hfl.1]
      have hc : c ∈ freeBlocks ts := by rw [hF]; simp
      obtain ⟨s, hs, _, hsa⟩ := mem_freeBlocks.1 hc
      have := Tiled.mem_bounds hL.tiled s hs
      have := hL.pos hP s hs
      have := hL.head_out
      omega
  simp [TryToMergeWithNextBlock, hL.head_size, hadd, hne]

/-! ## Adjacent free blocks -/

theorem noAdjacentFree_split (T1 : List Tile) (t : Tile) (T2 : List Tile) :
    NoAdjacentFree (T1 ++ t :: T2) ↔
      NoAdjacentFree T1 ∧ NoAdjacentFree T2 ∧
      (∀ x ∈ T1.getLast?, ¬ (x.free = true ∧ t.free = true)) ∧
      (∀ y ∈ T2.head?, ¬ (t.free = true ∧ y.free = true)) := by
  unfold NoAdjacentFree
  rw [List.chain'_append, List.chain'_cons']
  simp only [List.head?_cons, Option.mem_def, Option.some.injEq, forall_eq']
  tauto

theorem noAdjacentFree_used {T1 : List Tile} {t : Tile} {T2 : List Tile} (ht : t.free = false) :
    NoAdjacentFree (T1 ++ t :: T2) ↔ NoAdjacentFree T1 ∧ NoAdjacentFree T2 := by
  rw [noAdjacentFree_split]
  simp [ht]

theorem noAdjacentFree_free {T1 : List Tile} {t : Tile} {T2 : List Tile} (ht : t.free = true) :
    NoAdjacentFree (T1 ++ t :: T2) ↔
      NoAdjacentFree T1 ∧ NoAdjacentFree T2 ∧
      (∀ x ∈ T1.getLast?, x.free = false) ∧ (∀ y ∈ T2.head?, y.free = false) := by
  rw [noAdjacentFree_split]
  simp [ht]

/-- Either no block of `T` is free, or `T` is cut at its last free block. -/
theorem last_free_split : ∀ T : List Tile,
    (freeBlocks T = [] ∧ ∀ t ∈ T, t.free = false) ∨
    ∃ U s V, T = U ++ s :: V ∧ s.free = true ∧ (∀ v ∈ V, v.free = false) ∧
      ∀ p, (p :: freeBlocks T).getLast (List.cons_ne_nil _ _) = s.addr
  | [] => Or.inl ⟨rfl, by simp⟩
  | t :: T => by
    rcases last_free_split T with ⟨h1, h2⟩ | ⟨U, s, V, h1, h2, h3, h4⟩
    · by_cases ht : t.free = true
      · refine Or.inr ⟨[], t, T, rfl, ht, h2, fun p => ?_⟩
        rw [freeBlocks_cons_free ht, h1]; rfl
      · have ht' : t.free = false := by simpa using ht
        refine Or.inl ⟨by rw [freeBlocks_cons_used ht', h1], ?_⟩
        intro u hu
        rcases List.mem_cons.1 hu with e | e
        · rw [e]; exact ht'
        · exact h2 u e
    · refine Or.inr ⟨t :: U, s, V, by simp [h1], h2, h3, fun p => ?_⟩
      by_cases ht : t.free = true
      · rw [freeBlocks_cons_free ht, List.getLast_cons (List.cons_ne_nil _ _)]
        exact h4 t.addr
      · rw [freeBlocks_cons_used (by simpa using ht)]
        exact h4 p

/-! ## One allocation keeps the invariant -/

theorem Heap.refused_layout {P : Platform} {h : Heap} {lo hi : Nat} {ts : List Tile}
    (hL : Layout P h lo hi ts) : Layout P (refused h) lo hi ts :=
  hL.congr rfl rfl

/-- The data pointer of a block of the tiling does not wrap. -/
theorem Layout.data_pointer {P : Platform} (hP : P.Sane) {h : Heap} {lo hi : Nat}
    {ts : List Tile} (hL : Layout P h lo hi ts) {tb : Tile} (htb : tb ∈ ts) :
    P.add tb.addr (GetOffsetOfData P) = tb.addr + GetOffsetOfData P ∧
    tb.addr + GetOffsetOfData P + P.HEAP_WATERMARK_SIZE ≤ tb.addr + tb.size ∧
    tb.addr + GetOffsetOfData P ≠ 0 := by
  have hb := Tiled.mem_bounds hL.tiled tb htb
  have hm := GetTotalSize_zero P hP
  have := (hL.tile_ok tb htb).2.1
  have := hL.hi_lt
  have := hL.lo_pos
  exact ⟨P.add_eq (by omega), by omega, by omega⟩

theorem Inv.alloc_step {P : Platform} (hP : P.Sane) {h : Heap} {lo hi : Nat} {ts : List Tile}
    (hI : Inv P h lo hi ts) {fuel n : Nat} {h' : Heap} {p : Nat}
    (hnw : GetOffsetOfData P + n + P.HEAP_WATERMARK_SIZE < P.range)
    (hres : Heap_Alloc P fuel h n = .done (h', p)) :
    (p = 0 ∧ h' = refused h ∧ Inv P h' lo hi ts ∧
      ∀ s ∈ ts, s.free = true → s.size < GetTotalSize P n) ∨
    (∃ T1 tb T2, ts = T1 ++ tb :: T2 ∧ tb.free = true ∧
      (∀ s ∈ T1, s.free = true → s.size < GetTotalSize P n) ∧
      GetTotalSize P n ≤ tb.size ∧ p = tb.addr + GetOffsetOfData P ∧
      h' = granted P h ((h.head :: freeBlocks T1).getLast (List.cons_ne_nil _ _))
        (GetTotalSize P n) ∧
      Inv P h' lo hi (carved P T1 tb T2 (GetTotalSize P n))) := by
  have hL := hI.layout
  rcases Heap_Alloc_cases hL.free_list hL.head_ne hres with
    ⟨hall, hp0, hh'⟩ | ⟨l1, b, l2, hsplit, hall, hb, _, hpe, hh'⟩
  · refine Or.inl ⟨hp0, hh', ⟨by rw [hh']; exact Heap.refused_layout hL, hI.no_adj⟩, ?_⟩
    intro s hs hsf
    rw [← (hL.tile_ok s hs).2.2]
    exact hall s.addr (mem_freeBlocks.2 ⟨s, hs, hsf, rfl⟩)
  · obtain ⟨T1, tb, T2, hts, hfree, hba, hF1, hF2⟩ := freeBlocks_eq_append hsplit
    subst hts
    subst hba
    subst hF1
    have htb := hL.tile_ok tb (by simp)
    rw [htb.2.2] at hb
    have hdp := hL.data_pointer hP (show tb ∈ _ by simp)
    have ht0 : GetTotalSize P 0 ≤ GetTotalSize P n := by
      rw [GetTotalSize_zero P hP, GetTotalSize_eq P n hnw]; omega
    obtain ⟨ha1, ha2, ha3, ha4⟩ := hL.split_arith hP (show tb ∈ _ by simp) hb
    have hna := hI.no_adj
    rw [noAdjacentFree_free hfree] at hna
    refine Or.inr ⟨T1, tb, T2, rfl, hfree, ?_, hb, by rw [hpe, hdp.1], hh', ?_⟩
    · intro s hs hsf
      rw [← (hL.tile_ok s (by simp [hs])).2.2]
      exact hall s.addr (mem_freeBlocks.2 ⟨s, hs, hsf, rfl⟩)
    · rw [hh']
      unfold carved
      by_cases hc : tb.size > AddPadding P (GetTotalSize P n) + GetTotalSize P 0
      · rw [if_pos hc]
        refine ⟨hL.grant_split hP hfree rfl ht0 hb (by rw [htb.2.2, ha4]; exact hc), ?_⟩
        rw [noAdjacentFree_used rfl]
        refine ⟨hna.1, ?_⟩
        have := @noAdjacentFree_free [] ⟨tb.addr + AddPadding P (GetTotalSize P n),
            tb.size - AddPadding P (GetTotalSize P n), true⟩ T2 rfl
        rw [List.nil_append] at this
        rw [this]
        exact ⟨List.chain'_nil, hna.2.1, by simp, hna.2.2.2⟩
      · rw [if_neg hc]
        refine ⟨hL.grant_whole hP hfree rfl (by rw [htb.2.2, ha4]; exact hc), ?_⟩
        rw [noAdjacentFree_used rfl]
        exact ⟨hna.1, hna.2.1⟩

/-! ## The tiling after a release -/

theorem mergeRight_cases (tb : Tile) (T2 : List Tile) :
    (T2 = [] ∧ mergeRight tb T2 = [⟨tb.addr, tb.size, true⟩]) ∨
    (∃ n T2', T2 = n :: T2' ∧ n.free = true ∧
      mergeRight tb T2 = ⟨tb.addr, tb.size + n.size, true⟩ :: T2') ∨
    (∃ n T2', T2 = n :: T2' ∧ n.free = false ∧
      mergeRight tb T2 = ⟨tb.addr, tb.size, true⟩ :: n :: T2') := by
  cases T2 with
  | nil => exact Or.inl ⟨rfl, rfl⟩
  | cons n T2' =>
    by_cases hn : n.free = true
    · exact Or.inr (Or.inl ⟨n, T2', rfl, hn, by simp [mergeRight, hn]⟩)
    · exact Or.inr (Or.inr ⟨n, T2', rfl, by simpa using hn, by simp [mergeRight, hn]⟩)

theorem mergeLeft_used : ∀ (T1 : List Tile) (x : Tile) (X : List Tile),
    (∀ q ∈ T1.getLast?, q.free = false) → mergeLeft T1 (x :: X) = T1 ++ x :: X
  | [], x, X, _ => rfl
  | [q], x, X, hq => by
    have := hq q (by simp)
    simp [mergeLeft, this]
  | q :: q' :: T1, x, X, hq => by
    have ih := mergeLeft_used (q' :: T1) x X (by simpa using hq)
    simp only [mergeLeft, ih, List.cons_append]

theorem mergeLeft_free : ∀ (U : List Tile) (q x : Tile) (X : List Tile), q.free = true →
    mergeLeft (U ++ [q]) (x :: X) = U ++ ⟨q.addr, q.size + x.size, true⟩ :: X
  | [], q, x, X, hq => by simp [mergeLeft, hq]
  | [u], q, x, X, hq => by simp [mergeLeft, hq]
  | u :: u' :: U, q, x, X, hq => by
    have ih := mergeLeft_free (u' :: U) q x X hq
    simp only [List.cons_append] at ih ⊢
    simp only [mergeLeft, ih]

/-- The shapes of the tiling after a release. -/
theorem released_cases (T1 : List Tile) (tb : Tile) (T2 : List Tile) :
    ∃ x X, mergeRight tb T2 = x :: X ∧ x.free = true ∧ x.addr = tb.addr ∧ tb.size ≤ x.size ∧
      ((∀ q ∈ T1.getLast?, q.free = false) ∧ released T1 tb T2 = T1 ++ x :: X ∨
       ∃ U q, T1 = U ++ [q] ∧ q.free = true ∧
        released T1 tb T2 = U ++ ⟨q.addr, q.size + x.size, true⟩ :: X) := by
  have hx : ∃ x X, mergeRight tb T2 = x :: X ∧ x.free = true ∧ x.addr = tb.addr ∧
      tb.size ≤ x.size := by
    rcases mergeRight_cases tb T2 with ⟨_, h⟩ | ⟨n, T2', _, _, h⟩ | ⟨n, T2', _, _, h⟩
    · exact ⟨_, _, h, rfl, rfl, le_refl _⟩
    · exact ⟨_, _, h, rfl, rfl, by simp⟩
    · exact ⟨_, _, h, rfl, rfl, le_refl _⟩
  obtain ⟨x, X, h1, h2, h3, h4⟩ := hx
  refine ⟨x, X, h1, h2, h3, h4, ?_⟩
  unfold released
  rw [h1]
  rcases List.eq_nil_or_concat T1 with e | ⟨U, q, e⟩
  · subst e; exact Or.inl ⟨by simp, rfl⟩
  · rw [List.concat_eq_append] at e
    subst e
    by_cases hq : q.free = true
    · exact Or.inr ⟨U, q, rfl, hq, mergeLeft_free U q x X hq⟩
    · have hq' : ∀ q' ∈ (U ++ [q]).getLast?, q'.free = false := by
        intro q' hq'
        simp at hq'
        rw [← hq']; simpa using hq
      exact Or.inl ⟨hq', mergeLeft_used _ x X hq'⟩

theorem released_noAdjacentFree {T1 : List Tile} {tb : Tile} {T2 : List Tile}
    (hused : tb.free = false) (hna : NoAdjacentFree (T1 ++ tb :: T2)) :
    NoAdjacentFree (released T1 tb T2) := by
  rw [noAdjacentFree_used hused] at hna
  obtain ⟨hn1, hn2⟩ := hna
  have hX : ∃ x X, mergeRight tb T2 = x :: X ∧ x.free = true ∧ NoAdjacentFree X ∧
      ∀ y ∈ X.head?, y.free = false := by
    rcases mergeRight_cases tb T2 with ⟨e, h⟩ | ⟨n, T2', e, hn, h⟩ | ⟨n, T2', e, hn, h⟩
    · exact ⟨_, _, h, rfl, List.chain'_nil, by simp⟩
    · subst e
      have := (@noAdjacentFree_free [] n T2' hn).1 (by simpa using hn2)
      exact ⟨_, _, h, rfl, this.2.1, this.2.2.2⟩
    · subst e
      exact ⟨_, _, h, rfl, hn2, by simpa using hn⟩
  obtain ⟨x, X, h1, h2, h3, h4⟩ := hX
  obtain ⟨x', X', h1', _, _, _, hc⟩ := released_cases T1 tb T2
  rw [h1] at h1'
  obtain ⟨rfl, rfl⟩ := List.cons.inj h1'
  rcases hc with ⟨hl, e⟩ | ⟨U, q, e1, hq, e⟩
  · rw [e, noAdjacentFree_free h2]
    exact ⟨hn1, h3, hl, h4⟩
  · subst e1
    rw [e, noAdjacentFree_free rfl]
    have := (@noAdjacentFree_free U q [] hq).1 hn1
    exact ⟨this.1, h3, this.2.2.1, h4⟩

/-- The two merges of `Heap_Free`, after the block `tb` was linked in behind `r`. -/
theorem Layout.release {P : Platform} (hP : P.Sane) {h : Heap} {lo hi : Nat}
    {T1 : List Tile} {tb : Tile} {T2 : List Tile} (hL : Layout P h lo hi (T1 ++ tb :: T2))
    (hused : tb.free = false) {r : Nat}
    (hr : r = (h.head :: freeBlocks T1).getLast (List.cons_ne_nil _ _)) :
    ∃ h1 h2,
      TryToMergeWithNextBlock P ((h.setNext tb.addr (h.blocks r).p_next).setNext r tb.addr)
        tb.addr = .done h1 ∧
      TryToMergeWithNextBlock P h1 r = .done h2 ∧
      h2.head = h.head ∧ h2.bytes = h.bytes ∧ h2.calls = h.calls ∧
      Layout P h2 lo hi (released T1 tb T2) := by
  have hLa := hL.insert hP hused hr
  -- the merge with the next block
  have hA : ∃ h1, TryToMergeWithNextBlock P
      ((h.setNext tb.addr (h.blocks r).p_next).setNext r tb.addr) tb.addr = .done h1 ∧
      h1.head = h.head ∧ h1.bytes = h.bytes ∧ h1.calls = h.calls ∧
      Layout P h1 lo hi (T1 ++ mergeRight tb T2) := by
    rcases mergeRight_cases tb T2 with ⟨e, hm⟩ | ⟨n, T2', e, hn, hm⟩ | ⟨n, T2', e, hn, hm⟩
    · subst e
      have := hLa.merge_none hP (x := ⟨tb.addr, tb.size, true⟩) rfl (by simp)
      exact ⟨_, this, rfl, rfl, rfl, by rw [hm]; exact hLa⟩
    · subst e
      obtain ⟨h1, e1, e2, e3, e4, e5⟩ :=
        hLa.merge_next hP (x := ⟨tb.addr, tb.size, true⟩) (n := n) rfl hn
      exact ⟨h1, e1, e2, e3, e4, by rw [hm]; exact e5⟩
    · subst e
      have := hLa.merge_none hP (x := ⟨tb.addr, tb.size, true⟩) rfl (by simpa using hn)
      exact ⟨_, this, rfl, rfl, rfl, by rw [hm]; exact hLa⟩
  obtain ⟨h1, hm1, hh1, hb1, hc1, hL1⟩ := hA
  obtain ⟨x, X, hmr, hxf, hxa, _, hcases⟩ := released_cases T1 tb T2
  rw [hmr] at hL1
  have hr1 : r = (h1.head :: freeBlocks T1).getLast (List.cons_ne_nil _ _) := by rw [hh1]; exact hr
  refine ⟨h1, ?_⟩
  rcases hcases with ⟨hlast, hrel⟩ | ⟨U, q, hT1, hq, hrel⟩
  · -- the block before is in use, or there is none
    have hm2 : TryToMergeWithNextBlock P h1 r = .done h1 := by
      rcases last_free_split T1 with ⟨hF, _⟩ | ⟨U, s, V, hT1, hs, hV, hlastF⟩
      · have : r = h1.head := by rw [hr1]; simp [hF]
        rw [this]; exact hL1.merge_head hP
      · have hrs : r = s.addr := by rw [hr1]; exact hlastF _
        subst hT1
        cases V with
        | nil =>
          have := hlast s (by simp)
          rw [hs] at this; cases this
        | cons v V =>
          have hL1' : Layout P h1 lo hi (U ++ s :: (v :: V ++ x :: X)) := by
            simpa using hL1
          rw [hrs]
          exact hL1'.merge_none hP hs (by simpa using hV v (by simp))
    exact ⟨h1, hm1, hm2, hh1, hb1, hc1, by rw [hrel]; exact hL1⟩
  · -- the block before is free
    subst hT1
    have hrq : r = q.addr := by
      rw [hr1, freeBlocks_append, freeBlocks_cons_free hq]
      simp [freeBlocks]
    have hL1' : Layout P h1 lo hi (U ++ q :: x :: X) := by simpa using hL1
    obtain ⟨h2, e1, e2, e3, e4, e5⟩ := hL1'.merge_next hP hq hxf
    exact ⟨h2, hm1, by rw [hrq]; exact e1, by rw [e2, hh1], by rw [e3, hb1], by rw [e4, hc1],
      by rw [hrel]; exact e5⟩

/-! ## One release keeps the invariant -/

/-- The pointer checks of `Heap_Free` pass for a block in use. -/
theorem Layout.free_checks {P : Platform} (hP : P.Sane) {h : Heap} {lo hi : Nat}
    {ts : List Tile} (hL : Layout P h lo hi ts) {tb : Tile} (htb : tb ∈ ts)
    (hused : tb.free = false) :
    tb.addr + GetOffsetOfData P ≠ 0 ∧
    P.sub (tb.addr + GetOffsetOfData P) (GetOffsetOfData P) = tb.addr ∧
    GetPaddingSizeFromPointer P tb.addr = 0 ∧ (h.blocks tb.addr).p_next = 0 := by
  have hdp := hL.data_pointer hP htb
  have hb := Tiled.mem_bounds hL.tiled tb htb
  have := hL.hi_lt
  have hlt : tb.addr < P.range := by
    have := hL.pos hP tb htb; omega
  refine ⟨hdp.2.2, ?_, (padding_zero_iff P _ hP.align_pos).2 (hL.tile_ok tb htb).1,
    hL.used_next tb htb hused⟩
  rw [← hdp.1]
  exact P.sub_add_cancel _ hlt

theorem Inv.free_step {P : Platform} (hP : P.Sane) {h : Heap} {lo hi : Nat}
    {T1 : List Tile} {tb : Tile} {T2 : List Tile} (hI : Inv P h lo hi (T1 ++ tb :: T2))
    (hused : tb.free = false) (fuel : Nat) :
    (CheckWatermarks P h tb.addr = false →
      Heap_Free P fuel h (tb.addr + GetOffsetOfData P) = .done (h.call .corrupted_data_hook)) ∧
    (CheckWatermarks P h tb.addr = true →
      ((freeBlocks T1).length < fuel →
        ∃ h', Heap_Free P fuel h (tb.addr + GetOffsetOfData P) = .done h') ∧
      ∀ h', Heap_Free P fuel h (tb.addr + GetOffsetOfData P) = .done h' →
        h'.head = h.head ∧ h'.bytes = h.bytes ∧
        h'.calls = h.calls ++ [Hook.enter_critical_section, Hook.exit_critical_section] ∧
        Inv P h' lo hi (released T1 tb T2)) := by
  have hL := hI.layout
  obtain ⟨hp0, hsub, hpad, hnext⟩ := hL.free_checks hP (show tb ∈ _ by simp) hused
  have hA := hL.around hP
  have hfl := hL.free_list
  rw [FreeList, freeBlocks_append, freeBlocks_cons_used hused] at hfl
  have hspec := preceding_loop_spec (b := tb.addr) hfl
    (by
      intro x hx
      obtain ⟨s, hs, _, hsa⟩ := mem_freeBlocks.1 hx
      have := hA.before s hs; omega)
    (by
      intro x hx
      obtain ⟨s, hs, _, hsa⟩ := mem_freeBlocks.1 hx
      have := hA.after s hs; omega)
  constructor
  · intro hchk
    simp [Heap_Free, hp0, hsub, hpad, hnext, hchk]
  · intro hchk
    have hr0 : (h.head :: freeBlocks T1).getLast (List.cons_ne_nil _ _) ≠ 0 := by
      refine getLast_ne_zero hL.head_ne ?_
      intro x hx
      obtain ⟨s, hs, _, hsa⟩ := mem_freeBlocks.1 hx
      have := hA.before s hs; have := hL.lo_pos; omega
    have hLe : Layout P (h.call .enter_critical_section) lo hi (T1 ++ tb :: T2) :=
      hL.congr rfl rfl
    obtain ⟨h1, h2, hm1, hm2, hh2, hb2, hc2, hL2⟩ := hLe.release hP hused
      (r := (h.head :: freeBlocks T1).getLast (List.cons_ne_nil _ _)) rfl
    have hrun : ∀ r, FindPrecendingBlock_loop h tb.addr fuel h.head = .done r →
        Heap_Free P fuel h (tb.addr + GetOffsetOfData P) =
          .done (h2.call .exit_critical_section) := by
      intro r hr
      have hre := hspec.2 fuel r hr
      subst hre
      simp only [Heap_Free, hp0, hsub, hpad, hnext, hchk, FindPrecendingBlock, call_head,
        preceding_loop_call, hr]
      simp only [ne_eq, not_true_eq_false, if_false, Bool.not_true, Bool.false_eq_true, hr0,
        not_false_eq_true, if_true]
      simp only [call_blocks] at hm1 ⊢
      rw [hm1]
      simp only [hm2]
    constructor
    · intro hf
      exact ⟨_, hrun _ (hspec.1 fuel hf)⟩
    · intro h' hres
      cases hfind : FindPrecendingBlock_loop h tb.addr fuel h.head with
      | outOfFuel =>
        simp [Heap_Free, hp0, hsub, hpad, hnext, hchk, FindPrecendingBlock, hfind] at hres
      | assertFailed =>
        simp [Heap_Free, hp0, hsub, hpad, hnext, hchk, FindPrecendingBlock, hfind] at hres
      | done r =>
        rw [hrun r hfind] at hres
        cases hres
        refine ⟨by simpa using hh2, by simpa using hb2, by simp [hc2], ?_,
          released_noAdjacentFree hused hI.no_adj⟩
        exact hL2.congr rfl rfl

/-! ## The state after `Heap_Init` -/

theorem Inv.init {P : Platform} (hP : P.Sane) {h0 h : Heap} {c : Option HeapConfig}
    {p_data size : Nat} (hR : Region P h0.head p_data size)
    (hi : Heap_Init P h0 c p_data size = .done h) :
    GetPaddingSizeFromPointer P p_data ≤ size ∧
    h.head = h0.head ∧ h.bytes = h0.bytes ∧ h.calls = h0.calls ∧
    Inv P h (p_data + GetPaddingSizeFromPointer P p_data) (p_data + size)
      [⟨p_data + GetPaddingSizeFromPointer P p_data,
        size - GetPaddingSizeFromPointer P p_data, true⟩] := by
  obtain ⟨hp0, hfit, hhalf, hh0, hhlt, hout⟩ := hR
  have hA := hP.align_pos
  have hmin := GetTotalSize_zero_pos P hP
  unfold Heap_Init at hi
  split at hi
  · cases hi
  · split at hi
    · cases hi
    · rename_i c
      repeat' (split at hi; cases hi)
      simp only at hi
      split at hi
      · cases hi
      · rename_i hpad
        split at hi
        · cases hi
        · rename_i hsz
          simp only [Decidable.not_not] at hpad hsz
          have hadd : P.add p_data (GetPaddingSizeFromPointer P p_data) =
              p_data + GetPaddingSizeFromPointer P p_data := P.add_eq (by omega)
          rw [hadd] at hi
          simp only [Outcome.done.injEq] at hi
          subst hi
          have hne : h0.head ≠ p_data + GetPaddingSizeFromPointer P p_data := by omega
          refine ⟨hpad, rfl, rfl, rfl, ⟨?_, List.chain'_singleton _⟩⟩
          refine ⟨hh0, hhlt, by simp only [setNext_head, setSize_head]; omega, by simp,
            by omega, hfit, by omega, ?_, ?_, ?_, ?_⟩
          · simp only [Tiled]; exact ⟨trivial, by omega⟩
          · intro t ht
            simp only [List.mem_singleton] at ht
            subst ht
            refine ⟨dvd_add_padding P p_data hA, hsz, ?_⟩
            simp [Ne.symm hne]
          · simp [FreeList, freeBlocks, Path, Ne.symm hne]
            omega
          · intro t ht hf
            simp only [List.mem_singleton] at ht
            subst ht
            cases hf

/-! ## The guards -/

theorem stampGuard_hit (P : Platform) (h : Heap) (p : Nat) : ∀ n i, i < n →
    (stampGuard P h p n).bytes (P.add p i) = WATERMARK
  | 0, i, hi => by omega
  | n + 1, i, hi => by
    simp only [stampGuard, setByte_bytes]
    split
    · rfl
    · rename_i hne
      have : i < n := by
        rcases Nat.lt_succ_iff_lt_or_eq.1 hi with h1 | h1
        · exact h1
        · subst h1; exact absurd rfl hne
      exact stampGuard_hit P h p n i this

theorem stampGuard_keeps (P : Platform) (h : Heap) (p a : Nat) (ha : h.bytes a = WATERMARK) :
    ∀ n, (stampGuard P h p n).bytes a = WATERMARK
  | 0 => ha
  | n + 1 => by
    simp only [stampGuard, setByte_bytes]
    split
    · rfl
    · exact stampGuard_keeps P h p a ha n

theorem CheckWatermarks_ApplyWatermarks (P : Platform) (h : Heap) (b : Nat) :
    CheckWatermarks P (ApplyWatermarks P h b) b = true := by
  rw [CheckWatermarks_iff]
  intro i hi
  simp only [ApplyWatermarks, stampGuard_blocks]
  exact ⟨stampGuard_keeps P _ _ _ (stampGuard_hit P h _ _ i hi) _, stampGuard_hit P _ _ _ i hi⟩

theorem CheckWatermarks_granted (P : Platform) (h : Heap) (r t : Nat) :
    CheckWatermarks P (granted P h r t) ((h.blocks r).p_next) = true := by
  simp only [granted, call_blocks]
  exact CheckWatermarks_ApplyWatermarks P _ _

/-- The block taken out of the free list, in the tiling after the grant. -/
theorem carved_shape {P : Platform} (hP : P.Sane) {h : Heap} {lo hi : Nat} {T1 : List Tile}
    {tb : Tile} {T2 : List Tile} (hL : Layout P h lo hi (T1 ++ tb :: T2)) {t : Nat}
    (ht : t ≤ tb.size) :
    ∃ T R, carved P T1 tb T2 t = T1 ++ ⟨tb.addr, T, false⟩ :: R ∧ t ≤ T ∧ T ≤ tb.size := by
  obtain ⟨ha1, _, _, _⟩ := hL.split_arith hP (show tb ∈ _ by simp) ht
  unfold carved
  split
  · exact ⟨_, _, rfl, ha1, by omega⟩
  · exact ⟨_, _, rfl, ht, le_refl _⟩

theorem released_covers {lo hi : Nat} {T1 : List Tile} {tb : Tile} {T2 : List Tile}
    (ht : Tiled lo (T1 ++ tb :: T2) hi) :
    ∃ q ∈ released T1 tb T2, q.free = true ∧ q.addr ≤ tb.addr ∧
      tb.addr + tb.size ≤ q.addr + q.size := by
  obtain ⟨x, X, _, hxf, hxa, hxs, hc⟩ := released_cases T1 tb T2
  rcases hc with ⟨_, e⟩ | ⟨U, q, e1, _, e⟩
  · exact ⟨x, by simp [e], hxf, by omega, by omega⟩
  · subst e1
    have h1 := (Tiled.split ht).1
    have h2 := (Tiled.split h1).2
    simp only [Tiled] at h2
    refine ⟨⟨q.addr, q.size + x.size, true⟩, by rw [e]; simp, rfl, ?_, ?_⟩
    · show q.addr ≤ tb.addr
      omega
    · show tb.addr + tb.size ≤ q.addr + (q.size + x.size)
      omega

/-! ## Allocation followed by release -/

theorem freeBlocks_length_le (ts : List Tile) : (freeBlocks ts).length ≤ ts.length := by
  simp only [freeBlocks, List.length_map]
  exact List.length_filter_le _ _

/-- The guards of a block of the tiling are intact when its bytes below the data pointer and
from the end of the payload on are those `ApplyWatermarks` left. -/
theorem guards_intact {P : Platform} (hP : P.Sane) {h1 h1' : Heap} {lo hi : Nat}
    {ts : List Tile} (hL : Layout P h1 lo hi ts) {tb : Tile} (htb : tb ∈ ts) {n : Nat}
    (hn : GetOffsetOfData P + n + P.HEAP_WATERMARK_SIZE ≤ tb.size)
    (hchk : CheckWatermarks P h1 tb.addr = true) (hblocks : h1'.blocks = h1.blocks)
    (hbytes : ∀ a, a < tb.addr + GetOffsetOfData P ∨ tb.addr + GetOffsetOfData P + n ≤ a →
      h1'.bytes a = h1.bytes a) :
    CheckWatermarks P h1' tb.addr = true := by
  rw [CheckWatermarks_iff] at hchk ⊢
  have hb := Tiled.mem_bounds hL.tiled tb htb
  have hhi := hL.hi_lt
  have ho := GetOffsetOfData_bounds P hP
  have hsz := (hL.tile_ok tb htb).2.2
  rw [hblocks, hsz]
  rw [hsz] at hchk
  intro i hi
  have h1a : P.add tb.addr (GetOffsetOfHeadGuard P) = tb.addr + P.sizeof_Block :=
    P.add_eq (by show tb.addr + P.sizeof_Block < P.range; omega)
  have h1b : P.add (tb.addr + P.sizeof_Block) i = tb.addr + P.sizeof_Block + i :=
    P.add_eq (by omega)
  have h2a : GetOffsetOfTailGuard P tb.size = tb.size - P.HEAP_WATERMARK_SIZE :=
    P.sub_eq (by omega) (by omega)
  have h2b : P.add tb.addr (tb.size - P.HEAP_WATERMARK_SIZE) =
      tb.addr + (tb.size - P.HEAP_WATERMARK_SIZE) := P.add_eq (by omega)
  have h2c : P.add (tb.addr + (tb.size - P.HEAP_WATERMARK_SIZE)) i =
      tb.addr + (tb.size - P.HEAP_WATERMARK_SIZE) + i := P.add_eq (by omega)
  have := hchk i hi
  rw [h1a, h1b, h2a, h2b, h2c] at this ⊢
  rw [hbytes _ (Or.inl (by omega)), hbytes _ (Or.inr (by omega))]
  exact this

/-- A granted block holds its payload between its guards, and `Heap_Free` takes it back when
only payload bytes were written. -/
theorem alloc_free_roundtrip {P : Platform} (hP : P.Sane) {h : Heap} {lo hi : Nat}
    {ts : List Tile} (hI : Inv P h lo hi ts) {fuel n : Nat} {h1 : Heap} {p : Nat}
    (hnw : GetOffsetOfData P + n + P.HEAP_WATERMARK_SIZE < P.range)
    (hres : Heap_Alloc P fuel h n = .done (h1, p)) (hp : p ≠ 0) :
    ∃ b, p = b + GetOffsetOfData P ∧ P.HEAP_ALIGNMENT ∣ b ∧
      h1.calls = h.calls ++ [Hook.enter_critical_section, Hook.exit_critical_section] ∧
      b + P.sizeof_Block + P.HEAP_WATERMARK_SIZE ≤ p ∧
      p + n + P.HEAP_WATERMARK_SIZE ≤ b + (h1.blocks b).total_size ∧
      ∀ (bytes : Nat → Nat) (fuel' : Nat),
        (∀ a, a < p ∨ p + n ≤ a → bytes a = h1.bytes a) → ts.length < fuel' →
        ∃ h2, Heap_Free P fuel' { h1 with bytes := bytes } p = .done h2 ∧
          h2.calls = h1.calls ++ [Hook.enter_critical_section, Hook.exit_critical_section] ∧
          ∃ l q, FreeList h2 l ∧ q ∈ l ∧ q ≤ b ∧
            b + (h1.blocks b).total_size ≤ q + (h2.blocks q).total_size := by
  rcases hI.alloc_step hP hnw hres with ⟨h0, _⟩ | ⟨T1, tb, T2, hts, hfree, _, htsz, hpe, hh1, hI1⟩
  · exact absurd h0 hp
  · subst hts
    have hL := hI.layout
    obtain ⟨T, R, hcar, hT1, hT2⟩ := carved_shape hP hL htsz
    rw [hcar] at hI1
    have hL1 := hI1.layout
    have hsz := (hL1.tile_ok ⟨tb.addr, T, false⟩ (by simp)).2.2
    have hsz' : (h1.blocks tb.addr).total_size = T := hsz
    have ho := GetOffsetOfData_bounds P hP
    have hteq := GetTotalSize_eq P n hnw
    refine ⟨tb.addr, hpe, (hL.tile_ok tb (by simp)).1, by rw [hh1, granted_calls], by omega,
      by omega, ?_⟩
    intro bytes fuel' hbytes hfuel
    have hrb : (h.blocks ((h.head :: freeBlocks T1).getLast (List.cons_ne_nil _ _))).p_next =
        tb.addr := by
      have hfl := hL.free_list
      rw [FreeList, freeBlocks_append, freeBlocks_cons_free hfree, Path.append_cons_iff] at hfl
      exact Path.next_getLast hfl.1
    have hchk1 : CheckWatermarks P h1 tb.addr = true := by
      have := CheckWatermarks_granted P h
        ((h.head :: freeBlocks T1).getLast (List.cons_ne_nil _ _)) (GetTotalSize P n)
      rw [hrb, ← hh1] at this
      exact this
    have hI1' : Inv P { h1 with bytes := bytes } lo hi (T1 ++ ⟨tb.addr, T, false⟩ :: R) :=
      ⟨hL1.congr rfl rfl, hI1.no_adj⟩
    have hchk : CheckWatermarks P { h1 with bytes := bytes } tb.addr = true :=
      @guards_intact P hP h1 _ lo hi _ hL1 ⟨tb.addr, T, false⟩ (by simp) n
        (by show _ ≤ T; omega)
        hchk1 rfl (by rw [← hpe]; exact hbytes)
    have hstep := (hI1'.free_step hP (show (Tile.mk tb.addr T false).free = false from rfl) fuel').2 hchk
    have hlen : (freeBlocks T1).length < fuel' := by
      have := freeBlocks_length_le T1
      simp only [List.length_append, List.length_cons] at hfuel
      omega
    obtain ⟨h2, hfree2⟩ := hstep.1 hlen
    obtain ⟨_, _, hcalls, hI2⟩ := hstep.2 h2 hfree2
    rw [hpe]
    refine ⟨h2, hfree2, hcalls, ?_⟩
    obtain ⟨q, hq, hqf, hq1, hq2⟩ := released_covers hL1.tiled
    refine ⟨_, q.addr, hI2.layout.free_list, mem_freeBlocks.2 ⟨q, hq, hqf, rfl⟩, hq1, ?_⟩
    rw [(hI2.layout.tile_ok q hq).2.2, hsz']
    exact hq2

/-- C7, no false corruption report: in a state that satisfies the invariant of the allocator, let
`Heap_Alloc(size)` return a pointer `p` other than NULL for a `size` whose `GetTotalSize` does not
wrap.  Then `p` is the data pointer of a block `b`; the header and the head guard
`[b + sizeof(struct Block), + HEAP_WATERMARK_SIZE)` end at or before `p`, and the payload
`[p, p + size)` ends at or before the tail guard
`[b + total_size - HEAP_WATERMARK_SIZE, b + total_size)`.  Hence, whatever bytes are written
to the payload, `Heap_Free(p)` returns (given fuel for the free list), calls
`enter_critical_section` and `exit_critical_section` and no error hook, and afterwards a block of
the free list covers the block `b`. -/
theorem Heap_Free_after_payload_writes (P : Platform) (hP : P.Sane) (h : Heap) (lo hi : Nat)
    (ts : List Tile) (hI : Inv P h lo hi ts) (fuel n : Nat) (h1 : Heap) (p : Nat)
    (hnw : GetOffsetOfData P + n + P.HEAP_WATERMARK_SIZE < P.range)
    (hres : Heap_Alloc P fuel h n = .done (h1, p)) (hp : p ≠ 0) :
    ∃ b, p = b + GetOffsetOfData P ∧
      b + P.sizeof_Block + P.HEAP_WATERMARK_SIZE ≤ p ∧
      p + n + P.HEAP_WATERMARK_SIZE ≤ b + (h1.blocks b).total_size ∧
      ∀ (bytes : Nat → Nat) (fuel' : Nat),
        (∀ a, a < p ∨ p + n ≤ a → bytes a = h1.bytes a) → ts.length < fuel' →
        ∃ h2, Heap_Free P fuel' { h1 with bytes := bytes } p = .done h2 ∧
          h2.calls = h1.calls ++ [Hook.enter_critical_section, Hook.exit_critical_section] ∧
          ∃ l q, FreeList h2 l ∧ q ∈ l ∧ q ≤ b ∧
            b + (h1.blocks b).total_size ≤ q + (h2.blocks q).total_size := by
  obtain ⟨b, h1', _, _, h2', h3', h4'⟩ := alloc_free_roundtrip hP hI hnw hres hp
  exact ⟨b, h1', h2', h3', h4'⟩

/-- C10, zero-size allocation: after `Heap_Init` accepted a region, the first call
`Heap_Alloc(0)` returns (given fuel 2) a pointer that is not NULL and is a multiple of
`HEAP_ALIGNMENT`, after calling only `enter_critical_section` and `exit_critical_section`; the
following `Heap_Free` of this pointer returns and calls only these two hooks as well. -/
theorem Heap_Alloc_zero (P : Platform) (hP : P.Sane) (h0 h : Heap) (c : HeapConfig)
    (p_data size fuel : Nat) (hR : Region P h0.head p_data size)
    (hinit : Heap_Init P h0 (some c) p_data size = .done h) (hfuel : 2 ≤ fuel) :
    ∃ h1 p h2, Heap_Alloc P fuel h 0 = .done (h1, p) ∧ p ≠ 0 ∧ P.HEAP_ALIGNMENT ∣ p ∧
      h1.calls = h.calls ++ [Hook.enter_critical_section, Hook.exit_critical_section] ∧
      Heap_Free P fuel h1 p = .done h2 ∧
      h2.calls = h1.calls ++ [Hook.enter_critical_section, Hook.exit_critical_section] := by
  obtain ⟨_, _, _, _, hI⟩ := Inv.init hP hR hinit
  have hL := hI.layout
  have hnw : GetOffsetOfData P + 0 + P.HEAP_WATERMARK_SIZE < P.range := by
    have := GetOffsetOfData_bounds P hP
    have := hP.small
    have := hP.align_pos
    omega
  obtain ⟨h1, p, hres⟩ := @Heap_Alloc_returns P h _ fuel 0 hL.free_list hL.head_ne
    (by simp [freeBlocks]; omega)
  have hp : p ≠ 0 := by
    rcases hI.alloc_step hP hnw hres with ⟨_, _, _, hall⟩ | ⟨T1, tb, T2, hts, _, _, _, hpe, _, _⟩
    · have h1 := hall _ (List.mem_singleton.2 rfl) rfl
      have h2 := (hL.tile_ok _ (List.mem_singleton.2 rfl)).2.1
      omega
    · rw [hpe]
      exact (hL.data_pointer hP (show tb ∈ _ by rw [hts]; simp)).2.2
  obtain ⟨b, hpb, hba, hcalls, _, _, hfree⟩ := alloc_free_roundtrip hP hI hnw hres hp
  obtain ⟨h2, hf, hc2, _⟩ := hfree h1.bytes fuel (fun _ _ => rfl) (by simp; omega)
  refine ⟨h1, p, h2, hres, hp, ?_, hcalls, hf, hc2⟩
  rw [hpb]
  exact Nat.dvd_add hba (GetOffsetOfData_dvd P hP)

/-! ## The blocks in use -/

theorem carved_used {P : Platform} (T1 : List Tile) (tb : Tile) (T2 : List Tile) (t : Nat)
    (hfree : tb.free = true) (s : Tile) :
    (s ∈ carved P T1 tb T2 t ∧ s.free = false) ↔
      (s.addr = tb.addr ∧ s ∈ carved P T1 tb T2 t ∧ s.free = false) ∨
      (s ∈ T1 ++ tb :: T2 ∧ s.free = false) := by
  unfold carved
  split
  · simp only [List.mem_append, List.mem_cons]
    constructor
    · rintro ⟨h1 | h1 | h1 | h1, h2⟩
      · exact Or.inr ⟨Or.inl h1, h2⟩
      · subst h1; exact Or.inl ⟨rfl, Or.inr (Or.inl rfl), rfl⟩
      · subst h1; cases h2
      · exact Or.inr ⟨Or.inr (Or.inr h1), h2⟩
    · rintro (⟨_, h1, h2⟩ | ⟨h1 | h1 | h1, h2⟩)
      · exact ⟨h1, h2⟩
      · exact ⟨Or.inl h1, h2⟩
      · subst h1; rw [hfree] at h2; cases h2
      · exact ⟨Or.inr (Or.inr (Or.inr h1)), h2⟩
  · simp only [List.mem_append, List.mem_cons]
    constructor
    · rintro ⟨h1 | h1 | h1, h2⟩
      · exact Or.inr ⟨Or.inl h1, h2⟩
      · subst h1; exact Or.inl ⟨rfl, Or.inr (Or.inl rfl), rfl⟩
      · exact Or.inr ⟨Or.inr (Or.inr h1), h2⟩
    · rintro (⟨_, h1, h2⟩ | ⟨h1 | h1 | h1, h2⟩)
      · exact ⟨h1, h2⟩
      · exact ⟨Or.inl h1, h2⟩
      · subst h1; rw [hfree] at h2; cases h2
      · exact ⟨Or.inr (Or.inr h1), h2⟩

theorem mergeRight_used (tb : Tile) (T2 : List Tile) (s : Tile) :
    (s ∈ mergeRight tb T2 ∧ s.free = false) ↔ (s ∈ T2 ∧ s.free = false) := by
  rcases mergeRight_cases tb T2 with ⟨e, h⟩ | ⟨n, T2', e, hn, h⟩ | ⟨n, T2', e, hn, h⟩
  · subst e; rw [h]
    simp only [List.mem_singleton, List.not_mem_nil, false_and, iff_false, not_and]
    intro e; subst e; simp
  · subst e; rw [h]
    simp only [List.mem_cons]
    constructor
    · rintro ⟨h1 | h1, h2⟩
      · subst h1; cases h2
      · exact ⟨Or.inr h1, h2⟩
    · rintro ⟨h1 | h1, h2⟩
      · subst h1; rw [hn] at h2; cases h2
      · exact ⟨Or.inr h1, h2⟩
  · subst e; rw [h]
    simp only [List.mem_cons]
    constructor
    · rintro ⟨h1 | h1, h2⟩
      · subst h1; cases h2
      · exact ⟨h1, h2⟩
    · rintro ⟨h1, h2⟩
      exact ⟨Or.inr h1, h2⟩

theorem released_used (T1 : List Tile) (tb : Tile) (T2 : List Tile) (s : Tile) :
    (s ∈ released T1 tb T2 ∧ s.free = false) ↔ (s ∈ T1 ++ T2 ∧ s.free = false) := by
  obtain ⟨x, X, hmr, hxf, _, _, hc⟩ := released_cases T1 tb T2
  have hX : (s ∈ X ∧ s.free = false) ↔ (s ∈ T2 ∧ s.free = false) := by
    rw [← mergeRight_used tb T2 s, hmr]
    simp only [List.mem_cons]
    constructor
    · rintro ⟨h1, h2⟩; exact ⟨Or.inr h1, h2⟩
    · rintro ⟨h1 | h1, h2⟩
      · subst h1; rw [hxf] at h2; cases h2
      · exact ⟨h1, h2⟩
  rcases hc with ⟨_, e⟩ | ⟨U, q, e1, hq, e⟩
  · rw [e]
    simp only [List.mem_append, List.mem_cons]
    constructor
    · rintro ⟨h1 | h1 | h1, h2⟩
      · exact ⟨Or.inl h1, h2⟩
      · subst h1; rw [hxf] at h2; cases h2
      · exact ⟨Or.inr (hX.1 ⟨h1, h2⟩).1, h2⟩
    · rintro ⟨h1 | h1, h2⟩
      · exact ⟨Or.inl h1, h2⟩
      · exact ⟨Or.inr (Or.inr (hX.2 ⟨h1, h2⟩).1), h2⟩
  · subst e1
    rw [e]
    simp only [List.mem_append, List.mem_cons, List.mem_singleton, List.not_mem_nil, or_false]
    constructor
    · rintro ⟨h1 | h1 | h1, h2⟩
      · exact ⟨Or.inl (Or.inl h1), h2⟩
      · subst h1; cases h2
      · exact ⟨Or.inr (hX.1 ⟨h1, h2⟩).1, h2⟩
    · rintro ⟨(h1 | h1) | h1, h2⟩
      · exact ⟨Or.inl h1, h2⟩
      · subst h1; rw [hq] at h2; cases h2
      · exact ⟨Or.inr (Or.inr (hX.2 ⟨h1, h2⟩).1), h2⟩

/-! ## The invariant along a run -/

theorem Outstanding.after_alloc {P : Platform} (hP : P.Sane) {h : Heap} {lo hi : Nat}
    {T1 : List Tile} {tb : Tile} {T2 : List Tile} (hL : Layout P h lo hi (T1 ++ tb :: T2))
    (hfree : tb.free = true) {t : Nat} (ht : t ≤ tb.size) {out leaked : List Nat}
    (ho : Outstanding P (T1 ++ tb :: T2) out leaked) :
    Outstanding P (carved P T1 tb T2 t) ((tb.addr + GetOffsetOfData P) :: out) leaked := by
  obtain ⟨hnd, hmem⟩ := ho
  obtain ⟨T, R, hcar, _, _⟩ := carved_shape hP hL ht
  have hnew : tb.addr + GetOffsetOfData P ∉ out ++ leaked := by
    intro hm
    obtain ⟨s, hs, hsf, hse⟩ := (hmem _).1 hm
    have : s = tb := Tiled.addr_inj (hL.pos hP) hL.tiled s hs tb (by simp) (by omega)
    rw [this, hfree] at hsf; cases hsf
  refine ⟨List.nodup_cons.2 ⟨hnew, hnd⟩, ?_⟩
  intro p
  rw [List.cons_append, List.mem_cons, hmem]
  constructor
  · rintro (e | ⟨s, hs, hsf, hse⟩)
    · exact ⟨⟨tb.addr, T, false⟩, by rw [hcar]; simp, rfl, e⟩
    · exact ⟨s, ((carved_used T1 tb T2 t hfree s).2 (Or.inr ⟨hs, hsf⟩)).1, hsf, hse⟩
  · rintro ⟨s, hs, hsf, hse⟩
    rcases (carved_used T1 tb T2 t hfree s).1 ⟨hs, hsf⟩ with ⟨h1, _, _⟩ | ⟨h1, h2⟩
    · exact Or.inl (by rw [hse, h1])
    · exact Or.inr ⟨s, h1, h2, hse⟩

theorem Outstanding.pick {P : Platform} {ts : List Tile} {out leaked : List Nat}
    (ho : Outstanding P ts out leaked) {p : Nat} (hp : p ∈ out) :
    ∃ T1 tb T2, ts = T1 ++ tb :: T2 ∧ tb.free = false ∧ p = tb.addr + GetOffsetOfData P := by
  obtain ⟨s, hs, hsf, hse⟩ := (ho.2 p).1 (List.mem_append_left _ hp)
  obtain ⟨T1, T2, e⟩ := List.append_of_mem hs
  exact ⟨T1, s, T2, e, hsf, hse⟩

theorem Outstanding.leak {P : Platform} {ts : List Tile} {out leaked : List Nat}
    (ho : Outstanding P ts out leaked) {p : Nat} (hp : p ∈ out) :
    Outstanding P ts (out.erase p) (p :: leaked) := by
  obtain ⟨hnd, hmem⟩ := ho
  have hperm : (out.erase p ++ p :: leaked).Perm (out ++ leaked) := by
    refine (List.perm_middle).trans ?_
    rw [← List.cons_append]
    exact (List.perm_cons_erase hp).symm.append_right _
  exact ⟨hperm.nodup_iff.2 hnd, fun q => by rw [hperm.mem_iff]; exact hmem q⟩

theorem Outstanding.after_free {P : Platform} (hP : P.Sane) {h : Heap} {lo hi : Nat}
    {T1 : List Tile} {tb : Tile} {T2 : List Tile} (hL : Layout P h lo hi (T1 ++ tb :: T2))
    (hused : tb.free = false) {out leaked : List Nat}
    (ho : Outstanding P (T1 ++ tb :: T2) out leaked)
    (hp : tb.addr + GetOffsetOfData P ∈ out) :
    Outstanding P (released T1 tb T2) (out.erase (tb.addr + GetOffsetOfData P)) leaked := by
  obtain ⟨hnd, hmem⟩ := ho
  have hA := hL.around hP
  have htb := (hL.tile_ok tb (by simp)).2.1
  have hmp := hA.min_pos
  have hsub : (out.erase (tb.addr + GetOffsetOfData P) ++ leaked).Sublist (out ++ leaked) :=
    (List.erase_sublist _ _).append_right _
  refine ⟨hnd.sublist hsub, ?_⟩
  intro p
  have hn := List.nodup_append.1 hnd
  have hkey : p ∈ out.erase (tb.addr + GetOffsetOfData P) ++ leaked ↔
      p ≠ tb.addr + GetOffsetOfData P ∧ p ∈ out ++ leaked := by
    rw [List.mem_append, List.mem_append, hn.1.mem_erase_iff]
    constructor
    · rintro (⟨h1, h2⟩ | h1)
      · exact ⟨h1, Or.inl h2⟩
      · refine ⟨?_, Or.inr h1⟩
        intro e
        subst e
        exact hn.2.2 hp h1
    · rintro ⟨h1, h2 | h2⟩
      · exact Or.inl ⟨h1, h2⟩
      · exact Or.inr h2
  rw [hkey, hmem]
  constructor
  · rintro ⟨hne, s, hs, hsf, hse⟩
    refine ⟨s, ((released_used T1 tb T2 s).2 ⟨?_, hsf⟩).1, hsf, hse⟩
    rcases List.mem_append.1 hs with h1 | h1
    · exact List.mem_append_left _ h1
    · rcases List.mem_cons.1 h1 with h1 | h1
      · subst h1; exact absurd hse hne
      · exact List.mem_append_right _ h1
  · rintro ⟨s, hs, hsf, hse⟩
    have hs' := ((released_used T1 tb T2 s).1 ⟨hs, hsf⟩).1
    rcases List.mem_append.1 hs' with h1 | h1
    · have := hA.before s h1
      exact ⟨by omega, s, by simp [h1], hsf, hse⟩
    · have := hA.after s h1
      exact ⟨by omega, s, by simp [h1], hsf, hse⟩

/-- The state a run ends in satisfies the invariant, over the aligned part of the region, and the
pointers handed out are those of the blocks in use. -/
theorem Run.inv {P : Platform} (hP : P.Sane) {p_data size : Nat} {h : Heap}
    {out leaked : List Nat} (hr : Run P p_data size h out leaked) :
    ∃ ts, Inv P h (p_data + GetPaddingSizeFromPointer P p_data) (p_data + size) ts ∧
      Outstanding P ts out leaked := by
  induction hr with
  | init h0 h c hR hi =>
    obtain ⟨_, _, _, _, hI⟩ := Inv.init hP hR hi
    refine ⟨_, hI, List.nodup_nil, ?_⟩
    intro p
    simp
  | alloc h h' out leaked fuel n p _ hnw hres ih =>
    obtain ⟨ts, hI, ho⟩ := ih
    rcases hI.alloc_step hP hnw hres with ⟨hp0, _, hI', _⟩ |
      ⟨T1, tb, T2, hts, hfree, _, htsz, hpe, _, hI'⟩
    · exact ⟨ts, hI', by rw [if_pos hp0]; exact ho⟩
    · subst hts
      have hp0 : p ≠ 0 := by
        rw [hpe]; exact (hI.layout.data_pointer hP (show tb ∈ _ by simp)).2.2
      refine ⟨_, hI', ?_⟩
      rw [if_neg hp0, hpe]
      exact ho.after_alloc hP hI.layout hfree htsz
  | free h h' out leaked fuel p _ hp hres ih =>
    obtain ⟨ts, hI, ho⟩ := ih
    obtain ⟨T1, tb, T2, hts, hused, hpe⟩ := ho.pick hp
    subst hts
    subst hpe
    have hsub := (hI.layout.free_checks hP (show tb ∈ _ by simp) hused).2.1
    have hstep := hI.free_step hP hused fuel
    rw [hsub]
    cases hchk : CheckWatermarks P h tb.addr with
    | false =>
      rw [hstep.1 hchk] at hres
      cases hres
      refine ⟨_, ⟨hI.layout.congr rfl rfl, hI.no_adj⟩, ?_⟩
      simpa using ho.leak hp
    | true =>
      obtain ⟨_, _, _, hI'⟩ := (hstep.2 hchk).2 h' hres
      refine ⟨_, hI', ?_⟩
      simpa using ho.after_free hP hI.layout hused hp
  | store h out leaked p a v _ _ _ _ ih =>
    obtain ⟨ts, hI, ho⟩ := ih
    exact ⟨ts, ⟨hI.layout.congr rfl rfl, hI.no_adj⟩, ho⟩

theorem Run.accepted {P : Platform} (hP : P.Sane) {p_data size : Nat} {h : Heap}
    {out leaked : List Nat} (hr : Run P p_data size h out leaked) :
    GetPaddingSizeFromPointer P p_data ≤ size ∧
    GetTotalSize P 0 ≤ size - GetPaddingSizeFromPointer P p_data := by
  induction hr with
  | init h0 h c hR hi =>
    obtain ⟨h1, _, _, _, hI⟩ := Inv.init hP hR hi
    exact ⟨h1, (hI.layout.tile_ok _ (List.mem_singleton.2 rfl)).2.1⟩
  | alloc _ _ _ _ _ _ _ _ _ _ ih => exact ih
  | free _ _ _ _ _ _ _ _ _ ih => exact ih
  | store _ _ _ _ _ _ _ _ _ _ ih => exact ih

theorem all_free_short : ∀ ts : List Tile, (∀ t ∈ ts, t.free = true) → NoAdjacentFree ts →
    ts = [] ∨ ∃ t, ts = [t]
  | [], _, _ => Or.inl rfl
  | [t], _, _ => Or.inr ⟨t, rfl⟩
  | s :: t :: ts, hall, hna => by
    have := (noAdjacentFree_split [] s (t :: ts)).1 hna
    have h1 := this.2.2.2 t (by simp)
    exact absurd ⟨hall s (by simp), hall t (by simp)⟩ h1

/-- Full reclamation for requests that do not wrap: when a run has freed every pointer it got,
each with its guards intact, the free list is the one `Heap_Init` left, a single block at the
aligned start of the region with `total_size = size - padding` and no successor; and then
`Heap_Alloc(n)` returns a pointer other than NULL for every `n` with
`GetTotalSize(n) <= size - padding`. -/
theorem full_reclamation {P : Platform} (hP : P.Sane) {p_data size : Nat} {h : Heap}
    (hr : Run P p_data size h [] []) :
    FreeList h [p_data + GetPaddingSizeFromPointer P p_data] ∧
    h.blocks h.head = ⟨p_data + GetPaddingSizeFromPointer P p_data, 0⟩ ∧
    h.blocks (p_data + GetPaddingSizeFromPointer P p_data) =
      ⟨0, size - GetPaddingSizeFromPointer P p_data⟩ ∧
    ∀ n fuel, GetTotalSize P n ≤ size - GetPaddingSizeFromPointer P p_data → 2 ≤ fuel →
      ∃ h' p, Heap_Alloc P fuel h n = .done (h', p) ∧ p ≠ 0 := by
  obtain ⟨ts, hI, ho⟩ := Run.inv hP hr
  obtain ⟨hpad, hmin⟩ := Run.accepted hP hr
  have hmp := GetTotalSize_zero_pos P hP
  have hL := hI.layout
  have hall : ∀ t ∈ ts, t.free = true := by
    intro t ht
    by_contra hf
    have := (ho.2 (t.addr + GetOffsetOfData P)).2 ⟨t, ht, by simpa using hf, rfl⟩
    simp at this
  have hts : ∃ t, ts = [t] := by
    rcases all_free_short ts hall hI.no_adj with e | e
    · subst e
      have := hL.tiled
      simp only [Tiled] at this
      omega
    · exact e
  obtain ⟨t, hts⟩ := hts
  subst hts
  have htl := hL.tiled
  simp only [Tiled] at htl
  obtain ⟨hta, hte⟩ := htl
  have htf := hall t (by simp)
  have hok := hL.tile_ok t (by simp)
  have hfl := hL.free_list
  rw [freeBlocks_cons_free htf] at hfl
  have hfl' : FreeList h [t.addr] := hfl
  simp only [FreeList, Path] at hfl
  have hsz : t.size = size - GetPaddingSizeFromPointer P p_data := by omega
  rw [hta] at hfl' hfl hok
  refine ⟨hfl', ?_, ?_, ?_⟩
  · rw [Block.ext_iff']; exact ⟨hfl.1, hL.head_size⟩
  · rw [Block.ext_iff']; exact ⟨hfl.2.2, by rw [hok.2.2, hsz]⟩
  · intro n fuel hn hfuel
    obtain ⟨h', p, hres⟩ := @Heap_Alloc_returns P h _ fuel n hfl' hL.head_ne (by simpa using hfuel)
    refine ⟨h', p, hres, ?_⟩
    rcases Heap_Alloc_cases hfl' hL.head_ne hres with ⟨hsmall, _, _⟩ |
      ⟨l1, b, l2, hsplit, _, _, _, hpe, _⟩
    · have := hsmall _ (List.mem_singleton.2 rfl)
      rw [hok.2.2] at this
      omega
    · have hb : b = p_data + GetPaddingSizeFromPointer P p_data := by
        have : b ∈ [p_data + GetPaddingSizeFromPointer P p_data] := by rw [hsplit]; simp
        simpa using this
      have := hL.data_pointer hP (show t ∈ _ by simp)
      rw [hta] at this
      rw [hpe, hb, this.1]
      exact this.2.2

/-! ## The hook calls of one operation -/

theorem TryToMergeWithNextBlock_calls {P : Platform} {h h' : Heap} {x : Nat}
    (hm : TryToMergeWithNextBlock P h x = .done h') : h'.calls = h.calls := by
  unfold TryToMergeWithNextBlock at hm
  simp only at hm
  split at hm
  · split at hm
    · exact absurd hm (by simp)
    · cases hm; simp
  · cases hm; rfl

theorem Heap_Alloc_calls {P : Platform} {fuel : Nat} {h : Heap} {size : Nat} {h' : Heap}
    {p : Nat} (hres : Heap_Alloc P fuel h size = .done (h', p)) :
    h'.calls = h.calls ++ [Hook.enter_critical_section, Hook.exit_critical_section] ∨
    (p = 0 ∧ h'.calls = h.calls ++
      [Hook.enter_critical_section, Hook.exit_critical_section, Hook.alloc_failed_hook]) := by
  unfold Heap_Alloc at hres
  simp only at hres
  split at hres
  · exact absurd hres (by simp)
  · exact absurd hres (by simp)
  · rename_i r hf
    split at hres
    · split at hres
      · exact absurd hres (by simp)
      · rename_i hne
        simp only [Outcome.done.injEq, Prod.mk.injEq] at hres
        obtain ⟨e1, e2⟩ := hres
        left
        rw [← e1, ← granted_calls P h r (GetTotalSize P size)]
        rfl
    · simp only [Outcome.done.injEq, Prod.mk.injEq] at hres
      obtain ⟨e1, e2⟩ := hres
      subst e1
      exact Or.inr ⟨e2.symm, by simp⟩

theorem Heap_Free_calls {P : Platform} {fuel : Nat} {h : Heap} {p : Nat} {h' : Heap}
    (hres : Heap_Free P fuel h p = .done h') :
    h'.calls = h.calls ∨ h'.calls = h.calls ++ [Hook.invalid_pointer_hook] ∨
    h'.calls = h.calls ++ [Hook.corrupted_data_hook] ∨
    h'.calls = h.calls ++ [Hook.enter_critical_section, Hook.exit_critical_section] ∨
    h'.calls = h.calls ++ [Hook.enter_critical_section, Hook.exit_critical_section,
      Hook.invalid_pointer_hook] := by
  unfold Heap_Free at hres
  simp only at hres
  split at hres
  · cases hres; exact Or.inl rfl
  split at hres
  · cases hres; exact Or.inr (Or.inl rfl)
  split at hres
  · cases hres; exact Or.inr (Or.inl rfl)
  split at hres
  · cases hres; exact Or.inr (Or.inr (Or.inl rfl))
  split at hres
  · exact absurd hres (by simp)
  · exact absurd hres (by simp)
  · split at hres
    · split at hres
      · exact absurd hres (by simp)
      · exact absurd hres (by simp)
      · rename_i h1 hm1
        split at hres
        · exact absurd hres (by simp)
        · exact absurd hres (by simp)
        · rename_i h2 hm2
          cases hres
          have e1 := TryToMergeWithNextBlock_calls hm1
          have e2 := TryToMergeWithNextBlock_calls hm2
          simp only [setNext_calls, call_calls] at e1
          right; right; right; left
          simp [e2, e1]
    · cases hres
      right; right; right; right
      simp

/-- C11: `Heap_Free(NULL)` returns at once, in every state: the state it leaves is the state it
was called in, so no hook was called and no block, link or byte has changed. -/
theorem Heap_Free_NULL (P : Platform) (fuel : Nat) (h : Heap) :
    Heap_Free P fuel h 0 = .done h := by
  simp [Heap_Free]

/-- A pointer other than NULL that one of the three checks of `Heap_Free` rejects: the call
returns after one error hook. -/
theorem Heap_Free_rejected {P : Platform} {h : Heap} {p_data : Nat} (fuel : Nat)
    (hp0 : p_data ≠ 0)
    (hrej : GetPaddingSizeFromPointer P (P.sub p_data (GetOffsetOfData P)) ≠ 0 ∨
      (h.blocks (P.sub p_data (GetOffsetOfData P))).p_next ≠ 0 ∨
      CheckWatermarks P h (P.sub p_data (GetOffsetOfData P)) = false) :
    Heap_Free P fuel h p_data = .done (h.call .invalid_pointer_hook) ∨
    Heap_Free P fuel h p_data = .done (h.call .corrupted_data_hook) := by
  unfold Heap_Free
  simp only [hp0, if_false]
  by_cases h1 : GetPaddingSizeFromPointer P (P.sub p_data (GetOffsetOfData P)) ≠ 0
  · simp [h1]
  · by_cases h2 : (h.blocks (P.sub p_data (GetOffsetOfData P))).p_next ≠ 0
    · simp [h1, h2]
    · have h3 : CheckWatermarks P h (P.sub p_data (GetOffsetOfData P)) = false := by
        rcases hrej with e | e | e
        · exact absurd e h1
        · exact absurd e h2
        · exact e
      right
      simp only [ne_eq, not_not] at h1 h2
      simp [h1, h2, h3]

/-- C19, over the hook calls of one operation.  In every state, a `Heap_Alloc` call that returns
has called `enter_critical_section` once, then `exit_critical_section` once, and after that at
most `alloc_failed_hook`; a `Heap_Free` call that returns has either called neither of the two
(and at most one error hook), or has called `enter_critical_section` once, then
`exit_critical_section` once, and after that at most `invalid_pointer_hook`: no error hook is
called between the two.  And the calls do return: on a free list that ends with NULL, with fuel
for the list walk, `Heap_Alloc` returns for every size; in a state that satisfies the invariant
of the allocator `Heap_Free` returns for NULL, for every pointer that one of its three checks
rejects, and for the data pointer of every block in use. -/
theorem critical_section_discipline (P : Platform) (hP : P.Sane) :
    (∀ h fuel size h' p, Heap_Alloc P fuel h size = .done (h', p) →
      h'.calls = h.calls ++ [Hook.enter_critical_section, Hook.exit_critical_section] ∨
      h'.calls = h.calls ++ [Hook.enter_critical_section, Hook.exit_critical_section,
        Hook.alloc_failed_hook]) ∧
    (∀ h fuel p_data h', Heap_Free P fuel h p_data = .done h' →
      (h'.calls = h.calls ∨ h'.calls = h.calls ++ [Hook.invalid_pointer_hook] ∨
        h'.calls = h.calls ++ [Hook.corrupted_data_hook]) ∨
      h'.calls = h.calls ++ [Hook.enter_critical_section, Hook.exit_critical_section] ∨
      h'.calls = h.calls ++ [Hook.enter_critical_section, Hook.exit_critical_section,
        Hook.invalid_pointer_hook]) ∧
    (∀ h l fuel, FreeList h l → h.head ≠ 0 → l.length < fuel →
      ∀ size, ∃ h' p, Heap_Alloc P fuel h size = .done (h', p) ∧
        (h'.calls = h.calls ++ [Hook.enter_critical_section, Hook.exit_critical_section] ∨
          h'.calls = h.calls ++ [Hook.enter_critical_section, Hook.exit_critical_section,
            Hook.alloc_failed_hook])) ∧
    (∀ h lo hi ts fuel, Inv P h lo hi ts → ts.length < fuel →
      ∀ p_data,
        (p_data = 0 ∨ GetPaddingSizeFromPointer P (P.sub p_data (GetOffsetOfData P)) ≠ 0 ∨
          (h.blocks (P.sub p_data (GetOffsetOfData P))).p_next ≠ 0 ∨
          CheckWatermarks P h (P.sub p_data (GetOffsetOfData P)) = false ∨
          ∃ t ∈ ts, t.free = false ∧ p_data = t.addr + GetOffsetOfData P) →
        ∃ h', Heap_Free P fuel h p_data = .done h' ∧
          ((h'.calls = h.calls ∨ h'.calls = h.calls ++ [Hook.invalid_pointer_hook] ∨
            h'.calls = h.calls ++ [Hook.corrupted_data_hook]) ∨
          h'.calls = h.calls ++
            [Hook.enter_critical_section, Hook.exit_critical_section])) := by
  refine ⟨fun h fuel size h' p hres => ?_, fun h fuel p_data h' hres => ?_,
    fun h l fuel hl hhead hfuel size => ?_, fun h lo hi ts fuel hI hfuel p_data hp => ?_⟩
  · rcases Heap_Alloc_calls hres with e | ⟨_, e⟩
    · exact Or.inl e
    · exact Or.inr e
  · rcases Heap_Free_calls hres with e | e | e | e | e
    · exact Or.inl (Or.inl e)
    · exact Or.inl (Or.inr (Or.inl e))
    · exact Or.inl (Or.inr (Or.inr e))
    · exact Or.inr (Or.inl e)
    · exact Or.inr (Or.inr e)
  · obtain ⟨h', p, hres⟩ := @Heap_Alloc_returns P h l fuel size hl hhead hfuel
    refine ⟨h', p, hres, ?_⟩
    rcases Heap_Alloc_calls hres with e | ⟨_, e⟩
    · exact Or.inl e
    · exact Or.inr e
  · have hL := hI.layout
    by_cases hp0 : p_data = 0
    · exact ⟨h, by rw [hp0]; simp [Heap_Free], Or.inl (Or.inl rfl)⟩
    · by_cases hrej : GetPaddingSizeFromPointer P (P.sub p_data (GetOffsetOfData P)) ≠ 0 ∨
          (h.blocks (P.sub p_data (GetOffsetOfData P))).p_next ≠ 0 ∨
          CheckWatermarks P h (P.sub p_data (GetOffsetOfData P)) = false
      · rcases Heap_Free_rejected fuel hp0 hrej with e | e
        · exact ⟨_, e, Or.inl (Or.inr (Or.inl rfl))⟩
        · exact ⟨_, e, Or.inl (Or.inr (Or.inr rfl))⟩
      · have htile : ∃ t ∈ ts, t.free = false ∧ p_data = t.addr + GetOffsetOfData P := by
          rcases hp with e | e | e | e | e
          · exact absurd e hp0
          · exact absurd (Or.inl e) hrej
          · exact absurd (Or.inr (Or.inl e)) hrej
          · exact absurd (Or.inr (Or.inr e)) hrej
          · exact e
        obtain ⟨t, ht, hused, hpe⟩ := htile
        obtain ⟨T1, T2, hts⟩ := List.append_of_mem ht
        subst hts
        have hc := hL.free_checks hP ht hused
        have hwm : CheckWatermarks P h t.addr = true := by
          have : ¬ CheckWatermarks P h (P.sub p_data (GetOffsetOfData P)) = false :=
            fun e => hrej (Or.inr (Or.inr e))
          rw [hpe, hc.2.1] at this
          simpa using this
        have hstep := (hI.free_step hP hused fuel).2 hwm
        have hl1 : (freeBlocks T1).length < fuel := by
          have := freeBlocks_length_le T1
          simp only [List.length_append, List.length_cons] at hfuel
          omega
        obtain ⟨h', hres⟩ := hstep.1 hl1
        obtain ⟨_, _, hcalls, _⟩ := hstep.2 h' hres
        rw [hpe]
        exact ⟨h', hres, Or.inr hcalls⟩

/-! ## The insertion point of `Heap_Free` -/

theorem preceding_loop_first {h : Heap} {b : Nat} : ∀ {l : List Nat} {p : Nat},
    Path h p l 0 → ∃ l1 l2, l = l1 ++ l2 ∧ (∀ x ∈ l1, x < b) ∧ (∀ y ∈ l2.head?, b ≤ y) ∧
    (∀ fuel, l1.length < fuel → FindPrecendingBlock_loop h b fuel p =
      .done ((p :: l1).getLast (List.cons_ne_nil _ _)))
  | [], p, hp => by
    refine ⟨[], [], rfl, by simp, by simp, ?_⟩
    intro fuel hf
    obtain ⟨k, rfl⟩ : ∃ k, fuel = k + 1 := ⟨fuel - 1, by simp at hf; omega⟩
    simp only [Path] at hp
    simp [FindPrecendingBlock_loop, hp]
  | c :: l, p, hp => by
    simp only [Path] at hp
    by_cases hc : b ≤ c
    · refine ⟨[], c :: l, rfl, by simp, by simpa using hc, ?_⟩
      intro fuel hf
      obtain ⟨k, rfl⟩ : ∃ k, fuel = k + 1 := ⟨fuel - 1, by simp at hf; omega⟩
      simp [FindPrecendingBlock_loop, hp.1, hp.2.1, hc]
    · obtain ⟨l1, l2, e, h1, h2, h3⟩ := @preceding_loop_first h b l c hp.2.2
      refine ⟨c :: l1, l2, by rw [e]; rfl, ?_, h2, ?_⟩
      · intro x hx
        rcases List.mem_cons.1 hx with rfl | hx
        · omega
        · exact h1 x hx
      · intro fuel hf
        obtain ⟨k, rfl⟩ : ∃ k, fuel = k + 1 := ⟨fuel - 1, by simp at hf; omega⟩
        rw [List.getLast_cons (List.cons_ne_nil c l1)]
        rw [← h3 k (by simp at hf; omega)]
        simp [FindPrecendingBlock_loop, hp.1, hp.2.1, hc]

theorem spliced_calls {P : Platform} {h : Heap} {r b : Nat} {h' : Heap}
    (hres : spliced P h r b = .done h') :
    h'.calls = h.calls ++ [Hook.exit_critical_section] := by
  unfold spliced at hres
  simp only at hres
  split at hres
  · exact absurd hres (by simp)
  · exact absurd hres (by simp)
  · rename_i h1 hm1
    split at hres
    · exact absurd hres (by simp)
    · exact absurd hres (by simp)
    · rename_i h2 hm2
      cases hres
      have e1 := TryToMergeWithNextBlock_calls hm1
      have e2 := TryToMergeWithNextBlock_calls hm2
      simp only [setNext_calls] at e1
      simp [e2, e1]

/-- The walk of `FindPrecendingBlock` returns its iterator, which is never NULL. -/
theorem preceding_loop_ne_zero {h : Heap} {b : Nat} : ∀ (fuel : Nat) {p r : Nat}, p ≠ 0 →
    FindPrecendingBlock_loop h b fuel p = .done r → r ≠ 0
  | 0, _, _, _, hr => by simp [FindPrecendingBlock_loop] at hr
  | fuel + 1, p, r, hp, hr => by
    unfold FindPrecendingBlock_loop at hr
    split at hr
    · cases hr; exact hp
    · rename_i hn
      split at hr
      · cases hr; exact hp
      · exact preceding_loop_ne_zero fuel hn hr

/-- `Heap_Free` after its three checks passed and the search returned a node. -/
theorem Heap_Free_spliced {P : Platform} {h : Heap} {fuel p_data r : Nat}
    (hp0 : p_data ≠ 0)
    (hpad : GetPaddingSizeFromPointer P (P.sub p_data (GetOffsetOfData P)) = 0)
    (hnext : (h.blocks (P.sub p_data (GetOffsetOfData P))).p_next = 0)
    (hwm : CheckWatermarks P h (P.sub p_data (GetOffsetOfData P)) = true)
    (hfind : FindPrecendingBlock h fuel (P.sub p_data (GetOffsetOfData P)) = .done r)
    (hr0 : r ≠ 0) :
    Heap_Free P fuel h p_data =
      spliced P (h.call .enter_critical_section) r (P.sub p_data (GetOffsetOfData P)) := by
  unfold FindPrecendingBlock at hfind
  unfold Heap_Free spliced FindPrecendingBlock
  simp only [hp0, hpad, hnext, hwm, if_false, ne_eq, not_true_eq_false,
    Bool.not_true, call_head, preceding_loop_call, hfind, hr0, not_false_eq_true, if_true]
  rfl

/-- C20: `FindPrecendingBlock` never returns NULL, in any state and for any block address; on a
free list `l` that ends with NULL, walked with enough fuel, it returns `HeapInstance.head` or a
block of `l`, namely the last node of `head :: l1` where `l1` is the longest prefix of `l` of
addresses below `p_block`, so the successor of the returned node is NULL or at least `p_block`
and the successor of every node before it is neither.  Hence a `Heap_Free` that returns after
its pointer passed the alignment check, the allocated-marker check and the guard check has run
the insertion branch (`spliced`), and the hooks it has called are `enter_critical_section` and
`exit_critical_section` alone. -/
theorem FindPrecendingBlock_never_NULL (P : Platform) (h : Heap) (p_block : Nat)
    (hhead : h.head ≠ 0) :
    (∀ fuel r, FindPrecendingBlock h fuel p_block = .done r → r ≠ 0) ∧
    (∀ l fuel, FreeList h l → l.length < fuel →
      ∃ l1 l2 r, l = l1 ++ l2 ∧ (∀ x ∈ l1, x < p_block) ∧ (∀ y ∈ l2.head?, p_block ≤ y) ∧
        r = (h.head :: l1).getLast (List.cons_ne_nil _ _) ∧
        FindPrecendingBlock h fuel p_block = .done r ∧ (r = h.head ∨ r ∈ l) ∧
        ((h.blocks r).p_next = 0 ∨ p_block ≤ (h.blocks r).p_next)) ∧
    (∀ fuel p_data h', p_data ≠ 0 → P.sub p_data (GetOffsetOfData P) = p_block →
      GetPaddingSizeFromPointer P p_block = 0 → (h.blocks p_block).p_next = 0 →
      CheckWatermarks P h p_block = true → Heap_Free P fuel h p_data = .done h' →
      ∃ r, r ≠ 0 ∧ FindPrecendingBlock h fuel p_block = .done r ∧
        spliced P (h.call .enter_critical_section) r p_block = .done h' ∧
        h'.calls = h.calls ++ [Hook.enter_critical_section, Hook.exit_critical_section]) := by
  have hne : ∀ fuel r, FindPrecendingBlock h fuel p_block = .done r → r ≠ 0 :=
    fun fuel r hr => preceding_loop_ne_zero fuel hhead hr
  refine ⟨hne, ?_, ?_⟩
  · intro l fuel hl hfuel
    obtain ⟨l1, l2, e, h1, h2, h3⟩ := @preceding_loop_first h p_block l h.head hl
    have hfind : FindPrecendingBlock h fuel p_block =
        .done ((h.head :: l1).getLast (List.cons_ne_nil _ _)) :=
      h3 fuel (by rw [e] at hfuel; simp at hfuel; omega)
    refine ⟨l1, l2, _, e, h1, h2, rfl, hfind, ?_, ?_⟩
    · rcases @getLast_cons_mem h.head l1 with e1 | e1
      · exact Or.inl e1
      · exact Or.inr (by rw [e]; simp [e1])
    · have hd : Path h ((h.head :: l1).getLast (List.cons_ne_nil _ _)) l2 0 :=
        Path.drop (by rw [← e]; exact hl)
      cases l2 with
      | nil => exact Or.inl hd
      | cons c l2 =>
        simp only [Path] at hd
        right
        rw [hd.1]
        exact h2 c (by simp)
  · intro fuel p_data h' hp0 hb hpad hnext hwm hres
    subst hb
    cases hfind : FindPrecendingBlock h fuel (P.sub p_data (GetOffsetOfData P)) with
    | outOfFuel =>
      exfalso
      unfold FindPrecendingBlock at hfind
      unfold Heap_Free FindPrecendingBlock at hres
      simp [hp0, hpad, hnext, hwm, hfind] at hres
    | assertFailed =>
      exfalso
      unfold FindPrecendingBlock at hfind
      unfold Heap_Free FindPrecendingBlock at hres
      simp [hp0, hpad, hnext, hwm, hfind] at hres
    | done r =>
      have hr0 := hne fuel r hfind
      have hfree := Heap_Free_spliced hp0 hpad hnext hwm hfind hr0
      rw [hfree] at hres
      refine ⟨r, hr0, rfl, hres, ?_⟩
      have := spliced_calls hres
      simp [this]

/-! ## The blocks along a run -/

/-- In a tiling every block ends before the blocks after it start. -/
theorem Tiled.pairwise : ∀ {a : Nat} {ts : List Tile} {e : Nat}, Tiled a ts e →
    ts.Pairwise (fun s t => s.addr + s.size ≤ t.addr)
  | _, [], _, _ => List.Pairwise.nil
  | a, u :: ts, e, h => by
    simp only [Tiled] at h
    refine List.pairwise_cons.2 ⟨?_, Tiled.pairwise h.2⟩
    intro t ht
    have := Tiled.mem_bounds h.2 t ht
    omega

/-- Two different blocks of a tiling do not overlap. -/
theorem Tiled.disjoint {a : Nat} {ts : List Tile} {e : Nat} (h : Tiled a ts e) :
    ∀ s ∈ ts, ∀ t ∈ ts, s ≠ t → s.addr + s.size ≤ t.addr ∨ t.addr + t.size ≤ s.addr := by
  have hp : ts.Pairwise (fun s t => s.addr + s.size ≤ t.addr ∨ t.addr + t.size ≤ s.addr) :=
    (Tiled.pairwise h).imp (fun hst => Or.inl hst)
  exact hp.forall (fun s t hst => hst.symm)

/-- The sizes of the blocks of a tiling add up to the length of the tiled range. -/
theorem Tiled.sum : ∀ {a : Nat} {ts : List Tile} {e : Nat}, Tiled a ts e →
    a + (ts.map (fun t => t.size)).sum = e
  | a, [], e, h => by simpa [Tiled] using h
  | a, u :: ts, e, h => by
    simp only [Tiled] at h
    have := Tiled.sum h.2
    simp only [List.map_cons, List.sum_cons]
    omega

/-- A block that ends where another block starts is followed by it in the tiling. -/
theorem Tiled.consecutive : ∀ {a : Nat} {ts : List Tile} {e : Nat}, (∀ t ∈ ts, 0 < t.size) →
    Tiled a ts e → ∀ s ∈ ts, ∀ t ∈ ts, s.addr + s.size = t.addr →
    ∃ U V, ts = U ++ s :: t :: V
  | a, [], e, _, _, s, hs, _, _, _ => by simp at hs
  | a, u :: ts, e, hpos, h, s, hs, t, ht, hst => by
    have h0 := h
    simp only [Tiled] at h
    have hb := Tiled.mem_bounds h.2
    have hpos' : ∀ t ∈ ts, 0 < t.size := fun t ht => hpos t (List.mem_cons_of_mem _ ht)
    rcases List.mem_cons.1 hs with hsu | hs'
    · rcases List.mem_cons.1 ht with htu | ht'
      · have := hpos u (by simp)
        rw [hsu, htu] at hst
        omega
      · clear hs ht h0
        cases ts with
        | nil => simp at ht'
        | cons v ts =>
          have hv : v.addr = a + u.size := by
            have := h.2
            simp only [Tiled] at this
            exact this.1
          rw [hsu] at hst
          have : v = t := Tiled.addr_inj hpos' h.2 v (by simp) t ht' (by omega)
          exact ⟨[], ts, by rw [hsu, this]; rfl⟩
    · rcases List.mem_cons.1 ht with htu | ht'
      · have := hb s hs'
        have := hpos u (by simp)
        rw [htu] at hst
        omega
      · obtain ⟨U, V, e1⟩ := Tiled.consecutive hpos' h.2 s hs' t ht' hst
        exact ⟨u :: U, V, by rw [e1]; rfl⟩

/-- When every block of a tiling starts at a multiple of `A`, every block but the last has a size
that is a multiple of `A`. -/
theorem Tiled.last_or_dvd {A : Nat} : ∀ {a : Nat} {ts : List Tile} {e : Nat},
    (∀ t ∈ ts, 0 < t.size) → (∀ t ∈ ts, A ∣ t.addr) → Tiled a ts e →
    ∀ t ∈ ts, t.addr + t.size = e ∨ (A ∣ t.size ∧ t.addr + t.size < e)
  | a, [], e, _, _, _, t, ht => by simp at ht
  | a, u :: ts, e, hpos, hal, h, t, ht => by
    simp only [Tiled] at h
    have hpos' : ∀ t ∈ ts, 0 < t.size := fun t ht => hpos t (List.mem_cons_of_mem _ ht)
    have hal' : ∀ t ∈ ts, A ∣ t.addr := fun t ht => hal t (List.mem_cons_of_mem _ ht)
    rcases List.mem_cons.1 ht with ht | ht
    · rw [ht]
      cases ts with
      | nil =>
        have := h.2
        simp only [Tiled] at this
        left; omega
      | cons v ts =>
        have h2 := h.2
        simp only [Tiled] at h2
        have hv := hal v (by simp)
        have hu := hal u (by simp)
        have hb := Tiled.mem_bounds h.2 v (by simp)
        have := hpos v (by simp)
        right
        refine ⟨?_, by omega⟩
        rw [h2.1, ← h.1] at hv
        exact (Nat.dvd_add_right hu).1 hv
    · exact Tiled.last_or_dvd hpos' hal' h.2 t ht

/-- The blocks of a run: the pointers handed out are the data pointers of the blocks in use, and
the free list holds the free blocks. -/
theorem Run.blocks {P : Platform} (hP : P.Sane) {p_data size : Nat} {h : Heap}
    {out leaked : List Nat} (hr : Run P p_data size h out leaked) :
    ∃ ts, Inv P h (p_data + GetPaddingSizeFromPointer P p_data) (p_data + size) ts ∧
      Outstanding P ts out leaked ∧
      (∀ p ∈ out ++ leaked, ∃ t ∈ ts, t.free = false ∧ p = t.addr + GetOffsetOfData P ∧
        P.sub p (GetOffsetOfData P) = t.addr ∧
        (h.blocks (P.sub p (GetOffsetOfData P))).total_size = t.size) ∧
      (∀ f ∈ freeBlocks ts, ∃ t ∈ ts, t.free = true ∧ t.addr = f ∧
        (h.blocks f).total_size = t.size) := by
  obtain ⟨ts, hI, hO⟩ := hr.inv hP
  refine ⟨ts, hI, hO, ?_, ?_⟩
  · intro p hp
    obtain ⟨t, ht, hu, e⟩ := (hO.2 p).1 hp
    have hc := hI.layout.free_checks hP ht hu
    refine ⟨t, ht, hu, e, by rw [e]; exact hc.2.1, ?_⟩
    rw [e, hc.2.1]
    exact (hI.layout.tile_ok t ht).2.2
  · intro f hf
    obtain ⟨t, ht, hfr, e⟩ := mem_freeBlocks.1 hf
    exact ⟨t, ht, hfr, e, by rw [← e]; exact (hI.layout.tile_ok t ht).2.2⟩

/-- C14, no memory is handed out twice: along a run (`Heap_Init` on a region, `Heap_Alloc` calls
whose sizes do not wrap, `Heap_Free` calls on outstanding pointers, stores into outstanding
blocks) no pointer is outstanding twice; the block of every outstanding pointer and every free
block has a positive length and lies inside the region `[p_data, p_data + size)`; the blocks of
two different outstanding pointers are disjoint; and the block of an outstanding pointer is
disjoint from every free block.  The pointers of the blocks left in use after a report of damaged
guards (`leaked`) are covered as well. -/
theorem no_memory_handed_out_twice (P : Platform) (hP : P.Sane) (p_data size : Nat) (h : Heap)
    (out leaked : List Nat) (hr : Run P p_data size h out leaked) :
    ∃ l, FreeList h l ∧ (out ++ leaked).Nodup ∧
      (∀ p ∈ out ++ leaked,
        p_data ≤ P.sub p (GetOffsetOfData P) ∧
        0 < (h.blocks (P.sub p (GetOffsetOfData P))).total_size ∧
        P.sub p (GetOffsetOfData P) + (h.blocks (P.sub p (GetOffsetOfData P))).total_size ≤
          p_data + size) ∧
      (∀ f ∈ l, p_data ≤ f ∧ 0 < (h.blocks f).total_size ∧
        f + (h.blocks f).total_size ≤ p_data + size) ∧
      (∀ p ∈ out ++ leaked, ∀ q ∈ out ++ leaked, p ≠ q →
        P.sub p (GetOffsetOfData P) + (h.blocks (P.sub p (GetOffsetOfData P))).total_size ≤
          P.sub q (GetOffsetOfData P) ∨
        P.sub q (GetOffsetOfData P) + (h.blocks (P.sub q (GetOffsetOfData P))).total_size ≤
          P.sub p (GetOffsetOfData P)) ∧
      (∀ p ∈ out ++ leaked, ∀ f ∈ l,
        P.sub p (GetOffsetOfData P) + (h.blocks (P.sub p (GetOffsetOfData P))).total_size ≤ f ∨
        f + (h.blocks f).total_size ≤ P.sub p (GetOffsetOfData P)) := by
  obtain ⟨ts, hI, hO, hout, hfree⟩ := hr.blocks hP
  have hL := hI.layout
  have hpos := hL.pos hP
  have hb := Tiled.mem_bounds hL.tiled
  have hd := Tiled.disjoint hL.tiled
  refine ⟨freeBlocks ts, hL.free_list, hO.1, ?_, ?_, ?_, ?_⟩
  · intro p hp
    obtain ⟨t, ht, _, _, e1, e2⟩ := hout p hp
    rw [e1] at e2 ⊢
    rw [e2]
    have := hb t ht
    have := hpos t ht
    omega
  · intro f hf
    obtain ⟨t, ht, _, e1, e2⟩ := hfree f hf
    rw [e2, ← e1]
    have := hb t ht
    have := hpos t ht
    omega
  · intro p hp q hq hpq
    obtain ⟨t, ht, _, e0, e1, e2⟩ := hout p hp
    obtain ⟨u, hu, _, f0, f1, f2⟩ := hout q hq
    rw [e1] at e2 ⊢
    rw [f1] at f2 ⊢
    rw [e2, f2]
    exact hd t ht u hu (by rintro rfl; exact hpq (by rw [e0, f0]))
  · intro p hp f hf
    obtain ⟨t, ht, htu, e0, e1, e2⟩ := hout p hp
    obtain ⟨u, hu, huf, f1, f2⟩ := hfree f hf
    rw [e1] at e2 ⊢
    rw [e2, f2, ← f1]
    exact hd t ht u hu (by rintro rfl; rw [htu] at huf; exact absurd huf (by simp))

/-- Size conservation along a run: the free blocks, the blocks of the outstanding pointers and
the blocks left in use after a report of damaged guards are the blocks of one tiling of the
aligned region, each with its `total_size` in its header, and the sizes add up, with the
padding of `Heap_Init`, to the size of the region. -/
theorem size_conservation {P : Platform} (hP : P.Sane) {p_data size : Nat} {h : Heap}
    {out leaked : List Nat} (hr : Run P p_data size h out leaked) :
    ∃ ts, Tiled (p_data + GetPaddingSizeFromPointer P p_data) ts (p_data + size) ∧
      (∀ t ∈ ts, (h.blocks t.addr).total_size = t.size) ∧
      FreeList h (freeBlocks ts) ∧
      (∀ p, p ∈ out ++ leaked ↔ ∃ t ∈ ts, t.free = false ∧ p = t.addr + GetOffsetOfData P) ∧
      (ts.map (fun t => t.size)).sum + GetPaddingSizeFromPointer P p_data = size := by
  obtain ⟨ts, hI, hO⟩ := hr.inv hP
  have hL := hI.layout
  refine ⟨ts, hL.tiled, fun t ht => (hL.tile_ok t ht).2.2, hL.free_list, hO.2, ?_⟩
  have := Tiled.sum hL.tiled
  omega

/-- The free list along a run: sorted by strictly ascending address, and no free block ends where
another free block starts. -/
theorem free_list_sorted_not_adjacent {P : Platform} (hP : P.Sane) {p_data size : Nat}
    {h : Heap} {out leaked : List Nat} (hr : Run P p_data size h out leaked) :
    ∃ l, FreeList h l ∧ l.Sorted (· < ·) ∧
      ∀ b ∈ l, ∀ c ∈ l, b + (h.blocks b).total_size ≠ c := by
  obtain ⟨ts, hI, _, _, hfree⟩ := hr.blocks hP
  have hL := hI.layout
  have hpos := hL.pos hP
  refine ⟨freeBlocks ts, hL.free_list, Tiled.sorted hpos hL.tiled, ?_⟩
  intro b hb c hc hbc
  obtain ⟨s, hs, hsf, e1, e2⟩ := hfree b hb
  obtain ⟨t, ht, htf, f1, _⟩ := hfree c hc
  rw [e2, ← e1, ← f1] at hbc
  obtain ⟨U, V, e⟩ := Tiled.consecutive hpos hL.tiled s hs t ht hbc
  have hna := hI.no_adj
  rw [e, noAdjacentFree_split] at hna
  exact hna.2.2.2 t (by simp) ⟨hsf, htf⟩

/-- C16, amended: along a run every block, free or in use, starts at a multiple of
`HEAP_ALIGNMENT`; its `total_size` is a multiple of `HEAP_ALIGNMENT` when the block ends before
the end of the region, and the block that ends at the end of the region, `p_data + size`, has
such a `total_size` exactly when `size - padding` is a multiple of `HEAP_ALIGNMENT`. -/
theorem block_sizes_aligned (P : Platform) (hP : P.Sane) (p_data size : Nat) (h : Heap)
    (out leaked : List Nat) (hr : Run P p_data size h out leaked) :
    ∃ l, FreeList h l ∧
      ∀ b, (b ∈ l ∨ ∃ p ∈ out ++ leaked, b = P.sub p (GetOffsetOfData P)) →
        P.HEAP_ALIGNMENT ∣ b ∧
        ((b + (h.blocks b).total_size < p_data + size ∧
            P.HEAP_ALIGNMENT ∣ (h.blocks b).total_size) ∨
          (b + (h.blocks b).total_size = p_data + size ∧
            (P.HEAP_ALIGNMENT ∣ (h.blocks b).total_size ↔
              P.HEAP_ALIGNMENT ∣ size - GetPaddingSizeFromPointer P p_data))) := by
  obtain ⟨ts, hI, hO, hout, hfree⟩ := hr.blocks hP
  have hL := hI.layout
  have hpos := hL.pos hP
  have hal : ∀ t ∈ ts, P.HEAP_ALIGNMENT ∣ t.addr := fun t ht => (hL.tile_ok t ht).1
  have hlast := Tiled.last_or_dvd hpos hal hL.tiled
  have hb := Tiled.mem_bounds hL.tiled
  have hlo := dvd_add_padding P p_data hP.align_pos
  have hacc := hr.accepted hP
  have key : ∀ t ∈ ts, P.HEAP_ALIGNMENT ∣ t.addr ∧
      ((t.addr + t.size < p_data + size ∧ P.HEAP_ALIGNMENT ∣ t.size) ∨
        (t.addr + t.size = p_data + size ∧
          (P.HEAP_ALIGNMENT ∣ t.size ↔
            P.HEAP_ALIGNMENT ∣ size - GetPaddingSizeFromPointer P p_data))) := by
    intro t ht
    refine ⟨hal t ht, ?_⟩
    rcases hlast t ht with e | ⟨hd, hlt⟩
    · right
      refine ⟨e, ?_⟩
      have h1 := hb t ht
      have hd1 : P.HEAP_ALIGNMENT ∣ t.addr - (p_data + GetPaddingSizeFromPointer P p_data) :=
        Nat.dvd_sub' (hal t ht) hlo
      have e2 : size - GetPaddingSizeFromPointer P p_data =
          (t.addr - (p_data + GetPaddingSizeFromPointer P p_data)) + t.size := by omega
      rw [e2]
      exact (Nat.dvd_add_right hd1).symm
    · exact Or.inl ⟨hlt, hd⟩
  refine ⟨freeBlocks ts, hL.free_list, ?_⟩
  rintro b (hbl | ⟨p, hp, rfl⟩)
  · obtain ⟨t, ht, _, e1, e2⟩ := hfree b hbl
    rw [e2, ← e1]
    exact key t ht
  · obtain ⟨t, ht, _, _, e1, e2⟩ := hout p hp
    rw [e1] at e2 ⊢
    rw [e2]
    exact key t ht

/-- Along a run every pointer other than NULL that `Heap_Alloc` returns for a request that does
not wrap is a multiple of `HEAP_ALIGNMENT`, whether the region starts aligned or not. -/
theorem Run.alloc_aligned {P : Platform} (hP : P.Sane) {p_data size : Nat} {h : Heap}
    {out leaked : List Nat} (hr : Run P p_data size h out leaked) {fuel n : Nat} {h' : Heap}
    {p : Nat} (hnw : GetOffsetOfData P + n + P.HEAP_WATERMARK_SIZE < P.range)
    (hres : Heap_Alloc P fuel h n = .done (h', p)) (hp : p ≠ 0) : P.HEAP_ALIGNMENT ∣ p := by
  obtain ⟨ts, hI, _⟩ := hr.inv hP
  rcases hI.alloc_step hP hnw hres with ⟨h0, _⟩ | ⟨T1, tb, T2, hts, _, _, _, hpe, _, _⟩
  · exact absurd h0 hp
  · rw [hpe]
    exact Nat.dvd_add (hI.layout.tile_ok tb (by rw [hts]; simp)).1 (GetOffsetOfData_dvd P hP)

/-! ## Allocation undone by release -/

/-- Releasing the block that was just carved gives the tiling back. -/
theorem released_carved {P : Platform} (T1 : List Tile) (tb : Tile) (T2 : List Tile) (t : Nat)
    (hfree : tb.free = true) (hna : NoAdjacentFree (T1 ++ tb :: T2)) :
    ∃ c R, carved P T1 tb T2 t = T1 ++ c :: R ∧ c.free = false ∧ c.addr = tb.addr ∧
      released T1 c R = T1 ++ tb :: T2 := by
  rw [noAdjacentFree_free hfree] at hna
  obtain ⟨_, _, hl, hr⟩ := hna
  have htb : tb = ⟨tb.addr, tb.size, true⟩ := by
    cases tb; simp only [Tile.mk.injEq, true_and]; exact hfree
  unfold carved
  split
  · rename_i hc
    refine ⟨_, _, rfl, rfl, rfl, ?_⟩
    unfold released
    simp only [mergeRight, if_true]
    rw [mergeLeft_used T1 _ _ hl]
    have : AddPadding P t + (tb.size - AddPadding P t) = tb.size := by omega
    rw [this, ← htb]
  · refine ⟨_, _, rfl, rfl, rfl, ?_⟩
    unfold released
    cases T2 with
    | nil =>
      simp only [mergeRight]
      rw [mergeLeft_used T1 _ _ hl, ← htb]
    | cons m T2 =>
      have hm := hr m (by simp)
      simp only [mergeRight, hm, Bool.false_eq_true, if_false]
      rw [mergeLeft_used T1 _ _ hl, ← htb]

/-- The first block that fits is determined by the tiling. -/
theorem first_fit_unique {n : Nat} {T1 T1' : List Tile} {tb tb' : Tile} {T2 T2' : List Tile}
    (e : T1 ++ tb :: T2 = T1' ++ tb' :: T2')
    (h1 : ∀ s ∈ T1, s.free = true → s.size < n) (h1' : ∀ s ∈ T1', s.free = true → s.size < n)
    (hb : tb.free = true ∧ n ≤ tb.size) (hb' : tb'.free = true ∧ n ≤ tb'.size) :
    tb = tb' := by
  rcases List.append_eq_append_iff.1 e with ⟨a', e1, e2⟩ | ⟨c', e1, e2⟩
  · cases a' with
    | nil =>
      simp only [List.nil_append] at e2
      exact (List.cons.inj e2).1
    | cons x a' =>
      simp only [List.cons_append] at e2
      have hx := (List.cons.inj e2).1
      have := h1' tb (by rw [e1, hx]; simp) hb.1
      omega
  · cases c' with
    | nil =>
      simp only [List.nil_append] at e2
      exact ((List.cons.inj e2).1).symm
    | cons x c' =>
      simp only [List.cons_append] at e2
      have hx := (List.cons.inj e2).1
      have := h1 tb' (by rw [e1, hx]; simp) hb'.1
      omega

/-- In a state with the tiling `ts`, a request that was served before from `ts` is served again
with the same pointer. -/
theorem Inv.alloc_again {P : Platform} (hP : P.Sane) {h h2 : Heap} {lo hi : Nat}
    {ts : List Tile} (hI : Inv P h lo hi ts) (hI2 : Inv P h2 lo hi ts) {fuel n : Nat}
    {h1 : Heap} {p : Nat} (hnw : GetOffsetOfData P + n + P.HEAP_WATERMARK_SIZE < P.range)
    (hres : Heap_Alloc P fuel h n = .done (h1, p)) (fuel' : Nat) (hfuel : ts.length < fuel') :
    ∃ h3, Heap_Alloc P fuel' h2 n = .done (h3, p) := by
  have hL2 := hI2.layout
  obtain ⟨h3, p', hres'⟩ := @Heap_Alloc_returns P h2 _ fuel' n hL2.free_list hL2.head_ne
    (by
      have := freeBlocks_length_le ts
      omega)
  have hpp : p' = p := by
    rcases hI.alloc_step hP hnw hres with ⟨h0, _, _, hall⟩ |
      ⟨T1, tb, T2, hts, hfree, hsmall, htsz, hpe, _, _⟩
    · rcases hI2.alloc_step hP hnw hres' with ⟨h0', _⟩ |
        ⟨T1', tb', T2', hts', hfree', _, htsz', _, _, _⟩
      · rw [h0, h0']
      · have := hall tb' (by rw [hts']; simp) hfree'
        omega
    · rcases hI2.alloc_step hP hnw hres' with ⟨_, _, _, hall⟩ |
        ⟨T1', tb', T2', hts', hfree', hsmall', htsz', hpe', _, _⟩
      · have := hall tb (by rw [hts]; simp) hfree
        omega
      · have := first_fit_unique (hts.symm.trans hts') hsmall hsmall' ⟨hfree, htsz⟩
          ⟨hfree', htsz'⟩
        rw [hpe, hpe', this]
  rw [hpp] at hres'
  exact ⟨h3, hres'⟩

/-- `Heap_Free` of the pointer `Heap_Alloc` has just returned gives the tiling back. -/
theorem alloc_free_restores {P : Platform} (hP : P.Sane) {h : Heap} {lo hi : Nat}
    {ts : List Tile} (hI : Inv P h lo hi ts) {fuel n : Nat} {h1 : Heap} {p : Nat}
    (hnw : GetOffsetOfData P + n + P.HEAP_WATERMARK_SIZE < P.range)
    (hres : Heap_Alloc P fuel h n = .done (h1, p)) (fuel' : Nat)
    (hfuel : ts.length < fuel') :
    ∃ h2, Heap_Free P fuel' h1 p = .done h2 ∧ Inv P h2 lo hi ts := by
  rcases hI.alloc_step hP hnw hres with ⟨h0, _, hI1, _⟩ |
    ⟨T1, tb, T2, hts, hfree, hsmall, htsz, hpe, hh1, hI1⟩
  · exact ⟨h1, by rw [h0]; simp [Heap_Free], hI1⟩
  · subst hts
    have hL := hI.layout
    obtain ⟨c, R, hcar, hcu, hca, hrel⟩ :=
      @released_carved P T1 tb T2 (GetTotalSize P n) hfree hI.no_adj
    rw [hcar] at hI1
    have hrb : (h.blocks ((h.head :: freeBlocks T1).getLast (List.cons_ne_nil _ _))).p_next =
        tb.addr := by
      have hfl := hL.free_list
      rw [FreeList, freeBlocks_append, freeBlocks_cons_free hfree, Path.append_cons_iff] at hfl
      exact Path.next_getLast hfl.1
    have hchk1 : CheckWatermarks P h1 c.addr = true := by
      have := CheckWatermarks_granted P h
        ((h.head :: freeBlocks T1).getLast (List.cons_ne_nil _ _)) (GetTotalSize P n)
      rw [hrb, ← hh1] at this
      rw [hca]
      exact this
    have hstep := (hI1.free_step hP hcu fuel').2 hchk1
    have hlen : (freeBlocks T1).length < fuel' := by
      have := freeBlocks_length_le T1
      simp only [List.length_append, List.length_cons] at hfuel
      omega
    rw [hca, ← hpe] at hstep
    obtain ⟨h2, hfree2⟩ := hstep.1 hlen
    obtain ⟨_, _, _, hI2⟩ := hstep.2 h2 hfree2
    rw [hrel] at hI2
    exact ⟨h2, hfree2, hI2⟩

/-- C18, free undoes alloc: in a state that satisfies the invariant of the allocator (so its free
list is sorted by address and no two free blocks are adjacent) let `Heap_Alloc(n)`, `n` not
wrapping, return `p`.  Then the `Heap_Free(p)` that follows returns; the free list is again the
list of blocks it was before the `Heap_Alloc`, each block with the `total_size` it had; and a
further `Heap_Alloc(n)` returns `p` again. -/
theorem Heap_Free_undoes_Heap_Alloc (P : Platform) (hP : P.Sane) (h : Heap) (lo hi : Nat)
    (ts : List Tile) (hI : Inv P h lo hi ts) (fuel n : Nat) (h1 : Heap) (p : Nat)
    (hnw : GetOffsetOfData P + n + P.HEAP_WATERMARK_SIZE < P.range)
    (hres : Heap_Alloc P fuel h n = .done (h1, p)) (fuel' : Nat)
    (hfuel : ts.length < fuel') :
    ∃ h2, Heap_Free P fuel' h1 p = .done h2 ∧
      (∃ l, FreeList h l ∧ l.Sorted (· < ·) ∧ FreeList h2 l ∧
        ∀ b ∈ l, (h2.blocks b).total_size = (h.blocks b).total_size) ∧
      ∃ h3, Heap_Alloc P fuel' h2 n = .done (h3, p) := by
  obtain ⟨h2, hf, hI2⟩ := alloc_free_restores hP hI hnw hres fuel' hfuel
  have h3 := hI.alloc_again hP hI2 hnw hres fuel' hfuel
  refine ⟨h2, hf, ⟨freeBlocks ts, hI.layout.free_list,
    Tiled.sorted (hI.layout.pos hP) hI.layout.tiled, hI2.layout.free_list, ?_⟩, h3⟩
  intro b hb
  obtain ⟨t, ht, _, e⟩ := mem_freeBlocks.1 hb
  rw [← e, (hI.layout.tile_ok t ht).2.2, (hI2.layout.tile_ok t ht).2.2]

/-! ## Merging on both sides -/

/-- The successor of the start node of a walk. -/
theorem Path.next_eq_headD {h : Heap} {p : Nat} {l : List Nat} {q : Nat} (hp : Path h p l q) :
    (h.blocks p).p_next = l.headD q := by
  cases l with
  | nil => exact hp
  | cons b l => exact hp.1

/-- C17, merging on both sides: in a state that satisfies the invariant of the allocator let the
block `tb`, in use and with intact guards, lie between the free blocks `tp` and `tn`: `tp` ends
where `tb` starts and `tb` ends where `tn` starts.  Then `Heap_Free` of the data pointer of `tb`
returns, and the free list, which was `.. tp, tn ..`, is `.. tp ..` with the same blocks before
and after: the block at the address of `tp` has the `total_size` of `tp`, `tb` and `tn`
together, its successor is the former successor of `tn`, and neither `tb` nor `tn` is on the
list. -/
theorem Heap_Free_merges_both_sides (P : Platform) (hP : P.Sane) (h : Heap) (lo hi : Nat)
    (U : List Tile) (tp tb tn : Tile) (V : List Tile)
    (hI : Inv P h lo hi (U ++ tp :: tb :: tn :: V))
    (hp : tp.free = true) (hb : tb.free = false) (hn : tn.free = true)
    (hwm : CheckWatermarks P h tb.addr = true) (fuel : Nat)
    (hfuel : (freeBlocks U).length + 1 < fuel) :
    tp.addr + (h.blocks tp.addr).total_size = tb.addr ∧
    tb.addr + (h.blocks tb.addr).total_size = tn.addr ∧
    FreeList h (freeBlocks U ++ tp.addr :: tn.addr :: freeBlocks V) ∧
    ∃ h', Heap_Free P fuel h (tb.addr + GetOffsetOfData P) = .done h' ∧
      FreeList h' (freeBlocks U ++ tp.addr :: freeBlocks V) ∧
      (h'.blocks tp.addr).total_size = (h.blocks tp.addr).total_size +
        (h.blocks tb.addr).total_size + (h.blocks tn.addr).total_size ∧
      (h'.blocks tp.addr).p_next = (h.blocks tn.addr).p_next ∧
      tb.addr ∉ freeBlocks U ++ tp.addr :: freeBlocks V ∧
      tn.addr ∉ freeBlocks U ++ tp.addr :: freeBlocks V := by
  have hL := hI.layout
  have hsp := Tiled.split hL.tiled
  have hsp2 := hsp.2
  simp only [Tiled] at hsp2
  obtain ⟨hbp, hnb, hV⟩ : tb.addr = tp.addr + tp.size ∧ tn.addr = tb.addr + tb.size ∧
      Tiled (tn.addr + tn.size) V hi := by
    obtain ⟨a1, a2, a3⟩ := hsp2
    refine ⟨a1, by omega, ?_⟩
    rw [a2]; exact a3
  have hszp := (hL.tile_ok tp (by simp)).2.2
  have hszb := (hL.tile_ok tb (by simp)).2.2
  have hszn := (hL.tile_ok tn (by simp)).2.2
  have hposp := hL.pos hP tp (by simp)
  have hposb := hL.pos hP tb (by simp)
  have hposn := hL.pos hP tn (by simp)
  have hfl := hL.free_list
  have hfb : freeBlocks (U ++ tp :: tb :: tn :: V) =
      freeBlocks U ++ tp.addr :: tn.addr :: freeBlocks V := by
    rw [freeBlocks_append, freeBlocks_cons_free hp, freeBlocks_cons_used hb,
      freeBlocks_cons_free hn]
  rw [hfb] at hfl
  have hI' : Inv P h lo hi ((U ++ [tp]) ++ tb :: (tn :: V)) := by
    simpa using hI
  have hstep := (hI'.free_step hP hb fuel).2 hwm
  have hlen : (freeBlocks (U ++ [tp])).length < fuel := by
    rw [freeBlocks_append, freeBlocks_cons_free hp]
    simp only [List.length_append, List.length_cons]
    have : (freeBlocks ([] : List Tile)).length = 0 := rfl
    omega
  obtain ⟨h', hres⟩ := hstep.1 hlen
  obtain ⟨_, _, _, hI2⟩ := hstep.2 h' hres
  have hrel : released (U ++ [tp]) tb (tn :: V) =
      U ++ ⟨tp.addr, tp.size + (tb.size + tn.size), true⟩ :: V := by
    unfold released
    simp only [mergeRight, hn, if_true]
    exact mergeLeft_free U tp _ V hp
  rw [hrel] at hI2
  have hL2 := hI2.layout
  have hfl2 := hL2.free_list
  have hfb2 : freeBlocks (U ++ ⟨tp.addr, tp.size + (tb.size + tn.size), true⟩ :: V) =
      freeBlocks U ++ tp.addr :: freeBlocks V := by
    rw [freeBlocks_append, freeBlocks_cons_free rfl]
  rw [hfb2] at hfl2
  have hsz2 := (hL2.tile_ok ⟨tp.addr, tp.size + (tb.size + tn.size), true⟩ (by simp)).2.2
  have hnext : (h'.blocks tp.addr).p_next = (h.blocks tn.addr).p_next := by
    have a1 := (Path.append_cons_iff.1 hfl2).2.2
    have a2 : Path h (tp.addr) (tn.addr :: freeBlocks V) 0 := (Path.append_cons_iff.1 hfl).2.2
    simp only [Path] at a2
    rw [Path.next_eq_headD a1, Path.next_eq_headD a2.2.2]
  have hU := Tiled.mem_bounds hsp.1
  have hVb := Tiled.mem_bounds hV
  have hnot : ∀ x, tp.addr < x → x < tn.addr + tn.size →
      x ∉ freeBlocks U ++ tp.addr :: freeBlocks V := by
    intro x hx1 hx2 hmem
    rcases List.mem_append.1 hmem with hm | hm
    · obtain ⟨t, ht, _, e⟩ := mem_freeBlocks.1 hm
      have := hU t ht
      have := hL.pos hP t (by simp [ht])
      omega
    · rcases List.mem_cons.1 hm with e | hm
      · omega
      · obtain ⟨t, ht, _, e⟩ := mem_freeBlocks.1 hm
        have := hVb t ht
        omega
  refine ⟨by rw [hszp, hbp], by rw [hszb, hnb], hfl, h', hres, hfl2, ?_, hnext, ?_, ?_⟩
  · rw [hszp, hszb, hszn]
    show (h'.blocks tp.addr).total_size = _
    have : (h'.blocks tp.addr).total_size = tp.size + (tb.size + tn.size) := hsz2
    omega
  · exact hnot _ (by omega) (by omega)
  · exact hnot _ (by omega) (by omega)

/-! ## The split policy -/

/-- C15, amended: in a state that satisfies the invariant of the allocator let `Heap_Alloc(n)`,
`n` not wrapping, return a pointer other than NULL.  It is the data pointer of the first block
`b` of the free list with `total_size >= GetTotalSize(n)`, and `b` is marked as used.  With
`r = AddPadding(GetTotalSize(n))`: if `b.total_size > r + GetTotalSize(0)`, that is if what is
left over is greater than a minimum block, `b` gets the `total_size` `r` and a new free block of
`total_size` `b.total_size - r` at `b + r` takes the place of `b` in the free list, between the
same blocks; otherwise `b` keeps its `total_size` and is unlinked. -/
theorem Heap_Alloc_split_policy (P : Platform) (hP : P.Sane) (h : Heap) (lo hi : Nat)
    (ts : List Tile) (hI : Inv P h lo hi ts) (fuel n : Nat) (h' : Heap) (p : Nat)
    (hnw : GetOffsetOfData P + n + P.HEAP_WATERMARK_SIZE < P.range)
    (hres : Heap_Alloc P fuel h n = .done (h', p)) (hp : p ≠ 0) :
    ∃ l1 b l2, FreeList h (l1 ++ b :: l2) ∧ p = b + GetOffsetOfData P ∧
      (∀ x ∈ l1, (h.blocks x).total_size < GetTotalSize P n) ∧
      GetTotalSize P n ≤ (h.blocks b).total_size ∧
      (h'.blocks b).p_next = 0 ∧
      ((h.blocks b).total_size > AddPadding P (GetTotalSize P n) + GetTotalSize P 0 →
        (h'.blocks b).total_size = AddPadding P (GetTotalSize P n) ∧
        (h'.blocks (b + AddPadding P (GetTotalSize P n))).total_size =
          (h.blocks b).total_size - AddPadding P (GetTotalSize P n) ∧
        FreeList h' (l1 ++ (b + AddPadding P (GetTotalSize P n)) :: l2)) ∧
      (¬ (h.blocks b).total_size > AddPadding P (GetTotalSize P n) + GetTotalSize P 0 →
        (h'.blocks b).total_size = (h.blocks b).total_size ∧ FreeList h' (l1 ++ l2)) := by
  rcases hI.alloc_step hP hnw hres with ⟨h0, _⟩ | ⟨T1, tb, T2, hts, hfree, hsmall, htsz, hpe, _, hI1⟩
  · exact absurd h0 hp
  · subst hts
    have hL := hI.layout
    have hL1 := hI1.layout
    have hsz := (hL.tile_ok tb (by simp)).2.2
    have hfl := hL.free_list
    rw [freeBlocks_append, freeBlocks_cons_free hfree] at hfl
    refine ⟨freeBlocks T1, tb.addr, freeBlocks T2, hfl, hpe, ?_, by rw [hsz]; exact htsz, ?_,
      ?_, ?_⟩
    · intro x hx
      obtain ⟨s, hs, hsf, e⟩ := mem_freeBlocks.1 hx
      rw [← e, (hL.tile_ok s (by simp [hs])).2.2]
      exact hsmall s hs hsf
    · unfold carved at hL1
      split at hL1
      · have := hL1.used_next ⟨tb.addr, AddPadding P (GetTotalSize P n), false⟩
          (List.mem_append_right _ (List.mem_cons_self _ _)) rfl
        exact this
      · have := hL1.used_next ⟨tb.addr, tb.size, false⟩
          (List.mem_append_right _ (List.mem_cons_self _ _)) rfl
        exact this
    · intro hc
      rw [hsz] at hc ⊢
      unfold carved at hL1
      rw [if_pos hc] at hL1
      have s1 := (hL1.tile_ok ⟨tb.addr, AddPadding P (GetTotalSize P n), false⟩
        (List.mem_append_right _ (List.mem_cons_self _ _))).2.2
      have s2 := (hL1.tile_ok ⟨tb.addr + AddPadding P (GetTotalSize P n),
        tb.size - AddPadding P (GetTotalSize P n), true⟩ (List.mem_append_right _
          (List.mem_cons_of_mem _ (List.mem_cons_self _ _)))).2.2
      refine ⟨s1, s2, ?_⟩
      have := hL1.free_list
      rw [freeBlocks_append, freeBlocks_cons_used rfl, freeBlocks_cons_free rfl] at this
      exact this
    · intro hc
      rw [hsz] at hc ⊢
      unfold carved at hL1
      rw [if_neg hc] at hL1
      have s1 := (hL1.tile_ok ⟨tb.addr, tb.size, false⟩
        (List.mem_append_right _ (List.mem_cons_self _ _))).2.2
      refine ⟨s1, ?_⟩
      have := hL1.free_list
      rw [freeBlocks_append, freeBlocks_cons_used rfl] at this
      exact this

/-! ## The statements at concrete inputs -/

theorem region256 : Region x86_64 blank.head 0x1000 256 := by
  unfold Region
  norm_num [x86_64, Platform.range, blank]

theorem fresh256_inv : Inv x86_64 fresh256 (0x1000 + GetPaddingSizeFromPointer x86_64 0x1000)
    (0x1000 + 256)
    [⟨0x1000 + GetPaddingSizeFromPointer x86_64 0x1000,
      256 - GetPaddingSizeFromPointer x86_64 0x1000, true⟩] :=
  (Inv.init x86_64_sane (c := some allHooks) region256 rfl).2.2.2.2

/-- A run on the 64-bit port: two requests of 10 bytes, freed in reverse order of allocation. -/
theorem run_two_blocks :
    ∃ h, Run x86_64 0x1000 256 h [] [] ∧ FreeList h [0x1000] := by
  have h0 : Run x86_64 0x1000 256 fresh256 [] [] := Run.init blank _ allHooks region256 rfl
  have h1 := Run.alloc _ _ _ _ 2 10 0x1020 h0
    (by norm_num [x86_64, Platform.range, GetOffsetOfData, AddPadding, Platform.add])
    (show Heap_Alloc x86_64 2 fresh256 10 = .done (used256, 0x1020) from rfl)
  have h2 := Run.alloc _ _ _ _ 2 10 0x1050 h1
    (by norm_num [x86_64, Platform.range, GetOffsetOfData, AddPadding, Platform.add])
    (show Heap_Alloc x86_64 2 used256 10 =
      .done (granted x86_64 used256 used256.head (GetTotalSize x86_64 10), 0x1050) from rfl)
  have h3 := Run.free _ _ _ _ 2 0x1050 h2 (by decide) rfl
  have h4 := Run.free _ _ _ _ 2 0x1020 h3 (by decide) rfl
  exact ⟨_, h4, by decide⟩

/-- Full reclamation at this run: the free list is again the block at `0x1000` alone. -/
theorem full_reclamation_two_blocks :
    ∃ h, Run x86_64 0x1000 256 h [] [] ∧
      FreeList h [0x1000 + GetPaddingSizeFromPointer x86_64 0x1000] ∧
      h.blocks (0x1000 + GetPaddingSizeFromPointer x86_64 0x1000) =
        ⟨0, 256 - GetPaddingSizeFromPointer x86_64 0x1000⟩ := by
  obtain ⟨h, hr, _⟩ := run_two_blocks
  have := full_reclamation x86_64_sane hr
  exact ⟨h, hr, this.1, this.2.2.1⟩

/-- C6 on the block granted by `Heap_Alloc(10)` after one byte of its tail guard was overwritten. -/
theorem Heap_Free_corrupted_witness :
    ∃ h', Heap_Free x86_64 2 (used256.setByte 0x102C 0xFF)
        (x86_64.add 0x1000 (GetOffsetOfData x86_64)) = .done h' ∧
      h'.calls = (used256.setByte 0x102C 0xFF).calls ++ [Hook.corrupted_data_hook] ∧
      h'.blocks = (used256.setByte 0x102C 0xFF).blocks ∧
      h'.bytes = (used256.setByte 0x102C 0xFF).bytes ∧
      h'.head = (used256.setByte 0x102C 0xFF).head ∧
      ∀ l, FreeList (used256.setByte 0x102C 0xFF) l → FreeList h' l :=
  Heap_Free_corrupted x86_64 x86_64_sane (used256.setByte 0x102C 0xFF) 2 0x1000 0
    (by norm_num [x86_64, Platform.range]) (by decide) (by decide) (by decide) (by decide)
    (Or.inr (by decide))

/-- C7 for `Heap_Alloc(10)` on the state right after `Heap_Init` of a 256-byte region. -/
theorem Heap_Free_after_payload_writes_witness :
    ∃ b, 0x1020 = b + GetOffsetOfData x86_64 ∧
      b + x86_64.sizeof_Block + x86_64.HEAP_WATERMARK_SIZE ≤ 0x1020 ∧
      0x1020 + 10 + x86_64.HEAP_WATERMARK_SIZE ≤ b + (used256.blocks b).total_size ∧
      ∀ (bytes : Nat → Nat) (fuel' : Nat),
        (∀ a, a < 0x1020 ∨ 0x1020 + 10 ≤ a → bytes a = used256.bytes a) → 1 < fuel' →
        ∃ h2, Heap_Free x86_64 fuel' { used256 with bytes := bytes } 0x1020 = .done h2 ∧
          h2.calls = used256.calls ++
            [Hook.enter_critical_section, Hook.exit_critical_section] ∧
          ∃ l q, FreeList h2 l ∧ q ∈ l ∧ q ≤ b ∧
            b + (used256.blocks b).total_size ≤ q + (h2.blocks q).total_size :=
  Heap_Free_after_payload_writes x86_64 x86_64_sane fresh256 _ _ _ fresh256_inv 2 10 used256
    0x1020 (by norm_num [x86_64, Platform.range, GetOffsetOfData, AddPadding, Platform.add])
    rfl (by decide)

/-- C10 on a 256-byte region at the address `0x1000`. -/
theorem Heap_Alloc_zero_witness :
    ∃ h1 p h2, Heap_Alloc x86_64 2 fresh256 0 = .done (h1, p) ∧ p ≠ 0 ∧
      x86_64.HEAP_ALIGNMENT ∣ p ∧
      h1.calls = fresh256.calls ++ [Hook.enter_critical_section, Hook.exit_critical_section] ∧
      Heap_Free x86_64 2 h1 p = .done h2 ∧
      h2.calls = h1.calls ++ [Hook.enter_critical_section, Hook.exit_critical_section] :=
  Heap_Alloc_zero x86_64 x86_64_sane blank fresh256 allHooks 0x1000 256 2 region256 rfl
    (by decide)

/-- C8, on the 64-bit port: `Heap_Alloc(SIZE_MAX)` on a fresh 256-byte region returns a pointer
other than NULL, and the block it grants has `total_size` 48, which is less than
`GetOffsetOfData() + SIZE_MAX + HEAP_WATERMARK_SIZE`: the sum in `GetTotalSize` wrapped to 35. -/
theorem Heap_Alloc_SIZE_MAX_grants_48_bytes :
    ∃ h', Heap_Alloc x86_64 2 fresh256 (2 ^ 64 - 1) = .done (h', 0x1020) ∧
      GetTotalSize x86_64 (2 ^ 64 - 1) = 35 ∧
      (h'.blocks 0x1000).total_size = 48 ∧
      48 < GetOffsetOfData x86_64 + (2 ^ 64 - 1) + x86_64.HEAP_WATERMARK_SIZE :=
  ⟨_, rfl, by decide, by decide, by decide⟩

/-- C5, on the 64-bit port: on a fresh 256-byte region, after `p0 = Heap_Alloc(10)` and
`p1 = Heap_Alloc(170)` the free list is empty; `Heap_Free(p0)` makes the block of `p0` the only
and last free block, with a NULL `p_next`.  A second `Heap_Free(p0)` then calls
`enter_critical_section` and `exit_critical_section` and no `invalid_pointer_hook`, and links
the block to itself. -/
theorem double_free_not_reported :
    ∃ h1 p0 h2 p1 h3 h4,
      Heap_Alloc x86_64 2 fresh256 10 = .done (h1, p0) ∧ p0 ≠ 0 ∧
      Heap_Alloc x86_64 2 h1 170 = .done (h2, p1) ∧ p1 ≠ 0 ∧
      Heap_Free x86_64 2 h2 p0 = .done h3 ∧
      Heap_Free x86_64 2 h3 p0 = .done h4 ∧
      h4.calls = h3.calls ++ [Hook.enter_critical_section, Hook.exit_critical_section] ∧
      FreeList h3 [0x1000] ∧ (h3.blocks 0x1000).p_next = 0 ∧
      (h4.blocks 0x1000).p_next = 0x1000 :=
  ⟨_, _, _, _, _, _, rfl, by decide, rfl, by decide, rfl, rfl, by decide, by decide, by decide,
    by decide⟩

/-- C1, on the 64-bit port: on a fresh 256-byte region, `p = Heap_Alloc(SIZE_MAX - 35)` (a
request whose `GetTotalSize` wraps to 0) returns a pointer other than NULL, and `Heap_Free(p)`
calls no error hook; every returned pointer has then been freed once, but the free list is not
the one `Heap_Init` left: the block at the region start is its own successor. -/
theorem wrapped_request_leaves_cyclic_free_list :
    ∃ h1 p h2,
      Heap_Alloc x86_64 2 fresh256 (2 ^ 64 - 36) = .done (h1, p) ∧ p ≠ 0 ∧
      Heap_Free x86_64 2 h1 p = .done h2 ∧
      h2.calls = [Hook.enter_critical_section, Hook.exit_critical_section,
        Hook.enter_critical_section, Hook.exit_critical_section] ∧
      FreeList fresh256 [0x1000] ∧ (fresh256.blocks 0x1000).p_next = 0 ∧
      ¬ FreeList h2 [0x1000] ∧ (h2.blocks 0x1000).p_next = 0x1000 :=
  ⟨_, _, _, rfl, by decide, rfl, by decide, by decide, by decide, by decide, by decide⟩

/-- C20 for the block at `0x1000` after `Heap_Alloc(10)` on a fresh 256-byte region: the free
list is the block at `0x1030` alone. -/
theorem FindPrecendingBlock_never_NULL_witness :
    (∀ fuel r, FindPrecendingBlock used256 fuel 0x1000 = .done r → r ≠ 0) ∧
    (∀ l fuel, FreeList used256 l → l.length < fuel →
      ∃ l1 l2 r, l = l1 ++ l2 ∧ (∀ x ∈ l1, x < 0x1000) ∧ (∀ y ∈ l2.head?, 0x1000 ≤ y) ∧
        r = (used256.head :: l1).getLast (List.cons_ne_nil _ _) ∧
        FindPrecendingBlock used256 fuel 0x1000 = .done r ∧ (r = used256.head ∨ r ∈ l) ∧
        ((used256.blocks r).p_next = 0 ∨ 0x1000 ≤ (used256.blocks r).p_next)) ∧
    (∀ fuel p_data h', p_data ≠ 0 → x86_64.sub p_data (GetOffsetOfData x86_64) = 0x1000 →
      GetPaddingSizeFromPointer x86_64 0x1000 = 0 → (used256.blocks 0x1000).p_next = 0 →
      CheckWatermarks x86_64 used256 0x1000 = true →
      Heap_Free x86_64 fuel used256 p_data = .done h' →
      ∃ r, r ≠ 0 ∧ FindPrecendingBlock used256 fuel 0x1000 = .done r ∧
        spliced x86_64 (used256.call .enter_critical_section) r 0x1000 = .done h' ∧
        h'.calls = used256.calls ++
          [Hook.enter_critical_section, Hook.exit_critical_section]) :=
  FindPrecendingBlock_never_NULL x86_64 used256 0x1000 (by decide)

theorem region250 : Region x86_64 blank.head 0x1000 250 := by
  unfold Region
  norm_num [x86_64, Platform.range, blank]

theorem run_twoUsed256 : Run x86_64 0x1000 256 twoUsed256 [0x1050, 0x1020] [] := by
  have h0 : Run x86_64 0x1000 256 fresh256 [] [] := Run.init blank _ allHooks region256 rfl
  have h1 := Run.alloc _ _ _ _ 2 10 0x1020 h0
    (by norm_num [x86_64, Platform.range, GetOffsetOfData, AddPadding, Platform.add])
    (show Heap_Alloc x86_64 2 fresh256 10 = .done (used256, 0x1020) from rfl)
  exact Run.alloc _ _ _ _ 2 10 0x1050 h1
    (by norm_num [x86_64, Platform.range, GetOffsetOfData, AddPadding, Platform.add])
    (show Heap_Alloc x86_64 2 used256 10 = .done (twoUsed256, 0x1050) from rfl)

theorem run_used250 : Run x86_64 0x1000 250 used250 [0x1020] [] := by
  have h0 : Run x86_64 0x1000 250 fresh250 [] [] := Run.init blank _ allHooks region250 rfl
  exact Run.alloc _ _ _ _ 2 10 0x1020 h0
    (by norm_num [x86_64, Platform.range, GetOffsetOfData, AddPadding, Platform.add])
    (show Heap_Alloc x86_64 2 fresh250 10 = .done (used250, 0x1020) from rfl)

theorem sandwich256_inv : Inv x86_64 sandwich256 0x1000 0x1100
    [⟨0x1000, 48, true⟩, ⟨0x1030, 48, false⟩, ⟨0x1060, 160, true⟩] := by
  have hh : sandwich256.head = 0x100 := by decide
  refine ⟨⟨by decide, ?_, by decide, by decide, by decide, ?_, ?_, ?_, ?_, by decide, ?_⟩,
    ?_⟩
  · rw [hh]; norm_num [x86_64, Platform.range]
  · norm_num [x86_64, Platform.range]
  · norm_num [x86_64, Platform.range]
  · simp [Tiled]
  · decide
  · decide
  · simp [NoAdjacentFree]

/-- C14 on a 256-byte region after two requests of 10 bytes. -/
theorem no_memory_handed_out_twice_witness :
    ∃ l, FreeList twoUsed256 l ∧ ([0x1050, 0x1020] ++ []).Nodup ∧
      (∀ p ∈ [0x1050, 0x1020] ++ [],
        0x1000 ≤ x86_64.sub p (GetOffsetOfData x86_64) ∧
        0 < (twoUsed256.blocks (x86_64.sub p (GetOffsetOfData x86_64))).total_size ∧
        x86_64.sub p (GetOffsetOfData x86_64) +
          (twoUsed256.blocks (x86_64.sub p (GetOffsetOfData x86_64))).total_size ≤
          0x1000 + 256) ∧
      (∀ f ∈ l, 0x1000 ≤ f ∧ 0 < (twoUsed256.blocks f).total_size ∧
        f + (twoUsed256.blocks f).total_size ≤ 0x1000 + 256) ∧
      (∀ p ∈ [0x1050, 0x1020] ++ [], ∀ q ∈ [0x1050, 0x1020] ++ [], p ≠ q →
        x86_64.sub p (GetOffsetOfData x86_64) +
          (twoUsed256.blocks (x86_64.sub p (GetOffsetOfData x86_64))).total_size ≤
          x86_64.sub q (GetOffsetOfData x86_64) ∨
        x86_64.sub q (GetOffsetOfData x86_64) +
          (twoUsed256.blocks (x86_64.sub q (GetOffsetOfData x86_64))).total_size ≤
          x86_64.sub p (GetOffsetOfData x86_64)) ∧
      (∀ p ∈ [0x1050, 0x1020] ++ [], ∀ f ∈ l,
        x86_64.sub p (GetOffsetOfData x86_64) +
          (twoUsed256.blocks (x86_64.sub p (GetOffsetOfData x86_64))).total_size ≤ f ∨
        f + (twoUsed256.blocks f).total_size ≤ x86_64.sub p (GetOffsetOfData x86_64)) :=
  no_memory_handed_out_twice x86_64 x86_64_sane 0x1000 256 twoUsed256 [0x1050, 0x1020] []
    run_twoUsed256

/-- C16, amended, on a 250-byte region after a request of 10 bytes: the block at `0x1000` has 48
bytes, the free block at `0x1030` ends at the end of the region and has 202 bytes. -/
theorem block_sizes_aligned_witness :
    ∃ l, FreeList used250 l ∧
      ∀ b, (b ∈ l ∨ ∃ p ∈ [0x1020] ++ [], b = x86_64.sub p (GetOffsetOfData x86_64)) →
        x86_64.HEAP_ALIGNMENT ∣ b ∧
        ((b + (used250.blocks b).total_size < 0x1000 + 250 ∧
            x86_64.HEAP_ALIGNMENT ∣ (used250.blocks b).total_size) ∨
          (b + (used250.blocks b).total_size = 0x1000 + 250 ∧
            (x86_64.HEAP_ALIGNMENT ∣ (used250.blocks b).total_size ↔
              x86_64.HEAP_ALIGNMENT ∣ 250 - GetPaddingSizeFromPointer x86_64 0x1000))) :=
  block_sizes_aligned x86_64 x86_64_sane 0x1000 250 used250 [0x1020] [] run_used250

/-- C16 fails on a 250-byte region at the aligned address `0x1000`: `Heap_Init` returns and leaves
one free block of `total_size` 250, which is no multiple of `HEAP_ALIGNMENT` = 16; after
`Heap_Alloc(10)` the free block at `0x1030` has `total_size` 202. -/
theorem Heap_Init_keeps_unaligned_size :
    Heap_Init x86_64 blank (some allHooks) 0x1000 250 = .done fresh250 ∧
    FreeList fresh250 [0x1000] ∧ (fresh250.blocks 0x1000).total_size = 250 ∧
    ¬ x86_64.HEAP_ALIGNMENT ∣ (fresh250.blocks 0x1000).total_size ∧
    ∃ h1, Heap_Alloc x86_64 2 fresh250 10 = .done (h1, 0x1020) ∧
      FreeList h1 [0x1030] ∧ (h1.blocks 0x1030).total_size = 202 ∧
      ¬ x86_64.HEAP_ALIGNMENT ∣ (h1.blocks 0x1030).total_size :=
  ⟨rfl, by decide, by decide, by decide, _, rfl, by decide, by decide, by decide⟩

/-- C15, amended, for `Heap_Alloc(10)` on the state right after `Heap_Init` of a 256-byte region. -/
theorem Heap_Alloc_split_policy_witness :
    ∃ l1 b l2, FreeList fresh256 (l1 ++ b :: l2) ∧ 0x1020 = b + GetOffsetOfData x86_64 ∧
      (∀ x ∈ l1, (fresh256.blocks x).total_size < GetTotalSize x86_64 10) ∧
      GetTotalSize x86_64 10 ≤ (fresh256.blocks b).total_size ∧
      (used256.blocks b).p_next = 0 ∧
      ((fresh256.blocks b).total_size >
          AddPadding x86_64 (GetTotalSize x86_64 10) + GetTotalSize x86_64 0 →
        (used256.blocks b).total_size = AddPadding x86_64 (GetTotalSize x86_64 10) ∧
        (used256.blocks (b + AddPadding x86_64 (GetTotalSize x86_64 10))).total_size =
          (fresh256.blocks b).total_size - AddPadding x86_64 (GetTotalSize x86_64 10) ∧
        FreeList used256 (l1 ++ (b + AddPadding x86_64 (GetTotalSize x86_64 10)) :: l2)) ∧
      (¬ (fresh256.blocks b).total_size >
          AddPadding x86_64 (GetTotalSize x86_64 10) + GetTotalSize x86_64 0 →
        (used256.blocks b).total_size = (fresh256.blocks b).total_size ∧
        FreeList used256 (l1 ++ l2)) :=
  Heap_Alloc_split_policy x86_64 x86_64_sane fresh256 _ _ _ fresh256_inv 2 10 used256 0x1020
    (by norm_num [x86_64, Platform.range, GetOffsetOfData, AddPadding, Platform.add])
    rfl (by decide)

/-- C15 fails where what is left over equals `GetTotalSize(0)`: on an 84-byte region at `0x1000`
the only free block has 84 bytes; for `Heap_Alloc(10)` the rounded size is 48, so 36 bytes, which
is `GetTotalSize(0)`, are left over, yet the whole block is granted with `total_size` 84 and the
free list is left empty. -/
theorem Heap_Alloc_keeps_leftover_of_minimum_size :
    Heap_Init x86_64 blank (some allHooks) 0x1000 84 = .done fresh84 ∧
    FreeList fresh84 [0x1000] ∧ (fresh84.blocks 0x1000).total_size = 84 ∧
    AddPadding x86_64 (GetTotalSize x86_64 10) = 48 ∧
    (fresh84.blocks 0x1000).total_size - AddPadding x86_64 (GetTotalSize x86_64 10) ≥
      GetTotalSize x86_64 0 ∧
    ∃ h', Heap_Alloc x86_64 2 fresh84 10 = .done (h', 0x1020) ∧
      (h'.blocks 0x1000).total_size = 84 ∧ FreeList h' [] :=
  ⟨rfl, by decide, by decide, by decide, by decide, _, rfl, by decide, by decide⟩

/-- C18 for `Heap_Alloc(10)` on the state right after `Heap_Init` of a 256-byte region. -/
theorem Heap_Free_undoes_Heap_Alloc_witness :
    ∃ h2, Heap_Free x86_64 2 used256 0x1020 = .done h2 ∧
      (∃ l, FreeList fresh256 l ∧ l.Sorted (· < ·) ∧ FreeList h2 l ∧
        ∀ b ∈ l, (h2.blocks b).total_size = (fresh256.blocks b).total_size) ∧
      ∃ h3, Heap_Alloc x86_64 2 h2 10 = .done (h3, 0x1020) :=
  Heap_Free_undoes_Heap_Alloc x86_64 x86_64_sane fresh256 _ _ _ fresh256_inv 2 10 used256
    0x1020 (by norm_num [x86_64, Platform.range, GetOffsetOfData, AddPadding, Platform.add])
    rfl 2 (by decide)

/-- C17 on a 256-byte region: the block at `0x1030` is freed between the free blocks at `0x1000`
(48 bytes) and `0x1060` (160 bytes). -/
theorem Heap_Free_merges_both_sides_witness :
    0x1000 + (sandwich256.blocks 0x1000).total_size = 0x1030 ∧
    0x1030 + (sandwich256.blocks 0x1030).total_size = 0x1060 ∧
    FreeList sandwich256 [0x1000, 0x1060] ∧
    ∃ h', Heap_Free x86_64 2 sandwich256 (0x1030 + GetOffsetOfData x86_64) = .done h' ∧
      FreeList h' [0x1000] ∧
      (h'.blocks 0x1000).total_size = (sandwich256.blocks 0x1000).total_size +
        (sandwich256.blocks 0x1030).total_size + (sandwich256.blocks 0x1060).total_size ∧
      (h'.blocks 0x1000).p_next = (sandwich256.blocks 0x1060).p_next ∧
      0x1030 ∉ [0x1000] ∧ 0x1060 ∉ [0x1000] :=
  Heap_Free_merges_both_sides x86_64 x86_64_sane sandwich256 0x1000 0x1100 []
    ⟨0x1000, 48, true⟩ ⟨0x1030, 48, false⟩ ⟨0x1060, 160, true⟩ [] sandwich256_inv rfl rfl rfl
    (by decide) 2 (by decide)

/-- C12, on the 64-bit port: on a fresh 256-byte region `p = Heap_Alloc(SIZE_MAX - 35)` (a request
whose `GetTotalSize` wraps to 0) returns a pointer other than NULL, and `Heap_Free(p)` makes the
block at `0x1000` its own successor; after a further `Heap_Alloc(10)` the free list is
`0x1030, 0x1000`, which is not in ascending order. -/
theorem wrapped_request_unsorts_free_list :
    ∃ h1 p h2 h3 q,
      Heap_Alloc x86_64 2 fresh256 (2 ^ 64 - 36) = .done (h1, p) ∧ p ≠ 0 ∧
      Heap_Free x86_64 2 h1 p = .done h2 ∧
      (h2.blocks h2.head).p_next = 0x1000 ∧ (h2.blocks 0x1000).p_next = 0x1000 ∧
      Heap_Alloc x86_64 2 h2 10 = .done (h3, q) ∧ q ≠ 0 ∧
      FreeList h3 [0x1030, 0x1000] ∧ ¬ [0x1030, 0x1000].Sorted (· < ·) :=
  ⟨_, _, _, _, _, rfl, by decide, rfl, by decide, by decide, rfl, by decide, by decide,
    by decide⟩

/-- C13, on the 64-bit port: on a fresh 256-byte region, after `a = Heap_Alloc(10)`,
`w = Heap_Alloc(SIZE_MAX - 35)` (a request whose `GetTotalSize` wraps to 0) and `Heap_Free(a)`,
the free list is the block at `0x1000` with `total_size` 256, the whole region, while `w` is
outstanding and its block at `0x1030` has `total_size` 208: the block in use lies inside the
free block, and the sizes add up to more than the 256 bytes of the region. -/
theorem wrapped_request_overlaps_free_block :
    ∃ h1 a h2 w h3,
      Heap_Alloc x86_64 2 fresh256 10 = .done (h1, a) ∧ a ≠ 0 ∧
      Heap_Alloc x86_64 2 h1 (2 ^ 64 - 36) = .done (h2, w) ∧ w ≠ 0 ∧ w ≠ a ∧
      Heap_Free x86_64 2 h2 a = .done h3 ∧
      FreeList h3 [0x1000] ∧ (h3.blocks 0x1000).total_size = 256 ∧
      x86_64.sub w (GetOffsetOfData x86_64) = 0x1030 ∧ (h3.blocks 0x1030).total_size = 208 ∧
      0x1000 < 0x1030 ∧ 0x1030 < 0x1000 + (h3.blocks 0x1000).total_size ∧
      (h3.blocks 0x1000).total_size + (h3.blocks 0x1030).total_size +
        GetPaddingSizeFromPointer x86_64 0x1000 ≠ 256 :=
  ⟨_, _, _, _, _, rfl, by decide, rfl, by decide, by decide, rfl, by decide, by decide,
    by decide, by decide, by decide, by decide, by decide⟩

theorem regionUnaligned : Region x86_64 blank.head 0x1001 255 := by
  unfold Region
  norm_num [x86_64, Platform.range, blank]

/-- On a region that starts at an unaligned address the first block starts at the next aligned
address, and so does the data of the first request. -/
theorem unaligned_region_aligned_pointer :
    Heap_Alloc x86_64 2 freshUnaligned 10 =
      .done (granted x86_64 freshUnaligned freshUnaligned.head (GetTotalSize x86_64 10), 0x1030) ∧
    x86_64.HEAP_ALIGNMENT ∣ 0x1030 :=
  ⟨rfl, Run.alloc_aligned x86_64_sane (Run.init blank freshUnaligned allHooks regionUnaligned rfl)
    (by norm_num [x86_64, Platform.range, GetOffsetOfData, AddPadding, Platform.add])
    (show Heap_Alloc x86_64 2 freshUnaligned 10 = .done (_, 0x1030) from rfl) (by decide)⟩

/-- C19 on a 256-byte region with the block at `0x1030` in use between two free blocks: every
`Heap_Alloc` returns, and so does `Heap_Free` for NULL, for a rejected pointer and for the
pointer `0x1050` of the block in use. -/
theorem critical_section_discipline_witness :
    (∀ size, ∃ h' p, Heap_Alloc x86_64 4 sandwich256 size = .done (h', p) ∧
      (h'.calls = sandwich256.calls ++
          [Hook.enter_critical_section, Hook.exit_critical_section] ∨
        h'.calls = sandwich256.calls ++ [Hook.enter_critical_section,
          Hook.exit_critical_section, Hook.alloc_failed_hook])) ∧
    (∀ p_data,
      (p_data = 0 ∨
        GetPaddingSizeFromPointer x86_64 (x86_64.sub p_data (GetOffsetOfData x86_64)) ≠ 0 ∨
        (sandwich256.blocks (x86_64.sub p_data (GetOffsetOfData x86_64))).p_next ≠ 0 ∨
        CheckWatermarks x86_64 sandwich256 (x86_64.sub p_data (GetOffsetOfData x86_64)) = false ∨
        ∃ t ∈ [(⟨0x1000, 48, true⟩ : Tile), ⟨0x1030, 48, false⟩, ⟨0x1060, 160, true⟩],
          t.free = false ∧ p_data = t.addr + GetOffsetOfData x86_64) →
      ∃ h', Heap_Free x86_64 4 sandwich256 p_data = .done h' ∧
        ((h'.calls = sandwich256.calls ∨
          h'.calls = sandwich256.calls ++ [Hook.invalid_pointer_hook] ∨
          h'.calls = sandwich256.calls ++ [Hook.corrupted_data_hook]) ∨
        h'.calls = sandwich256.calls ++
          [Hook.enter_critical_section, Hook.exit_critical_section])) :=
  ⟨(critical_section_discipline x86_64 x86_64_sane).2.2.1 sandwich256 [0x1000, 0x1060] 4
      (by decide) (by decide) (by decide),
    (critical_section_discipline x86_64 x86_64_sane).2.2.2 sandwich256 0x1000 0x1100 _ 4
      sandwich256_inv (by decide)⟩

end HeapSpec
